import Mathlib

/-!
# Network-Practice: the forwarding trie and the distance-vector route table

A shallow embedding of `ip_forward.c` (namespace `Forward`) and `ip_route.c` (namespace
`Route`), followed by the properties proved about them. Machine integers are natural
numbers, reduced modulo `2 ^ 32` where the source's arithmetic can overflow. Pointers into
the trie are values of the inductive type `Forward.Node`; a pointer into the route list is
the position of the record in the list.

`init_node` of `ip_forward.c` does not store the children of a new node. What the block
returned by `malloc` holds in these two fields is therefore an argument of the embedding
(`Forward.block`): properties are proved for every content where they hold for every
content, and for zero-filled blocks where they depend on the children being `NULL`.
-/

namespace Forward

/-- The `struct info_struct` of `ip_forward.h`: the address and prefix length of a rule. -/
structure info where
  ip : Nat
  netsize : Nat
deriving DecidableEq, Repr

/-- A pointer to a `struct trie_node`: `null`, or a node with its `nic`, its `info` pointer
(`none` for `NULL`) and its two children. -/
inductive Node where
  | null : Node
  | mk (nic : Int) (info : Option info) (left right : Node) : Node
deriving DecidableEq, Repr

structure router_state where
  root : Node
deriving DecidableEq, Repr

/-- The two pointer fields `left` and `right` of a block of memory as `malloc` hands it out.
Their content is indeterminate: `NULL` in zero-filled memory, otherwise whatever an earlier
use of the memory left there, here the address of some node. An address at which there is no
node is not a value of `Node`: following it is undefined in C and outside this model. -/
structure block where
  left : Node
  right : Node
deriving DecidableEq, Repr

/-- A new node in the block `new` that `malloc` returned. The source stores `nic` and `info`
only; `left` and `right` are never stored and stay what the block holds. -/
def init_node (new : block) (nic : Int) (i : Option info) : Node :=
  Node.mk nic i new.left new.right

def init_info (ip netsize : Nat) : info := { ip := ip, netsize := netsize }

/-- The router whose root lies in the block `new`. -/
def initialize_router (new : block) : router_state := { root := init_node new (-1) none }

/-- The loop of `find`: `bit` is the probe bit and `nic` the best match so far. -/
def find_loop (ip : Nat) : Node → Nat → Int → Int
  | Node.null, _, nic => nic
  | Node.mk n _ l r, bit, nic =>
    if ip &&& bit ≠ 0 then find_loop ip r (bit >>> 1) (if n ≠ -1 then n else nic)
    else find_loop ip l (bit >>> 1) (if n ≠ -1 then n else nic)

def find (state : router_state) (ip : Nat) : Int :=
  find_loop ip state.root 0x80000000 (-1)

/-- The mask of `alter`, a 32-bit value. For `netsize > 32` the shift count of the source is
negative, which C leaves undefined. -/
def alter_mask (netsize : Nat) : Nat :=
  if netsize = 0 then 0 else (0xffffffff <<< (32 - netsize)) % 2 ^ 32

/-- The branch `next != NULL` of `alter`: the node of the prefix exists and gets the new
`nic`; its `info` is freed on a withdrawal and allocated on a (re)activation. -/
def alter_update (ip netsize : Nat) (nic : Int) : Node → Node
  | Node.null => Node.null
  | Node.mk _ i l r =>
    if nic = -1 ∧ i ≠ none then Node.mk nic none l r
    else if nic ≠ -1 ∧ i = none then Node.mk nic (some (init_info ip netsize)) l r
    else Node.mk nic i l r

/-- The second loop of `alter` from the node `curr`: dummy nodes are linked along the rest of
the path and the last one gets the rule. `fuel` bounds the shifts left in the 32-bit `bit`,
and `blocks fuel` is the block `malloc` returns for the dummy node of that iteration. -/
def alter_insert (blocks : Nat → block) (ip netsize : Nat) (nic : Int) (mask : Nat) :
    Nat → Nat → Node → Node
  | _, _, Node.null => Node.null
  | 0, _, Node.mk _ _ l r => Node.mk nic (some (init_info ip netsize)) l r
  | fuel + 1, bit, Node.mk n i l r =>
    if bit &&& mask ≠ 0 then
      if ip &&& bit ≠ 0 then
        Node.mk n i l (alter_insert blocks ip netsize nic mask fuel (bit >>> 1)
          (init_node (blocks fuel) (-1) none))
      else
        Node.mk n i (alter_insert blocks ip netsize nic mask fuel (bit >>> 1)
          (init_node (blocks fuel) (-1) none)) r
    else Node.mk nic (some (init_info ip netsize)) l r

/-- The first loop of `alter` from the node `curr`, followed by the update of the node the
loop stops at; the node is returned as the call leaves it. `fuel` bounds the shifts left in
the 32-bit `bit`. -/
def alter_walk (blocks : Nat → block) (ip netsize : Nat) (nic : Int) (mask : Nat) :
    Nat → Nat → Node → Node
  | _, _, Node.null => Node.null
  | 0, _, Node.mk n i l r => alter_update ip netsize nic (Node.mk n i l r)
  | fuel + 1, bit, Node.mk n i l r =>
    if bit &&& mask ≠ 0 then
      if (if ip &&& bit ≠ 0 then r else l) = Node.null then
        if nic ≠ -1 then
          alter_insert blocks ip netsize nic mask (fuel + 1) bit (Node.mk n i l r)
        else Node.mk n i l r
      else if ip &&& bit ≠ 0 then
        Node.mk n i l (alter_walk blocks ip netsize nic mask fuel (bit >>> 1) r)
      else
        Node.mk n i (alter_walk blocks ip netsize nic mask fuel (bit >>> 1) l) r
    else alter_update ip netsize nic (Node.mk n i l r)

/-- The call `alter(state, ip, netsize, nic)`, with the blocks `malloc` returns during it. -/
def alter (blocks : Nat → block) (state : router_state) (ip netsize : Nat) (nic : Int) :
    router_state :=
  { root := alter_walk blocks ip netsize nic (alter_mask netsize) 32 0x80000000 state.root }

def populate_forwarding_table (blocks : Nat → block) (state : router_state)
    (ip netsize : Nat) (nic : Int) : router_state :=
  alter blocks state ip netsize nic

/-- The entries `(ip, netsize, nic)` printed by `print_subtrie`, in the order printed. -/
def print_subtrie : Node → List (Nat × Nat × Int)
  | Node.null => []
  | Node.mk n i l r =>
    (match i with
      | some inf => [(inf.ip, inf.netsize, n)]
      | none => []) ++ print_subtrie l ++ print_subtrie r

def print_router_state (state : router_state) : List (Nat × Nat × Int) :=
  print_subtrie state.root

/-- One call `populate_forwarding_table(state, ip, netsize, nic)`. -/
structure Op where
  ip : Nat
  netsize : Nat
  nic : Int
deriving DecidableEq, Repr

/-- A block of zero-filled memory: both pointer fields are `NULL`. -/
def zero_block : block := ⟨Node.null, Node.null⟩

/-- Every block `malloc` returns during one call of `alter` is zero-filled. -/
def zeroed : Nat → block := fun _ => zero_block

/-- Every block `malloc` returns during any call is zero-filled. -/
def zeroed_heap : Nat → Nat → block := fun _ => zeroed

/-- The router obtained by the calls `ops`, oldest first, from a router initialised in the
block `new`; `heap c` gives the blocks `malloc` returns during call number `c`. -/
def run (new : block) (heap : Nat → Nat → block) (ops : List Op) : router_state :=
  ops.enum.foldl
    (fun s cop => populate_forwarding_table (heap cop.1) s cop.2.ip cop.2.netsize cop.2.nic)
    (initialize_router new)

/-- The first `n` bits of the 32-bit words `ip` and `A` are equal. -/
def prefix_match (ip A n : Nat) : Prop := ip / 2 ^ (32 - n) = A / 2 ^ (32 - n)

instance (ip A n : Nat) : Decidable (prefix_match ip A n) := by
  unfold prefix_match; infer_instance

/-- The interface most recently set among `ops` for the prefix of length `n` that covers `A`:
the `nic` of the last call whose `netsize` is `n` and whose first `n` bits are those of `A`;
`-1` when there is no such call or when that call was a withdrawal. -/
def last_set (ops : List Op) (A n : Nat) : Int :=
  ops.foldl (fun acc op => if op.netsize = n ∧ prefix_match op.ip A n then op.nic else acc) (-1)

/-- The `nic` field of the node reached from `node` by `k` steps of the descent of `find`
for address `A` with the probe bit starting at `bit`; `-1` when the descent leaves the trie. -/
def node_nic (A : Nat) : Node → Nat → Nat → Int
  | Node.null, _, _ => -1
  | Node.mk n _ _ _, _, 0 => n
  | Node.mk _ _ l r, bit, k + 1 =>
    if A &&& bit ≠ 0 then node_nic A r (bit >>> 1) k else node_nic A l (bit >>> 1) k

/-- Number of iterations the guard `(bit & mask) != 0` of `alter` admits from `bit`. -/
def walk_depth (mask : Nat) : Nat → Nat → Nat
  | 0, _ => 0
  | fuel + 1, bit => if bit &&& mask ≠ 0 then walk_depth mask fuel (bit >>> 1) + 1 else 0

/-- The addresses `ip` and `A` choose the same child at every iteration admitted by the guard. -/
def walk_agree (ip A mask : Nat) : Nat → Nat → Bool
  | 0, _ => true
  | fuel + 1, bit =>
    if bit &&& mask ≠ 0 then
      decide ((ip &&& bit ≠ 0) ↔ (A &&& bit ≠ 0)) && walk_agree ip A mask fuel (bit >>> 1)
    else true

/-- The node reached from `node` by the child choices `path`, `false` for the left (zero)
child and `true` for the right (one) child; `null` when the path leaves the trie. -/
def subtree : Node → List Bool → Node
  | Node.null, _ => Node.null
  | Node.mk n i l r, [] => Node.mk n i l r
  | Node.mk _ _ l r, b :: rest => if b then subtree r rest else subtree l rest

/-- The `nic` field of a node, `-1` for `null`. -/
def nic_of : Node → Int
  | Node.null => -1
  | Node.mk n _ _ _ => n

/-- The `n` most significant bits of the 32-bit word `ip`, most significant first. -/
def prefix_bits (ip n : Nat) : List Bool :=
  (List.range n).map (fun j => ip.testBit (31 - j))

/-- The child choices of the first `k` steps of the descent of `find` for `A`. -/
def probe_path (A : Nat) : Nat → Nat → List Bool
  | _, 0 => []
  | bit, k + 1 => decide (A &&& bit ≠ 0) :: probe_path A (bit >>> 1) k

/-- The child choices of the iterations of `alter` admitted by the guard
`(bit & mask) != 0`. -/
def walk_path (ip mask : Nat) : Nat → Nat → List Bool
  | 0, _ => []
  | fuel + 1, bit =>
    if bit &&& mask ≠ 0 then decide (ip &&& bit ≠ 0) :: walk_path ip mask fuel (bit >>> 1)
    else []

/-- The invariant of the subtrie `node` reached by `path`: no node lies deeper than 32, a node
has `info` exactly when its `nic` is not `-1`, and the `info` of a node holds the depth of
the node as `netsize` and an `ip` whose leading bits spell the path to the node. -/
def node_inv : Node → List Bool → Prop
  | Node.null, _ => True
  | Node.mk n i l r, path =>
    path.length ≤ 32 ∧ (i = none ↔ n = -1) ∧
    (∀ inf, i = some inf → inf.netsize = path.length ∧ prefix_bits inf.ip path.length = path) ∧
    node_inv l (path ++ [false]) ∧ node_inv r (path ++ [true])

/-- An entry of the enumeration with its address reduced to the bits of its prefix. -/
def entry_prefix (e : Nat × Nat × Int) : Nat × Nat × Int :=
  (e.1 / 2 ^ (32 - e.2.1), e.2.1, e.2.2)

/-- The address of an entry of the enumeration with the bits beyond its prefix length
cleared: the prefix the entry stands for, as a 32-bit address. -/
def prefix_address (e : Nat × Nat × Int) : Nat := e.1 - e.1 % 2 ^ (32 - e.2.1)

/-- The trie with the address of every `info` reduced to the bits of its prefix. -/
def prefix_only : Node → Node
  | Node.null => Node.null
  | Node.mk n i l r =>
    Node.mk n (i.map (fun inf => ⟨inf.ip / 2 ^ (32 - inf.netsize), inf.netsize⟩))
      (prefix_only l) (prefix_only r)

/-- The pre-order position of two node paths: `p` comes before `q` when `p` is a proper
prefix of `q`, or when at the first choice where they differ `p` takes the zero child and
`q` the one child. -/
def path_before : List Bool → List Bool → Bool
  | [], [] => false
  | [], _ :: _ => true
  | _ :: _, [] => false
  | a :: p, b :: q => (!a && b) || (a == b && path_before p q)

/-- The node path of an entry `(ip, netsize, nic)` of the enumeration. -/
def entry_path (e : Nat × Nat × Int) : List Bool := prefix_bits e.1 e.2.1

/-- Every `info` of the subtrie satisfies `P`. -/
def all_info (P : info → Prop) : Node → Prop
  | Node.null => True
  | Node.mk _ i l r => (∀ inf, i = some inf → P inf) ∧ all_info P l ∧ all_info P r

end Forward

namespace Route

/-- The two constants of `capacity.h`, which is not among the sources: the number of
interfaces and the metric that stands for "unreachable". -/
structure capacity where
  NUM_NICS : Nat
  METRIC_UNREACHABLE : Nat
deriving DecidableEq, Repr

/-- A record of the route list (`struct subnet_node` without its `next` link). -/
structure subnet_node where
  subnet_ip : Nat
  netsize : Nat
  forwarding_nic : Int
  forwarding_metric : Nat
  neighbor_table : List Nat
deriving DecidableEq, Repr

/-- The records linked after the dummy head `root`, in list order. -/
abbrev router_state := List subnet_node

/-- The arguments of one call of `print_advertisement`. -/
structure advertisement where
  ip : Nat
  netsize : Nat
  nic : Int
  metric : Nat
  update_id : Nat
deriving DecidableEq, Repr

/-- Addition of `unsigned int` values. -/
def uint_add (a b : Nat) : Nat := (a + b) % 2 ^ 32

/-- The store `table[nic] = v` for an index `nic` of the array. For an index outside
`0 .. NUM_NICS-1` the store of the source lands outside the array, on whatever lies next to
it in memory; that is undefined in C and outside this model, which leaves the array as it is:
the model of the content of a record is faithful for `nic` in range only. -/
def table_store (table : List Nat) (nic : Int) (v : Nat) : List Nat :=
  if 0 ≤ nic then table.set nic.toNat v else table

def print_ip (ip : Nat) : String :=
  toString ((ip >>> 24) &&& 0xFF) ++ "." ++ toString ((ip >>> 16) &&& 0xFF) ++ "." ++
    toString ((ip >>> 8) &&& 0xFF) ++ "." ++ toString (ip &&& 0xFF)

def print_advertisement (ip netsize : Nat) (nic : Int) (metric update_id : Nat) : String :=
  "A " ++ print_ip ip ++ "/" ++ toString netsize ++ " " ++ toString metric ++ " " ++
    toString update_id ++ "\n" ++
  "T " ++ print_ip ip ++ "/" ++ toString netsize ++ " " ++ toString nic ++ "\n"

def init_node (cap : capacity) (ip netsize : Nat) (nic : Int) (metric : Nat) : subnet_node :=
  { subnet_ip := ip
    netsize := netsize
    forwarding_nic := nic
    forwarding_metric := uint_add metric 1
    neighbor_table :=
      table_store (List.replicate cap.NUM_NICS cap.METRIC_UNREACHABLE) nic (uint_add metric 1) }

def initialize_router : router_state := []

/-- The position of the record `find` returns a pointer to; `none` for `NULL`. -/
def find : router_state → Nat → Nat → Option Nat
  | [], _, _ => none
  | curr :: rest, ip, netsize =>
    if curr.subnet_ip = ip ∧ curr.netsize = netsize then some 0
    else (find rest ip netsize).map (· + 1)

/-- Unlinks the record at position `to_delete`. -/
def remove_node : router_state → Nat → router_state
  | [], _ => []
  | _ :: rest, 0 => rest
  | curr :: rest, to_delete + 1 => curr :: remove_node rest to_delete

/-- The loop of `update_min_nic` from index `i` on, over the entries not yet visited. -/
def update_min_nic_loop : List Nat → Nat → Int → Nat → Int × Nat
  | [], _, new_nic, min_metric => (new_nic, min_metric)
  | x :: rest, i, new_nic, min_metric =>
    if x < min_metric then update_min_nic_loop rest (i + 1) i x
    else update_min_nic_loop rest (i + 1) new_nic min_metric

/-- Returns the record with its forwarding fields set, and `new_nic`. -/
def update_min_nic (cap : capacity) (to_check : subnet_node) : subnet_node × Int :=
  let res := update_min_nic_loop to_check.neighbor_table 0 (-1) cap.METRIC_UNREACHABLE
  ({ to_check with forwarding_nic := res.1, forwarding_metric := res.2 }, res.1)

def is_unreachable (cap : capacity) (to_check : subnet_node) : Bool :=
  to_check.neighbor_table.foldl
    (fun acc x => if x < cap.METRIC_UNREACHABLE then false else acc) true

def add_new_loop (new : subnet_node) (ip netsize : Nat) : router_state → router_state
  | [] => [new]
  | curr :: rest =>
    if curr.subnet_ip ≤ ip ∧ curr.netsize < netsize then new :: curr :: rest
    else curr :: add_new_loop new ip netsize rest

def add_new (cap : capacity) (state : router_state) (ip netsize : Nat) (nic : Int)
    (metric : Nat) : router_state :=
  add_new_loop (init_node cap ip netsize nic metric) ip netsize state

/-- The branches of `process_update` taken when `find` returned the record `curr`
(the source's lines 188-223). Returns the record as the call leaves it, `none` when
`remove_node` unlinked it, and the advertisements printed. -/
def process_update_found (cap : capacity) (curr : subnet_node) (ip netsize : Nat) (nic : Int)
    (metric update_id : Nat) : Option subnet_node × List advertisement :=
  if uint_add metric 1 ≥ cap.METRIC_UNREACHABLE then
    let curr1 : subnet_node :=
      { curr with neighbor_table :=
          table_store curr.neighbor_table nic cap.METRIC_UNREACHABLE }
    if curr1.forwarding_nic = nic then
      let res := update_min_nic cap curr1
      if res.2 < 0 then
        (none, [⟨ip, netsize, -1, cap.METRIC_UNREACHABLE, update_id⟩])
      else
        (some res.1,
          [⟨ip, netsize, res.1.forwarding_nic, res.1.forwarding_metric, update_id⟩])
    else (some curr1, [])
  else if nic = curr.forwarding_nic ∧ metric ≥ curr.forwarding_metric then
    let curr1 : subnet_node :=
      { curr with neighbor_table := table_store curr.neighbor_table nic (uint_add metric 1) }
    let curr2 := (update_min_nic cap curr1).1
    (some curr2, [⟨ip, netsize, curr2.forwarding_nic, curr2.forwarding_metric, update_id⟩])
  else
    let curr1 : subnet_node :=
      { curr with neighbor_table := table_store curr.neighbor_table nic (uint_add metric 1) }
    if uint_add metric 1 < curr1.forwarding_metric then
      let curr2 := (update_min_nic cap curr1).1
      (some curr2, [⟨ip, netsize, curr2.forwarding_nic, curr2.forwarding_metric, update_id⟩])
    else if uint_add metric 1 = curr1.forwarding_metric ∧ nic < curr1.forwarding_nic then
      let curr2 : subnet_node := { curr1 with forwarding_nic := nic }
      (some curr2, [⟨ip, netsize, curr2.forwarding_nic, curr2.forwarding_metric, update_id⟩])
    else (some curr1, [])

/-- Returns the new state and the advertisements printed by the call. The record `find`
points to is updated in place, or unlinked by `remove_node`. -/
def process_update (cap : capacity) (state : router_state) (ip netsize : Nat) (nic : Int)
    (metric update_id : Nat) : router_state × List advertisement :=
  match find state ip netsize with
  | none =>
    if uint_add metric 1 < cap.METRIC_UNREACHABLE then
      (add_new cap state ip netsize nic metric,
        [⟨ip, netsize, nic, uint_add metric 1, update_id⟩])
    else (state, [])
  | some p =>
    match state[p]? with
    | none => (state, [])
    | some curr =>
      match process_update_found cap curr ip netsize nic metric update_id with
      | (none, out) => (remove_node state p, out)
      | (some curr2, out) => (state.set p curr2, out)

/-- The interface index `nic` is one of `0 .. NUM_NICS-1`. -/
def nic_in_range (cap : capacity) (nic : Int) : Prop := 0 ≤ nic ∧ nic < (cap.NUM_NICS : Int)

instance (cap : capacity) (nic : Int) : Decidable (nic_in_range cap nic) := by
  unfold nic_in_range; infer_instance

/-- The route tables reachable from `initialize_router` by calls of `process_update` whose
interface is in range and whose metric is an `unsigned int`. -/
inductive Reachable (cap : capacity) : router_state → Prop
  | init : Reachable cap initialize_router
  | step (s : router_state) (ip netsize : Nat) (nic : Int) (metric update_id : Nat) :
      Reachable cap s → nic_in_range cap nic → metric < 2 ^ 32 →
      Reachable cap (process_update cap s ip netsize nic metric update_id).1

/-- The record `find` points to, if any. -/
def find_node (state : router_state) (ip netsize : Nat) : Option subnet_node :=
  (find state ip netsize).bind (fun p => state[p]?)

/-- The pair `(forwarding_nic, forwarding_metric)` of a record. -/
def route_of (r : subnet_node) : Int × Nat := (r.forwarding_nic, r.forwarding_metric)

/-- The best route `(forwarding_nic, forwarding_metric)` the table holds for a prefix. -/
def best_route (state : router_state) (ip netsize : Nat) : Option (Int × Nat) :=
  (find_node state ip netsize).map route_of

/-- The invariant of a record: its table has `NUM_NICS` entries, `forwarding_metric` is the
least entry and is finite, and `forwarding_nic` is the lowest index holding it. -/
def record_inv (cap : capacity) (r : subnet_node) : Prop :=
  r.neighbor_table.length = cap.NUM_NICS ∧
  r.forwarding_metric < cap.METRIC_UNREACHABLE ∧
  (∀ x ∈ r.neighbor_table, r.forwarding_metric ≤ x) ∧
  ∃ j : Nat, r.forwarding_nic = (j : Int) ∧
    r.neighbor_table[j]? = some r.forwarding_metric ∧
    ∀ j2, j2 < j → ∀ x, r.neighbor_table[j2]? = some x → r.forwarding_metric < x

/-- The key `(subnet_ip, netsize)` of a record. -/
def record_key (r : subnet_node) : Nat × Nat := (r.subnet_ip, r.netsize)

/-- The invariant of a route table: every record satisfies `record_inv` and no two records
have the same key. -/
def state_inv (cap : capacity) (s : router_state) : Prop :=
  (∀ r ∈ s, record_inv cap r) ∧ (s.map record_key).Nodup

/-- Modelled from the spec: `capacity.h` is not among the sources. The spec takes the
unreachable sentinel to be the largest value of the metric type, here `unsigned int`; four
interfaces are an arbitrary positive number. Used for concrete evaluations only. -/
def spec_capacity : capacity := ⟨4, 4294967295⟩

/-- The text `process_update` prints for the advertisements `out`. -/
def printed (out : List advertisement) : String :=
  String.join (out.map (fun a => print_advertisement a.ip a.netsize a.nic a.metric a.update_id))

/-- The calls `process_update(state, ip, netsize, nic, metric, update_id)` for one prefix and
the triples `(nic, metric, update_id)` of `us`, oldest first: the final state and everything
printed. -/
def process_updates (cap : capacity) (s : router_state) (ip netsize : Nat) :
    List (Int × Nat × Nat) → router_state × List advertisement
  | [] => (s, [])
  | u :: rest =>
    ((process_updates cap (process_update cap s ip netsize u.1 u.2.1 u.2.2).1 ip netsize
        rest).1,
      (process_update cap s ip netsize u.1 u.2.1 u.2.2).2 ++
        (process_updates cap (process_update cap s ip netsize u.1 u.2.1 u.2.2).1 ip netsize
          rest).2)

/-- An advertisement of a withdrawal: interface `-1` and metric `METRIC_UNREACHABLE`. -/
def is_withdrawal (cap : capacity) (a : advertisement) : Bool :=
  a.nic == -1 && a.metric == cap.METRIC_UNREACHABLE

/-- One call `process_update(state, ip, netsize, nic, metric, update_id)`. -/
structure Update where
  ip : Nat
  netsize : Nat
  nic : Int
  metric : Nat
  update_id : Nat
deriving DecidableEq, Repr

/-- The route table obtained from an initialised router by the calls `us`, oldest first. -/
def run_updates (cap : capacity) (us : List Update) : router_state :=
  us.foldl (fun s u => (process_update cap s u.ip u.netsize u.nic u.metric u.update_id).1)
    initialize_router

/-- The cost of the latest announcement, in the words of the claim: `metric + 1` capped at
`METRIC_UNREACHABLE` for the last update of `us` for the prefix `(ip, netsize)` received on
interface `i`, and `METRIC_UNREACHABLE` when there is none. -/
def last_cost (cap : capacity) (us : List Update) (ip netsize i : Nat) : Nat :=
  us.foldl (fun acc u =>
    if u.ip = ip ∧ u.netsize = netsize ∧ u.nic = (i : Int) then
      min (u.metric + 1) cap.METRIC_UNREACHABLE
    else acc) cap.METRIC_UNREACHABLE

end Route

namespace Forward

theorem node_nic_null (A bit k : Nat) : node_nic A Node.null bit k = -1 := by
  cases k <;> rfl

theorem alter_update_mk (ip netsize : Nat) (nic n : Int) (i : Option info) (l r : Node) :
    ∃ j, alter_update ip netsize nic (Node.mk n i l r) = Node.mk nic j l r := by
  simp only [alter_update]
  split_ifs <;> exact ⟨_, rfl⟩

theorem node_nic_alter_update (ip netsize : Nat) (nic : Int) (A : Nat) (n : Int)
    (i : Option info) (l r : Node) (bit k : Nat) :
    node_nic A (alter_update ip netsize nic (Node.mk n i l r)) bit k
      = if k = 0 then nic else node_nic A (Node.mk n i l r) bit k := by
  obtain ⟨j, hj⟩ := alter_update_mk ip netsize nic n i l r
  rw [hj]
  cases k <;> simp [node_nic]

theorem node_nic_insert_fresh (ip netsize : Nat) (nic : Int) (mask A : Nat) :
    ∀ (fuel bit k : Nat),
      node_nic A
          (alter_insert zeroed ip netsize nic mask fuel bit (init_node zero_block (-1) none))
          bit k
        = if k = walk_depth mask fuel bit ∧ walk_agree ip A mask fuel bit = true then nic
          else -1 := by
  intro fuel
  induction fuel with
  | zero =>
    intro bit k
    cases k <;>
      simp [alter_insert, init_node, zeroed, zero_block, node_nic, walk_depth, walk_agree,
        node_nic_null]
  | succ fuel ih =>
    intro bit k
    simp only [alter_insert, init_node, zeroed, zero_block, walk_depth, walk_agree]
    by_cases hm : bit &&& mask ≠ 0
    · simp only [if_pos hm]
      by_cases hi : ip &&& bit ≠ 0
      · simp only [if_pos hi]
        cases k with
        | zero => simp [node_nic]
        | succ k =>
          simp only [node_nic]
          by_cases hA : A &&& bit ≠ 0
          · have := ih (bit >>> 1) k
            simp only [init_node, zeroed, zero_block] at this
            simp [hA, hi, this]
          · simp [hA, hi, node_nic_null]
      · simp only [if_neg hi]
        cases k with
        | zero => simp [node_nic]
        | succ k =>
          simp only [node_nic]
          by_cases hA : A &&& bit ≠ 0
          · simp [hA, hi, node_nic_null]
          · have := ih (bit >>> 1) k
            simp only [init_node, zeroed, zero_block] at this
            simp [hA, hi, this]
    · simp only [if_neg hm]
      cases k <;> simp [node_nic, node_nic_null]

theorem node_nic_alter_insert (ip netsize : Nat) (nic : Int) (mask A : Nat)
    (fuel bit k : Nat) (n : Int) (i : Option info) (l r : Node)
    (hnull : (if ip &&& bit ≠ 0 then r else l) = Node.null) :
    node_nic A (alter_insert zeroed ip netsize nic mask fuel bit (Node.mk n i l r)) bit k
      = if k = walk_depth mask fuel bit ∧ walk_agree ip A mask fuel bit = true then nic
        else node_nic A (Node.mk n i l r) bit k := by
  cases fuel with
  | zero => cases k <;> simp [alter_insert, node_nic, walk_depth, walk_agree]
  | succ fuel =>
    simp only [alter_insert, walk_depth, walk_agree]
    by_cases hm : bit &&& mask ≠ 0
    · simp only [if_pos hm]
      by_cases hi : ip &&& bit ≠ 0
      · simp only [if_pos hi] at hnull ⊢
        subst hnull
        cases k with
        | zero => simp [node_nic]
        | succ k =>
          simp only [node_nic]
          by_cases hA : A &&& bit ≠ 0
          · simp [hA, hi, zeroed, node_nic_insert_fresh, node_nic_null]
          · simp [hA, hi]
      · simp only [if_neg hi] at hnull ⊢
        subst hnull
        cases k with
        | zero => simp [node_nic]
        | succ k =>
          simp only [node_nic]
          by_cases hA : A &&& bit ≠ 0
          · simp [hA, hi]
          · simp [hA, hi, zeroed, node_nic_insert_fresh, node_nic_null]
    · simp only [if_neg hm]
      cases k <;> simp [node_nic]

theorem node_nic_alter_walk (ip netsize : Nat) (nic : Int) (mask A : Nat) :
    ∀ (fuel bit k : Nat) (n : Int) (i : Option info) (l r : Node),
      node_nic A (alter_walk zeroed ip netsize nic mask fuel bit (Node.mk n i l r)) bit k
        = if k = walk_depth mask fuel bit ∧ walk_agree ip A mask fuel bit = true then nic
          else node_nic A (Node.mk n i l r) bit k := by
  intro fuel
  induction fuel with
  | zero =>
    intro bit k n i l r
    simp [alter_walk, node_nic_alter_update, walk_depth, walk_agree]
  | succ fuel ih =>
    intro bit k n i l r
    simp only [alter_walk, walk_depth, walk_agree]
    by_cases hm : bit &&& mask ≠ 0
    · simp only [if_pos hm]
      by_cases hnull : (if ip &&& bit ≠ 0 then r else l) = Node.null
      · simp only [if_pos hnull]
        by_cases hnic : nic ≠ -1
        · simp only [if_pos hnic]
          rw [node_nic_alter_insert ip netsize nic mask A (fuel + 1) bit k n i l r hnull]
          simp only [walk_depth, walk_agree, if_pos hm]
        · simp only [if_neg hnic]
          have hnic' : nic = -1 := by simpa using hnic
          split_ifs with hc
          · obtain ⟨hk, hag⟩ := hc
            subst hk
            simp only [node_nic]
            simp only [Bool.and_eq_true, decide_eq_true_eq] at hag
            by_cases hA : A &&& bit ≠ 0
            · have hi : ip &&& bit ≠ 0 := hag.1.2 hA
              simp only [if_pos hi] at hnull
              simp [hA, hnull, node_nic_null, hnic']
            · have hi : ¬ ip &&& bit ≠ 0 := fun h => hA (hag.1.1 h)
              simp only [if_neg hi] at hnull
              simp [hA, hnull, node_nic_null, hnic']
          · rfl
      · simp only [if_neg hnull]
        by_cases hi : ip &&& bit ≠ 0
        · simp only [if_pos hi] at hnull ⊢
          cases r with
          | null => exact absurd rfl hnull
          | mk n2 i2 l2 r2 =>
            cases k with
            | zero => simp [node_nic]
            | succ k =>
              simp only [node_nic]
              by_cases hA : A &&& bit ≠ 0
              · simp only [if_pos hA]
                rw [ih]
                simp [hA, hi]
              · simp [hA, hi]
        · simp only [if_neg hi] at hnull ⊢
          cases l with
          | null => exact absurd rfl hnull
          | mk n2 i2 l2 r2 =>
            cases k with
            | zero => simp [node_nic]
            | succ k =>
              simp only [node_nic]
              by_cases hA : A &&& bit ≠ 0
              · simp [hA, hi]
              · simp only [if_neg hA]
                rw [ih]
                simp [hA, hi]
    · simp only [if_neg hm]
      rw [node_nic_alter_update]
      simp

/-- The descent of `find` returns the `nic` of the deepest node on the path whose `nic` is
not `-1`, and its starting value when there is none. -/
theorem find_loop_none (A : Nat) :
    ∀ (t : Node) (bit : Nat) (nic0 : Int),
      (∀ k, node_nic A t bit k = -1) → find_loop A t bit nic0 = nic0 := by
  intro t
  induction t with
  | null => intro bit nic0 _; rfl
  | mk n i l r ihl ihr =>
    intro bit nic0 h
    have h0 : n = -1 := by simpa [node_nic] using h 0
    simp only [find_loop]
    by_cases hA : A &&& bit ≠ 0
    · simp only [if_pos hA]
      rw [ihr]
      · simp [h0]
      · intro k
        have := h (k + 1)
        simpa [node_nic, hA] using this
    · simp only [if_neg hA]
      rw [ihl]
      · simp [h0]
      · intro k
        have := h (k + 1)
        simpa [node_nic, hA] using this

theorem find_loop_deepest (A : Nat) :
    ∀ (t : Node) (bit : Nat) (nic0 : Int) (k : Nat),
      node_nic A t bit k ≠ -1 → (∀ m, k < m → node_nic A t bit m = -1) →
      find_loop A t bit nic0 = node_nic A t bit k := by
  intro t
  induction t with
  | null => intro bit nic0 k h; exact absurd (node_nic_null A bit k) h
  | mk n i l r ihl ihr =>
    intro bit nic0 k hk hdeep
    simp only [find_loop]
    cases k with
    | zero =>
      have hn : n ≠ -1 := by simpa [node_nic] using hk
      by_cases hA : A &&& bit ≠ 0
      · simp only [if_pos hA, if_pos hn, node_nic]
        apply find_loop_none
        intro m
        have := hdeep (m + 1) (Nat.succ_pos m)
        simpa [node_nic, hA] using this
      · simp only [if_neg hA, if_pos hn, node_nic]
        apply find_loop_none
        intro m
        have := hdeep (m + 1) (Nat.succ_pos m)
        simpa [node_nic, hA] using this
    | succ k =>
      by_cases hA : A &&& bit ≠ 0
      · simp only [node_nic, if_pos hA] at hk ⊢
        apply ihr _ _ _ hk
        intro m hm
        have := hdeep (m + 1) (Nat.succ_lt_succ hm)
        simpa [node_nic, hA] using this
      · simp only [node_nic, if_neg hA] at hk ⊢
        apply ihl _ _ _ hk
        intro m hm
        have := hdeep (m + 1) (Nat.succ_lt_succ hm)
        simpa [node_nic, hA] using this

/-- The probe bit is exhausted before the fuel: more fuel does not change `alter_insert`. -/
theorem alter_insert_fuel (ip netsize : Nat) (nic : Int) (mask extra : Nat) :
    ∀ (fuel bit : Nat) (t : Node), bit < 2 ^ fuel →
      alter_insert zeroed ip netsize nic mask (fuel + extra) bit t
        = alter_insert zeroed ip netsize nic mask fuel bit t := by
  intro fuel
  induction fuel with
  | zero =>
    intro bit t hbit
    have hb : bit = 0 := by simpa using hbit
    subst hb
    cases t with
    | null => cases extra <;> simp [alter_insert]
    | mk n i l r => cases extra <;> simp [alter_insert]
  | succ fuel ih =>
    intro bit t hbit
    have hshift : bit >>> 1 < 2 ^ fuel := by
      rw [Nat.shiftRight_eq_div_pow]
      rw [Nat.pow_succ] at hbit
      omega
    cases t with
    | null => simp [alter_insert]
    | mk n i l r =>
      have e : fuel + 1 + extra = (fuel + extra) + 1 := by omega
      rw [e]
      simp only [alter_insert, ih _ _ hshift, zeroed]

/-- The probe bit is exhausted before the fuel: more fuel does not change `alter_walk`. -/
theorem alter_walk_fuel (ip netsize : Nat) (nic : Int) (mask extra : Nat) :
    ∀ (fuel bit : Nat) (t : Node), bit < 2 ^ fuel →
      alter_walk zeroed ip netsize nic mask (fuel + extra) bit t
        = alter_walk zeroed ip netsize nic mask fuel bit t := by
  intro fuel
  induction fuel with
  | zero =>
    intro bit t hbit
    have hb : bit = 0 := by simpa using hbit
    subst hb
    cases t with
    | null => cases extra <;> simp [alter_walk]
    | mk n i l r => cases extra <;> simp [alter_walk]
  | succ fuel ih =>
    intro bit t hbit
    have hshift : bit >>> 1 < 2 ^ fuel := by
      rw [Nat.shiftRight_eq_div_pow]
      rw [Nat.pow_succ] at hbit
      omega
    cases t with
    | null => simp [alter_walk]
    | mk n i l r =>
      have e : fuel + 1 + extra = (fuel + extra) + 1 := by omega
      have hins := alter_insert_fuel ip netsize nic mask extra (fuel + 1) bit
        (Node.mk n i l r) hbit
      rw [e] at hins ⊢
      simp only [alter_walk, ih _ _ hshift, hins]

theorem guard_iff : ∀ n, n < 33 → ∀ d, d < 33 →
    (((0x80000000 >>> d) &&& alter_mask n ≠ 0) ↔ d < n) := by
  decide

theorem probe_eq_two_pow (d : Nat) (hd : d < 32) : 0x80000000 >>> d = 2 ^ (31 - d) := by
  rw [Nat.shiftRight_eq_div_pow]
  have : (0x80000000 : Nat) = 2 ^ 31 := by norm_num
  rw [this, Nat.pow_div (by omega) (by norm_num)]

theorem and_probe_ne_zero (x d : Nat) (hd : d < 32) :
    (x &&& (0x80000000 >>> d) ≠ 0) ↔ x.testBit (31 - d) = true := by
  rw [probe_eq_two_pow d hd, Nat.and_two_pow]
  cases x.testBit (31 - d) <;> simp

theorem walk_depth_probe (n : Nat) (hn : n ≤ 32) :
    ∀ (fuel d : Nat), d + fuel = 32 →
      walk_depth (alter_mask n) fuel (0x80000000 >>> d) = n - d := by
  intro fuel
  induction fuel with
  | zero => intro d hd; simp only [walk_depth]; omega
  | succ fuel ih =>
    intro d hd
    simp only [walk_depth]
    have hg := guard_iff n (by omega) d (by omega)
    by_cases hlt : d < n
    · rw [if_pos (hg.2 hlt), ← Nat.shiftRight_add, ih (d + 1) (by omega)]
      omega
    · rw [if_neg (fun h => hlt (hg.1 h))]
      omega

theorem walk_agree_probe (ip A n : Nat) (hn : n ≤ 32) :
    ∀ (fuel d : Nat), d + fuel = 32 →
      (walk_agree ip A (alter_mask n) fuel (0x80000000 >>> d) = true ↔
        ∀ j, d ≤ j → j < n → ip.testBit (31 - j) = A.testBit (31 - j)) := by
  intro fuel
  induction fuel with
  | zero =>
    intro d hd
    simp only [walk_agree, true_iff]
    intro j h1 h2; omega
  | succ fuel ih =>
    intro d hd
    simp only [walk_agree]
    have hg := guard_iff n (by omega) d (by omega)
    by_cases hlt : d < n
    · rw [if_pos (hg.2 hlt), ← Nat.shiftRight_add, Bool.and_eq_true, ih (d + 1) (by omega),
        decide_eq_true_eq, and_probe_ne_zero ip d (by omega), and_probe_ne_zero A d (by omega)]
      constructor
      · rintro ⟨h0, h1⟩ j hj1 hj2
        rcases Nat.eq_or_lt_of_le hj1 with h | h
        · subst h
          cases hi : ip.testBit (31 - d) <;> cases ha : A.testBit (31 - d) <;> simp_all
        · exact h1 j h hj2
      · intro h
        refine ⟨?_, fun j hj1 hj2 => h j (by omega) hj2⟩
        rw [h d (le_refl d) hlt]
    · rw [if_neg (fun h => hlt (hg.1 h))]
      simp only [true_iff]
      intro j h1 h2; omega

theorem prefix_match_iff (ip A n : Nat) (hip : ip < 2 ^ 32) (hA : A < 2 ^ 32) (hn : n ≤ 32) :
    prefix_match ip A n ↔ ∀ j, j < n → ip.testBit (31 - j) = A.testBit (31 - j) := by
  unfold prefix_match
  rw [← Nat.shiftRight_eq_div_pow, ← Nat.shiftRight_eq_div_pow]
  constructor
  · intro h j hj
    have := congrArg (fun x => x.testBit (n - 1 - j)) h
    simp only [Nat.testBit_shiftRight] at this
    have e : 32 - n + (n - 1 - j) = 31 - j := by omega
    rwa [e] at this
  · intro h
    apply Nat.eq_of_testBit_eq
    intro i
    simp only [Nat.testBit_shiftRight]
    by_cases hi : 32 - n + i < 32
    · have := h (31 - (32 - n + i)) (by omega)
      have e : 31 - (31 - (32 - n + i)) = 32 - n + i := by omega
      rwa [e] at this
    · have hp : 2 ^ 32 ≤ 2 ^ (32 - n + i) := Nat.pow_le_pow_right (by norm_num) (by omega)
      rw [Nat.testBit_lt_two_pow (lt_of_lt_of_le hip hp),
        Nat.testBit_lt_two_pow (lt_of_lt_of_le hA hp)]

theorem walk_depth_top (n : Nat) (hn : n ≤ 32) :
    walk_depth (alter_mask n) 32 0x80000000 = n := by
  have := walk_depth_probe n hn 32 0 rfl
  simpa using this

theorem walk_agree_top (ip A n : Nat) (hip : ip < 2 ^ 32) (hA : A < 2 ^ 32) (hn : n ≤ 32) :
    walk_agree ip A (alter_mask n) 32 0x80000000 = true ↔ prefix_match ip A n := by
  have := walk_agree_probe ip A n hn 32 0 rfl
  rw [prefix_match_iff ip A n hip hA hn]
  simp only [Nat.shiftRight_zero] at this
  rw [this]
  constructor
  · intro h j hj; exact h j (Nat.zero_le j) hj
  · intro h j _ hj; exact h j hj

theorem run_snoc_heap (new : block) (heap : Nat → Nat → block) (ops : List Op) (op : Op) :
    run new heap (ops ++ [op])
      = populate_forwarding_table (heap ops.length) (run new heap ops)
          op.ip op.netsize op.nic := by
  simp [run, List.enum_append, List.enumFrom_cons, List.foldl_append]

theorem run_snoc (ops : List Op) (op : Op) :
    run zero_block zeroed_heap (ops ++ [op])
      = populate_forwarding_table zeroed (run zero_block zeroed_heap ops)
          op.ip op.netsize op.nic := by
  rw [run_snoc_heap]
  rfl

theorem last_set_snoc (ops : List Op) (op : Op) (A n : Nat) :
    last_set (ops ++ [op]) A n
      = if op.netsize = n ∧ prefix_match op.ip A n then op.nic else last_set ops A n := by
  simp [last_set, List.foldl_append]

theorem alter_insert_ne_null (blocks : Nat → block) (ip netsize : Nat) (nic : Int)
    (mask fuel bit : Nat)
    (n : Int) (i : Option info) (l r : Node) :
    alter_insert blocks ip netsize nic mask fuel bit (Node.mk n i l r) ≠ Node.null := by
  cases fuel with
  | zero => simp [alter_insert]
  | succ fuel => simp only [alter_insert]; split_ifs <;> simp

theorem alter_walk_ne_null (blocks : Nat → block) (ip netsize : Nat) (nic : Int)
    (mask fuel bit : Nat)
    (n : Int) (i : Option info) (l r : Node) :
    alter_walk blocks ip netsize nic mask fuel bit (Node.mk n i l r) ≠ Node.null := by
  have hu : alter_update ip netsize nic (Node.mk n i l r) ≠ Node.null := by
    obtain ⟨j, hj⟩ := alter_update_mk ip netsize nic n i l r
    simp [hj]
  cases fuel with
  | zero => simpa [alter_walk] using hu
  | succ fuel =>
    simp only [alter_walk]
    split_ifs <;> first | exact hu | exact alter_insert_ne_null _ _ _ _ _ _ _ _ _ _ _ | simp

theorem root_ne_null (ops : List Op) : (run zero_block zeroed_heap ops).root ≠ Node.null := by
  induction ops using List.reverseRecOn with
  | nil => simp [run, initialize_router, init_node, zeroed, zero_block]
  | append_singleton ops op ih =>
    rw [run_snoc]
    simp only [populate_forwarding_table, alter]
    cases h : (run zero_block zeroed_heap ops).root with
    | null => exact absurd h ih
    | mk n i l r => exact alter_walk_ne_null _ _ _ _ _ _ _ _ _ _ _

/-- The trie built by `ops` holds, at depth `k` on the path of `A`, the interface most
recently set for the prefix of length `k` covering `A`. -/
theorem node_nic_run (ops : List Op)
    (hops : ∀ op ∈ ops, op.netsize ≤ 32 ∧ op.ip < 2 ^ 32) (A : Nat) (hA : A < 2 ^ 32)
    (k : Nat) :
    node_nic A (run zero_block zeroed_heap ops).root 0x80000000 k = last_set ops A k := by
  induction ops using List.reverseRecOn generalizing k with
  | nil =>
    cases k <;>
      simp [run, initialize_router, init_node, zeroed, zero_block, node_nic, last_set,
        node_nic_null]
  | append_singleton ops op ih =>
    have hop := hops op (by simp)
    have ih' := ih (fun o ho => hops o (by simp [ho]))
    rw [run_snoc, last_set_snoc]
    simp only [populate_forwarding_table, alter]
    cases h : (run zero_block zeroed_heap ops).root with
    | null => exact absurd h (root_ne_null ops)
    | mk n i l r =>
      rw [node_nic_alter_walk, walk_depth_top _ hop.1, ← h, ih' k]
      by_cases hk : k = op.netsize
      · subst hk
        simp only [true_and, walk_agree_top op.ip A op.netsize hop.2 hA hop.1]
      · have hk' : ¬ op.netsize = k := fun e => hk e.symm
        simp [hk, hk']

theorem last_set_large (ops : List Op) (hops : ∀ op ∈ ops, op.netsize ≤ 32 ∧ op.ip < 2 ^ 32)
    (A n : Nat) (hn : 32 < n) : last_set ops A n = -1 := by
  induction ops using List.reverseRecOn with
  | nil => rfl
  | append_singleton ops op ih =>
    have hop := hops op (by simp)
    rw [last_set_snoc, ih (fun o ho => hops o (by simp [ho]))]
    have : ¬ op.netsize = n := by omega
    simp [this]

theorem find_run_deepest (ops : List Op)
    (hops : ∀ op ∈ ops, op.netsize ≤ 32 ∧ op.ip < 2 ^ 32) (A : Nat) (hA : A < 2 ^ 32)
    (n : Nat) (hn : last_set ops A n ≠ -1)
    (hdeep : ∀ m, n < m → m ≤ 32 → last_set ops A m = -1) :
    find (run zero_block zeroed_heap ops) A = last_set ops A n := by
  unfold find
  rw [← node_nic_run ops hops A hA n]
  apply find_loop_deepest
  · rw [node_nic_run ops hops A hA n]; exact hn
  · intro m hm
    rw [node_nic_run ops hops A hA m]
    by_cases h32 : m ≤ 32
    · exact hdeep m hm h32
    · exact last_set_large ops hops A m (by omega)

theorem find_run_none (ops : List Op)
    (hops : ∀ op ∈ ops, op.netsize ≤ 32 ∧ op.ip < 2 ^ 32) (A : Nat) (hA : A < 2 ^ 32) :
    find (run zero_block zeroed_heap ops) A = -1 ↔ ∀ n, n ≤ 32 → last_set ops A n = -1 := by
  constructor
  · intro hf
    by_contra hex
    push_neg at hex
    obtain ⟨n, hn32, hn⟩ := hex
    have hspec := Nat.findGreatest_spec (P := fun k => last_set ops A k ≠ -1) hn32 hn
    have hle := Nat.findGreatest_le (P := fun k => last_set ops A k ≠ -1) 32
    have hgr : ∀ m, Nat.findGreatest (fun k => last_set ops A k ≠ -1) 32 < m → m ≤ 32 →
        last_set ops A m = -1 := by
      intro m h1 h2
      by_contra hc
      exact Nat.findGreatest_is_greatest h1 h2 hc
    have := find_run_deepest ops hops A hA _ hspec hgr
    rw [hf] at this
    exact hspec this.symm
  · intro h
    unfold find
    apply find_loop_none
    intro k
    rw [node_nic_run ops hops A hA k]
    by_cases h32 : k ≤ 32
    · exact h k h32
    · exact last_set_large ops hops A k (by omega)

/-- Longest-prefix match in zero-filled memory, where the children of every new node are
`NULL`: after any sequence of `populate_forwarding_table` calls with `netsize ≤ 32` on a
freshly initialised router, `find` returns for every 32-bit address `A` the interface most
recently set for the active prefix of greatest length that covers `A`, and returns `-1`
exactly when no active prefix covers `A`. -/
theorem longest_prefix_match (ops : List Op)
    (hops : ∀ op ∈ ops, op.netsize ≤ 32 ∧ op.ip < 2 ^ 32) (A : Nat) (hA : A < 2 ^ 32) :
    (∀ n, n ≤ 32 → last_set ops A n ≠ -1 →
        (∀ m, n < m → m ≤ 32 → last_set ops A m = -1) →
        find (run zero_block zeroed_heap ops) A = last_set ops A n) ∧
    (find (run zero_block zeroed_heap ops) A = -1 ↔ ∀ n, n ≤ 32 → last_set ops A n = -1) :=
  ⟨fun n _ hn hdeep => find_run_deepest ops hops A hA n hn hdeep, find_run_none ops hops A hA⟩

theorem longest_prefix_match_witness :
    find (run zero_block zeroed_heap [⟨167772160, 8, 0⟩, ⟨167772160, 16, 1⟩]) 167773445
      = 1 :=
  ((longest_prefix_match [⟨167772160, 8, 0⟩, ⟨167772160, 16, 1⟩] (by decide) 167773445
      (by decide)).1 16 (by decide) (by decide)
      (by intro m h1 h2; interval_cases m <;> decide)).trans (by decide)

/-- C1 fails on the code: `init_node` never stores `left` and `right`, and `find` reads them.
When the block of the root holds in `left` the address of a stale node with `nic` 7, `find`
returns 7 for `10.0.5.5` on the freshly initialised router, where no prefix is active and
the claim asks for `-1`; and after `set(10.0.0.0, 8, 0)`, `set(10.0.0.0, 16, 1)` with such a
block for the node of the second prefix, `find` returns 7 for `10.0.5.5`, not the
interface 1 of the longest matching prefix. -/
theorem find_returns_stale_interface :
    find (run ⟨Node.mk 7 none Node.null Node.null, Node.null⟩ zeroed_heap []) 167773445 = 7 ∧
    (∀ n, last_set [] 167773445 n = -1) ∧
    find (run zero_block
      (fun c k => if c = 1 ∧ k = 16 then ⟨Node.mk 7 none Node.null Node.null, Node.null⟩
        else zero_block)
      [⟨167772160, 8, 0⟩, ⟨167772160, 16, 1⟩]) 167773445 = 7 ∧
    last_set [⟨167772160, 8, 0⟩, ⟨167772160, 16, 1⟩] 167773445 16 = 1 :=
  ⟨by decide, fun _ => rfl, by decide, by decide⟩

/-- Insert-then-withdraw in zero-filled memory: in a trie built by
`populate_forwarding_table` calls, inserting `ip/netsize` with an interface other than `-1`
and then withdrawing it makes `find` return `-1` for every address covered by `ip/netsize`
and by no other active prefix. -/
theorem insert_then_withdraw (ops : List Op)
    (hops : ∀ op ∈ ops, op.netsize ≤ 32 ∧ op.ip < 2 ^ 32)
    (ip netsize : Nat) (nic : Int) (hip : ip < 2 ^ 32) (hn : netsize ≤ 32) (_hnic : nic ≠ -1)
    (A : Nat) (hA : A < 2 ^ 32) (hmatch : prefix_match ip A netsize)
    (hother : ∀ m, m ≤ 32 → m ≠ netsize → last_set ops A m = -1) :
    find (populate_forwarding_table zeroed
      (populate_forwarding_table zeroed (run zero_block zeroed_heap ops) ip netsize nic)
      ip netsize (-1)) A = -1 := by
  have h1 := run_snoc ops ⟨ip, netsize, nic⟩
  have h2 := run_snoc (ops ++ [⟨ip, netsize, nic⟩]) ⟨ip, netsize, -1⟩
  simp only at h1 h2
  rw [← h1, ← h2]
  have hops2 : ∀ op ∈ (ops ++ [⟨ip, netsize, nic⟩]) ++ [(⟨ip, netsize, -1⟩ : Op)],
      op.netsize ≤ 32 ∧ op.ip < 2 ^ 32 := by
    intro op hop
    simp only [List.mem_append, List.mem_singleton] at hop
    rcases hop with (hop | hop) | hop
    · exact hops op hop
    · subst hop; exact ⟨hn, hip⟩
    · subst hop; exact ⟨hn, hip⟩
  rw [find_run_none _ hops2 A hA]
  intro m hm
  rw [last_set_snoc, last_set_snoc]
  by_cases hmn : m = netsize
  · subst hmn; simp [hmatch]
  · have : ¬ netsize = m := fun e => hmn e.symm
    simp [this, hother m hm hmn]

theorem insert_then_withdraw_witness :
    find (populate_forwarding_table zeroed (populate_forwarding_table zeroed
      (run zero_block zeroed_heap [⟨3232235520, 16, 2⟩]) 167772160 8 3) 167772160 8 (-1))
      167773445 = -1 :=
  insert_then_withdraw [⟨3232235520, 16, 2⟩] (by decide) 167772160 8 3 (by decide) (by decide)
    (by decide) 167773445 (by decide) (by decide)
    (by intro m h1 h2; interval_cases m <;> decide)

/-- C10 fails on the code: the dummy nodes `alter` links keep the children their blocks
held. When those blocks hold in `left` the address of a stale node with `nic` 7, inserting
`10.0.0.0/8` on a fresh router and withdrawing it again leaves that stale node below the
node of the prefix, and `find` returns 7 for `10.0.5.5`, which no active prefix covers,
where the claim asks for `-1`. -/
theorem withdrawn_prefix_finds_stale_interface :
    find (populate_forwarding_table zeroed
      (populate_forwarding_table (fun _ => ⟨Node.mk 7 none Node.null Node.null, Node.null⟩)
        (run zero_block zeroed_heap []) 167772160 8 3) 167772160 8 (-1)) 167773445 = 7 ∧
    prefix_match 167772160 167773445 8 ∧
    (∀ m, last_set [] 167773445 m = -1) :=
  ⟨by decide, by decide, fun _ => rfl⟩

theorem subtree_null (path : List Bool) : subtree Node.null path = Node.null := by
  cases path <;> rfl

theorem node_nic_eq_subtree (A : Nat) :
    ∀ (k : Nat) (t : Node) (bit : Nat),
      node_nic A t bit k = nic_of (subtree t (probe_path A bit k)) := by
  intro k
  induction k with
  | zero => intro t bit; cases t <;> rfl
  | succ k ih =>
    intro t bit
    cases t with
    | null => rfl
    | mk n i l r =>
      simp only [node_nic, probe_path, subtree]
      by_cases hA : A &&& bit ≠ 0
      · simp [hA, ih]
      · simp [hA, ih]

theorem probe_path_bits (A : Nat) :
    ∀ (k d : Nat), d + k ≤ 32 →
      probe_path A (0x80000000 >>> d) k
        = (List.range' d k).map (fun j => A.testBit (31 - j)) := by
  intro k
  induction k with
  | zero => intro d _; rfl
  | succ k ih =>
    intro d hd
    simp only [probe_path, List.range'_succ, List.map_cons]
    rw [← Nat.shiftRight_add, ih (d + 1) (by omega)]
    congr 1
    have := and_probe_ne_zero A d (by omega)
    cases hb : A.testBit (31 - d) <;> simp_all

theorem probe_path_top (A k : Nat) (hk : k ≤ 32) :
    probe_path A 0x80000000 k = prefix_bits A k := by
  have := probe_path_bits A k 0 (by omega)
  simpa [prefix_bits, List.range_eq_range'] using this

theorem walk_path_bits (ip n : Nat) (hn : n ≤ 32) :
    ∀ (fuel d : Nat), d + fuel = 32 →
      walk_path ip (alter_mask n) fuel (0x80000000 >>> d)
        = (List.range' d (n - d)).map (fun j => ip.testBit (31 - j)) := by
  intro fuel
  induction fuel with
  | zero =>
    intro d hd
    have : n - d = 0 := by omega
    simp [walk_path, this]
  | succ fuel ih =>
    intro d hd
    simp only [walk_path]
    have hg := guard_iff n (by omega) d (by omega)
    by_cases hlt : d < n
    · rw [if_pos (hg.2 hlt), ← Nat.shiftRight_add, ih (d + 1) (by omega)]
      have e : n - d = (n - (d + 1)) + 1 := by omega
      rw [e, List.range'_succ, List.map_cons]
      congr 1
      have := and_probe_ne_zero ip d (by omega)
      cases hb : ip.testBit (31 - d) <;> simp_all
    · rw [if_neg (fun h => hlt (hg.1 h))]
      have : n - d = 0 := by omega
      simp [this]

theorem walk_path_top (ip n : Nat) (hn : n ≤ 32) :
    walk_path ip (alter_mask n) 32 0x80000000 = prefix_bits ip n := by
  have := walk_path_bits ip n hn 32 0 rfl
  simpa [prefix_bits, List.range_eq_range'] using this

theorem prefix_bits_length (ip n : Nat) : (prefix_bits ip n).length = n := by
  simp [prefix_bits]

theorem node_inv_target (ip n : Nat) (nic : Int) (hn : n ≤ 32) (hnic : nic ≠ -1)
    (path : List Bool) (hpath : path = prefix_bits ip n) (l r : Node)
    (hl : node_inv l (path ++ [false])) (hr : node_inv r (path ++ [true])) :
    node_inv (Node.mk nic (some (init_info ip n)) l r) path := by
  have hlen : path.length = n := by rw [hpath, prefix_bits_length]
  refine ⟨by omega, by simp [hnic], ?_, hl, hr⟩
  intro inf hinf
  simp only [Option.some.injEq] at hinf
  subst hinf
  simp only [init_info, hlen]
  exact ⟨trivial, hpath.symm⟩

theorem node_inv_insert_fresh (ip n : Nat) (nic : Int) (mask : Nat) (hn : n ≤ 32)
    (hnic : nic ≠ -1) :
    ∀ (fuel bit : Nat) (path : List Bool),
      path ++ walk_path ip mask fuel bit = prefix_bits ip n →
      node_inv (alter_insert zeroed ip n nic mask fuel bit (init_node zero_block (-1) none))
        path := by
  intro fuel
  induction fuel with
  | zero =>
    intro bit path hpath
    simp only [walk_path, List.append_nil] at hpath
    simp only [alter_insert, init_node, zeroed, zero_block]
    exact node_inv_target ip n nic hn hnic path hpath _ _ trivial trivial
  | succ fuel ih =>
    intro bit path hpath
    simp only [walk_path] at hpath
    simp only [alter_insert, init_node, zeroed, zero_block]
    by_cases hm : bit &&& mask ≠ 0
    · simp only [if_pos hm] at hpath ⊢
      have hlen := congrArg List.length hpath
      simp only [List.length_append, List.length_cons, prefix_bits_length] at hlen
      by_cases hi : ip &&& bit ≠ 0
      · simp only [if_pos hi]
        refine ⟨by omega, by simp, by simp, trivial, ?_⟩
        apply ih
        simpa [hi] using hpath
      · simp only [if_neg hi]
        refine ⟨by omega, by simp, by simp, ?_, trivial⟩
        apply ih
        simpa [hi] using hpath
    · simp only [if_neg hm, List.append_nil] at hpath ⊢
      exact node_inv_target ip n nic hn hnic path hpath _ _ trivial trivial

theorem node_inv_alter_insert (ip n : Nat) (nic : Int) (mask : Nat) (hn : n ≤ 32)
    (hnic : nic ≠ -1) (fuel bit : Nat) (path : List Bool) (m : Int) (i : Option info)
    (l r : Node) (hinv : node_inv (Node.mk m i l r) path)
    (hpath : path ++ walk_path ip mask fuel bit = prefix_bits ip n) :
    node_inv (alter_insert zeroed ip n nic mask fuel bit (Node.mk m i l r)) path := by
  obtain ⟨h1, h2, h3, hl, hr⟩ := hinv
  cases fuel with
  | zero =>
    simp only [walk_path, List.append_nil] at hpath
    simp only [alter_insert]
    exact node_inv_target ip n nic hn hnic path hpath _ _ hl hr
  | succ fuel =>
    simp only [walk_path] at hpath
    simp only [alter_insert]
    by_cases hm : bit &&& mask ≠ 0
    · simp only [if_pos hm] at hpath ⊢
      by_cases hi : ip &&& bit ≠ 0
      · simp only [if_pos hi]
        refine ⟨h1, h2, h3, hl, ?_⟩
        apply node_inv_insert_fresh ip n nic mask hn hnic
        simpa [hi] using hpath
      · simp only [if_neg hi]
        refine ⟨h1, h2, h3, ?_, hr⟩
        apply node_inv_insert_fresh ip n nic mask hn hnic
        simpa [hi] using hpath
    · simp only [if_neg hm, List.append_nil] at hpath ⊢
      exact node_inv_target ip n nic hn hnic path hpath _ _ hl hr

theorem node_inv_alter_update (ip n : Nat) (nic : Int) (hn : n ≤ 32) (path : List Bool)
    (hpath : path = prefix_bits ip n) (m : Int) (i : Option info) (l r : Node)
    (hinv : node_inv (Node.mk m i l r) path) :
    node_inv (alter_update ip n nic (Node.mk m i l r)) path := by
  obtain ⟨h1, h2, h3, hl, hr⟩ := hinv
  simp only [alter_update]
  split_ifs with ha hb
  · exact ⟨h1, by simp [ha.1], by simp, hl, hr⟩
  · exact node_inv_target ip n nic hn hb.1 path hpath _ _ hl hr
  · refine ⟨h1, ?_, h3, hl, hr⟩
    by_cases hnic : nic = -1
    · have hi : i = none := by
        by_contra hc
        exact ha ⟨hnic, hc⟩
      simp [hnic, hi]
    · have hi : i ≠ none := fun hc => hb ⟨hnic, hc⟩
      simp [hnic, hi]

theorem node_inv_alter_walk (ip n : Nat) (nic : Int) (mask : Nat) (hn : n ≤ 32) :
    ∀ (fuel bit : Nat) (t : Node) (path : List Bool), node_inv t path →
      path ++ walk_path ip mask fuel bit = prefix_bits ip n →
      node_inv (alter_walk zeroed ip n nic mask fuel bit t) path := by
  intro fuel
  induction fuel with
  | zero =>
    intro bit t path hinv hpath
    simp only [walk_path, List.append_nil] at hpath
    cases t with
    | null => simp [alter_walk, node_inv]
    | mk m i l r =>
      simp only [alter_walk]
      exact node_inv_alter_update ip n nic hn path hpath m i l r hinv
  | succ fuel ih =>
    intro bit t path hinv hpath
    cases t with
    | null => simp [alter_walk, node_inv]
    | mk m i l r =>
      simp only [alter_walk]
      by_cases hm : bit &&& mask ≠ 0
      · simp only [if_pos hm]
        by_cases hnull : (if ip &&& bit ≠ 0 then r else l) = Node.null
        · simp only [if_pos hnull]
          by_cases hnic : nic ≠ -1
          · simp only [if_pos hnic]
            exact node_inv_alter_insert ip n nic mask hn hnic (fuel + 1) bit path m i l r
              hinv hpath
          · simp only [if_neg hnic]
            exact hinv
        · simp only [if_neg hnull]
          simp only [walk_path, if_pos hm] at hpath
          obtain ⟨h1, h2, h3, hl, hr⟩ := hinv
          by_cases hi : ip &&& bit ≠ 0
          · simp only [if_pos hi]
            refine ⟨h1, h2, h3, hl, ?_⟩
            apply ih _ _ _ hr
            simpa [hi] using hpath
          · simp only [if_neg hi]
            refine ⟨h1, h2, h3, ?_, hr⟩
            apply ih _ _ _ hl
            simpa [hi] using hpath
      · simp only [if_neg hm]
        simp only [walk_path, if_neg hm, List.append_nil] at hpath
        exact node_inv_alter_update ip n nic hn path hpath m i l r hinv

theorem node_inv_run (ops : List Op) (hops : ∀ op ∈ ops, op.netsize ≤ 32) :
    node_inv (run zero_block zeroed_heap ops).root [] := by
  induction ops using List.reverseRecOn with
  | nil => simp [run, initialize_router, init_node, zeroed, zero_block, node_inv]
  | append_singleton ops op ih =>
    have hop := hops op (by simp)
    rw [run_snoc]
    simp only [populate_forwarding_table, alter]
    apply node_inv_alter_walk op.ip op.netsize op.nic _ hop _ _ _ _
      (ih (fun o ho => hops o (by simp [ho])))
    simp [walk_path_top op.ip op.netsize hop]

theorem node_inv_subtree :
    ∀ (q : List Bool) (t : Node) (path : List Bool), node_inv t path →
      node_inv (subtree t q) (path ++ q) := by
  intro q
  induction q with
  | nil =>
    intro t path h
    cases t with
    | null => simp [subtree_null, node_inv]
    | mk m i l r => simpa [subtree] using h
  | cons b rest ih =>
    intro t path h
    cases t with
    | null => simp [subtree_null, node_inv]
    | mk m i l r =>
      obtain ⟨_, _, _, hl, hr⟩ := h
      cases b with
      | true =>
        have := ih r (path ++ [true]) hr
        simpa [subtree] using this
      | false =>
        have := ih l (path ++ [false]) hl
        simpa [subtree] using this

/-- The node invariant in zero-filled memory: in every trie built from a fresh router by
`populate_forwarding_table` calls with `netsize ≤ 32`, every node lies at depth at most 32,
has `info` exactly when its `nic` is not `-1`, and the `info` of a node holds the depth of
the node as `netsize` and an `ip` whose `netsize` most significant bits spell the left/right
path from the root to the node. -/
theorem trie_node_invariant (ops : List Op) (hops : ∀ op ∈ ops, op.netsize ≤ 32)
    (path : List Bool) (n : Int) (i : Option info) (l r : Node)
    (hnode : subtree (run zero_block zeroed_heap ops).root path = Node.mk n i l r) :
    path.length ≤ 32 ∧ (i ≠ none ↔ n ≠ -1) ∧
    ∀ inf, i = some inf → inf.netsize = path.length ∧
      prefix_bits inf.ip inf.netsize = path := by
  have h := node_inv_subtree path (run zero_block zeroed_heap ops).root [] (node_inv_run ops hops)
  rw [hnode] at h
  simp only [List.nil_append] at h
  obtain ⟨h1, h2, h3, _, _⟩ := h
  refine ⟨h1, not_congr h2, ?_⟩
  intro inf hinf
  obtain ⟨ha, hb⟩ := h3 inf hinf
  exact ⟨ha, by rw [ha]; exact hb⟩

theorem trie_node_invariant_witness :
    subtree (run zero_block zeroed_heap
        [⟨167772160, 8, 0⟩, ⟨3221225472, 2, 5⟩, ⟨167772160, 8, -1⟩]).root [true, true]
      = Node.mk 5 (some ⟨3221225472, 2⟩) Node.null Node.null ∧
    prefix_bits 3221225472 2 = [true, true] :=
  ⟨by decide,
    ((trie_node_invariant [⟨167772160, 8, 0⟩, ⟨3221225472, 2, 5⟩, ⟨167772160, 8, -1⟩]
      (by decide) [true, true] 5 (some ⟨3221225472, 2⟩) Node.null Node.null
      (by decide)).2.2 ⟨3221225472, 2⟩ rfl).2⟩

/-- C17 fails on the code: a new node keeps the children its block held. When the block of
the root holds in `left` the address of a stale node with `nic` 7 and no `info`, the freshly
initialised router has at depth 1 a node whose `nic` is not `-1` and whose `info` is absent;
when the stale node has an `info` for a prefix of length 2, the node at depth 1 has an
`info` whose `netsize` is not its depth. -/
theorem stale_node_breaks_invariant :
    subtree (run ⟨Node.mk 7 none Node.null Node.null, Node.null⟩ zeroed_heap []).root [false]
      = Node.mk 7 none Node.null Node.null ∧
    subtree (run ⟨Node.mk 7 (some ⟨3221225472, 2⟩) Node.null Node.null, Node.null⟩
        zeroed_heap []).root [false]
      = Node.mk 7 (some ⟨3221225472, 2⟩) Node.null Node.null := by
  decide

theorem find_loop_prefix_only (A : Nat) :
    ∀ (t : Node) (bit : Nat) (nic : Int),
      find_loop A (prefix_only t) bit nic = find_loop A t bit nic := by
  intro t
  induction t with
  | null => intro bit nic; rfl
  | mk n i l r ihl ihr =>
    intro bit nic
    simp only [prefix_only, find_loop, ihl, ihr]

theorem print_subtrie_prefix_only :
    ∀ (t : Node), print_subtrie (prefix_only t) = (print_subtrie t).map entry_prefix := by
  intro t
  induction t with
  | null => rfl
  | mk n i l r ihl ihr =>
    cases i with
    | none => simp [prefix_only, print_subtrie, ihl, ihr]
    | some inf => simp [prefix_only, print_subtrie, ihl, ihr, entry_prefix]

theorem prefix_only_alter_update (p q n : Nat) (nic : Int) (hpq : prefix_match p q n)
    (t : Node) :
    prefix_only (alter_update p n nic t) = prefix_only (alter_update q n nic t) := by
  cases t with
  | null => rfl
  | mk m i l r =>
    simp only [alter_update]
    split_ifs
    · rfl
    · simp only [prefix_only, init_info, Option.map_some', Node.mk.injEq, Option.some.injEq,
        info.mk.injEq, and_true, true_and]
      exact hpq
    · rfl

theorem prefix_only_alter_insert (blocks : Nat → block) (p q n : Nat) (nic : Int) (mask : Nat)
    (hpq : prefix_match p q n) :
    ∀ (fuel bit : Nat) (t : Node), walk_agree p q mask fuel bit = true →
      prefix_only (alter_insert blocks p n nic mask fuel bit t)
        = prefix_only (alter_insert blocks q n nic mask fuel bit t) := by
  have hinfo : (⟨p / 2 ^ (32 - n), n⟩ : info) = ⟨q / 2 ^ (32 - n), n⟩ := by
    rw [info.mk.injEq]; exact ⟨hpq, rfl⟩
  intro fuel
  induction fuel with
  | zero =>
    intro bit t _
    cases t with
    | null => rfl
    | mk m i l r => simp [alter_insert, prefix_only, init_info, hinfo]
  | succ fuel ih =>
    intro bit t hag
    cases t with
    | null => rfl
    | mk m i l r =>
      simp only [walk_agree] at hag
      simp only [alter_insert]
      by_cases hm : bit &&& mask ≠ 0
      · simp only [if_pos hm, Bool.and_eq_true, decide_eq_true_eq] at hag ⊢
        by_cases hi : p &&& bit ≠ 0
        · rw [if_pos hi, if_pos (hag.1.1 hi)]
          simp only [prefix_only, ih _ _ hag.2]
        · rw [if_neg hi, if_neg (fun h => hi (hag.1.2 h))]
          simp only [prefix_only, ih _ _ hag.2]
      · simp [if_neg hm, prefix_only, init_info, hinfo]

theorem prefix_only_alter_walk (blocks : Nat → block) (p q n : Nat) (nic : Int) (mask : Nat)
    (hpq : prefix_match p q n) :
    ∀ (fuel bit : Nat) (t : Node), walk_agree p q mask fuel bit = true →
      prefix_only (alter_walk blocks p n nic mask fuel bit t)
        = prefix_only (alter_walk blocks q n nic mask fuel bit t) := by
  intro fuel
  induction fuel with
  | zero =>
    intro bit t _
    cases t with
    | null => rfl
    | mk m i l r =>
      simp only [alter_walk]
      exact prefix_only_alter_update p q n nic hpq _
  | succ fuel ih =>
    intro bit t hag
    cases t with
    | null => rfl
    | mk m i l r =>
      simp only [alter_walk]
      by_cases hm : bit &&& mask ≠ 0
      · have hag2 : walk_agree p q mask (fuel + 1) bit = true := hag
        simp only [walk_agree, if_pos hm, Bool.and_eq_true, decide_eq_true_eq] at hag
        simp only [if_pos hm]
        by_cases hi : p &&& bit ≠ 0
        · have hi2 : q &&& bit ≠ 0 := hag.1.1 hi
          simp only [if_pos hi, if_pos hi2]
          split_ifs
          · exact prefix_only_alter_insert blocks p q n nic mask hpq _ _ _ hag2
          · rfl
          · simp only [prefix_only, ih _ _ hag.2]
        · have hi2 : ¬ q &&& bit ≠ 0 := fun h => hi (hag.1.2 h)
          simp only [if_neg hi, if_neg hi2]
          split_ifs
          · exact prefix_only_alter_insert blocks p q n nic mask hpq _ _ _ hag2
          · rfl
          · simp only [prefix_only, ih _ _ hag.2]
      · simp only [if_neg hm]
        exact prefix_only_alter_update p q n nic hpq _

/-- C12 as stated fails: two addresses that agree on their 8 leading bits give enumerations
that differ, because the printed address is the one the call was given. -/
theorem host_bits_printed :
    prefix_match 167772161 167772162 8 ∧
    print_router_state
        (populate_forwarding_table zeroed (initialize_router zero_block) 167772161 8 0)
      = [(167772161, 8, 0)] ∧
    print_router_state
        (populate_forwarding_table zeroed (initialize_router zero_block) 167772162 8 0)
      = [(167772162, 8, 0)] := by
  decide

/-- C12, amended: for `netsize ≤ 32` and two 32-bit addresses `p`, `q` that agree on their
`netsize` most significant bits, `populate_forwarding_table(p, netsize, nic)` and
`populate_forwarding_table(q, netsize, nic)` give states on which `find` returns the same
interface for every address and whose enumerations agree entry by entry in `netsize`, in
`nic` and in the bits of the address that belong to the prefix. This holds on every trie and
whatever the blocks `malloc` returns during the call hold. -/
theorem host_bits_ignored (blocks : Nat → block) (state : router_state) (p q netsize : Nat)
    (nic : Int) (hn : netsize ≤ 32) (hp : p < 2 ^ 32) (hq : q < 2 ^ 32)
    (hpq : prefix_match p q netsize) :
    (∀ A, find (populate_forwarding_table blocks state p netsize nic) A
      = find (populate_forwarding_table blocks state q netsize nic) A) ∧
    (print_router_state (populate_forwarding_table blocks state p netsize nic)).map
        entry_prefix
      = (print_router_state (populate_forwarding_table blocks state q netsize nic)).map
          entry_prefix := by
  have hag := (walk_agree_top p q netsize hp hq hn).2 hpq
  have h := prefix_only_alter_walk blocks p q netsize nic (alter_mask netsize) hpq 32
    0x80000000 state.root hag
  constructor
  · intro A
    simp only [find, populate_forwarding_table, alter]
    rw [← find_loop_prefix_only, h, find_loop_prefix_only]
  · simp only [print_router_state, populate_forwarding_table, alter]
    rw [← print_subtrie_prefix_only, h, print_subtrie_prefix_only]

theorem host_bits_ignored_witness :
    (print_router_state (populate_forwarding_table
        (fun _ => ⟨Node.null, Node.mk 7 none Node.null Node.null⟩)
        (run zero_block zeroed_heap [⟨167772160, 16, 1⟩]) 2147483649 8 0)).map entry_prefix
      = (print_router_state (populate_forwarding_table
          (fun _ => ⟨Node.null, Node.mk 7 none Node.null Node.null⟩)
          (run zero_block zeroed_heap [⟨167772160, 16, 1⟩]) 2147483650 8 0)).map
            entry_prefix :=
  (host_bits_ignored (fun _ => ⟨Node.null, Node.mk 7 none Node.null Node.null⟩)
    (run zero_block zeroed_heap [⟨167772160, 16, 1⟩]) 2147483649 2147483650 8 0 (by decide)
    (by decide) (by decide) (by decide)).2

theorem path_before_append (p : List Bool) :
    ∀ (x y : List Bool), path_before (p ++ x) (p ++ y) = path_before x y := by
  induction p with
  | nil => intro x y; rfl
  | cons a p ih =>
    intro x y
    simp only [List.cons_append, path_before]
    cases a <;> simp [ih]

theorem path_before_asymm :
    ∀ (p q : List Bool), path_before p q = true → path_before q p = false := by
  intro p
  induction p with
  | nil =>
    intro q h
    cases q with
    | nil => simp [path_before] at h
    | cons b q => rfl
  | cons a p ih =>
    intro q h
    cases q with
    | nil => simp [path_before] at h
    | cons b q =>
      simp only [path_before, Bool.or_eq_true, Bool.and_eq_true, Bool.not_eq_true',
        beq_iff_eq] at h
      rcases h with ⟨ha, hb⟩ | ⟨hab, hpq⟩
      · subst ha hb
        simp [path_before]
      · subst hab
        simp only [path_before, ih q hpq]
        cases a <;> simp

theorem all_info_alter_update (P : info → Prop) (ip n : Nat) (nic : Int)
    (hnew : P (init_info ip n)) (t : Node) (h : all_info P t) :
    all_info P (alter_update ip n nic t) := by
  cases t with
  | null => trivial
  | mk m i l r =>
    obtain ⟨h1, hl, hr⟩ := h
    simp only [alter_update]
    split_ifs
    · exact ⟨by simp, hl, hr⟩
    · refine ⟨?_, hl, hr⟩
      intro inf hinf
      simp only [Option.some.injEq] at hinf
      subst hinf
      exact hnew
    · exact ⟨h1, hl, hr⟩

theorem all_info_alter_insert (P : info → Prop) (ip n : Nat) (nic : Int) (mask : Nat)
    (hnew : P (init_info ip n)) :
    ∀ (fuel bit : Nat) (t : Node), all_info P t →
      all_info P (alter_insert zeroed ip n nic mask fuel bit t) := by
  have htarget : ∀ l r, all_info P l → all_info P r →
      all_info P (Node.mk nic (some (init_info ip n)) l r) := by
    intro l r hl hr
    refine ⟨?_, hl, hr⟩
    intro inf hinf
    simp only [Option.some.injEq] at hinf
    subst hinf
    exact hnew
  intro fuel
  induction fuel with
  | zero =>
    intro bit t h
    cases t with
    | null => trivial
    | mk m i l r => exact htarget l r h.2.1 h.2.2
  | succ fuel ih =>
    intro bit t h
    cases t with
    | null => trivial
    | mk m i l r =>
      obtain ⟨h1, hl, hr⟩ := h
      have hfresh : all_info P (init_node zero_block (-1) none) := ⟨by simp, trivial, trivial⟩
      simp only [alter_insert]
      split_ifs
      · exact ⟨h1, hl, ih _ _ hfresh⟩
      · exact ⟨h1, ih _ _ hfresh, hr⟩
      · exact htarget l r hl hr

theorem all_info_alter_walk (P : info → Prop) (ip n : Nat) (nic : Int) (mask : Nat)
    (hnew : P (init_info ip n)) :
    ∀ (fuel bit : Nat) (t : Node), all_info P t →
      all_info P (alter_walk zeroed ip n nic mask fuel bit t) := by
  intro fuel
  induction fuel with
  | zero =>
    intro bit t h
    cases t with
    | null => trivial
    | mk m i l r =>
      simp only [alter_walk]
      exact all_info_alter_update P ip n nic hnew _ h
  | succ fuel ih =>
    intro bit t h
    cases t with
    | null => trivial
    | mk m i l r =>
      simp only [alter_walk]
      by_cases hm : bit &&& mask ≠ 0
      · simp only [if_pos hm]
        by_cases hnull : (if ip &&& bit ≠ 0 then r else l) = Node.null
        · simp only [if_pos hnull]
          by_cases hnic : nic ≠ -1
          · simp only [if_pos hnic]
            exact all_info_alter_insert P ip n nic mask hnew _ _ _ h
          · simp only [if_neg hnic]
            exact h
        · simp only [if_neg hnull]
          by_cases hi : ip &&& bit ≠ 0
          · simp only [if_pos hi]
            exact ⟨h.1, h.2.1, ih _ _ h.2.2⟩
          · simp only [if_neg hi]
            exact ⟨h.1, ih _ _ h.2.1, h.2.2⟩
      · simp only [if_neg hm]
        exact all_info_alter_update P ip n nic hnew _ h

theorem all_info_run (ops : List Op) (hops : ∀ op ∈ ops, op.netsize ≤ 32 ∧ op.ip < 2 ^ 32) :
    all_info (fun inf => inf.ip < 2 ^ 32) (run zero_block zeroed_heap ops).root := by
  induction ops using List.reverseRecOn with
  | nil => exact ⟨by simp, trivial, trivial⟩
  | append_singleton ops op ih =>
    rw [run_snoc]
    simp only [populate_forwarding_table, alter]
    exact all_info_alter_walk _ op.ip op.netsize op.nic _ (hops op (by simp)).2 _ _ _
      (ih (fun o ho => hops o (by simp [ho])))

theorem all_info_subtree (P : info → Prop) :
    ∀ (q : List Bool) (t : Node), all_info P t → all_info P (subtree t q) := by
  intro q
  induction q with
  | nil =>
    intro t h
    cases t with
    | null => trivial
    | mk m i l r => simpa [subtree] using h
  | cons b rest ih =>
    intro t h
    cases t with
    | null => trivial
    | mk m i l r =>
      cases b with
      | true => simpa [subtree] using ih r h.2.2
      | false => simpa [subtree] using ih l h.2.1

/-- Every entry of the enumeration is the rule of a node of the trie. -/
theorem mem_print_subtrie :
    ∀ (t : Node) (e : Nat × Nat × Int), e ∈ print_subtrie t →
      ∃ (q : List Bool) (l r : Node),
        subtree t q = Node.mk e.2.2 (some ⟨e.1, e.2.1⟩) l r := by
  intro t
  induction t with
  | null => intro e he; simp [print_subtrie] at he
  | mk n i l r ihl ihr =>
    intro e he
    simp only [print_subtrie, List.mem_append] at he
    rcases he with (he | he) | he
    · cases i with
      | none => simp at he
      | some inf =>
        simp only [List.mem_singleton] at he
        subst he
        exact ⟨[], l, r, rfl⟩
    · obtain ⟨q, l2, r2, hq⟩ := ihl e he
      exact ⟨false :: q, l2, r2, by simpa [subtree] using hq⟩
    · obtain ⟨q, l2, r2, hq⟩ := ihr e he
      exact ⟨true :: q, l2, r2, by simpa [subtree] using hq⟩

/-- The rule of every node of the trie is an entry of the enumeration. -/
theorem print_subtrie_of_subtree :
    ∀ (q : List Bool) (t : Node) (n : Int) (inf : info) (l r : Node),
      subtree t q = Node.mk n (some inf) l r →
      (inf.ip, inf.netsize, n) ∈ print_subtrie t := by
  intro q
  induction q with
  | nil =>
    intro t n inf l r h
    cases t with
    | null => simp [subtree] at h
    | mk n2 i2 l2 r2 =>
      simp only [subtree, Node.mk.injEq] at h
      obtain ⟨h1, h2, _, _⟩ := h
      subst h1 h2
      simp [print_subtrie]
  | cons b rest ih =>
    intro t n inf l r h
    cases t with
    | null => simp [subtree] at h
    | mk n2 i2 l2 r2 =>
      cases b with
      | true =>
        simp only [subtree, if_true] at h
        simp only [print_subtrie, List.mem_append]
        exact Or.inr (ih r2 n inf l r h)
      | false =>
        simp only [subtree, Bool.false_eq_true, if_false] at h
        simp only [print_subtrie, List.mem_append]
        exact Or.inl (Or.inr (ih l2 n inf l r h))

theorem entry_path_of_mem (t : Node) (path : List Bool) (hinv : node_inv t path)
    (e : Nat × Nat × Int) (he : e ∈ print_subtrie t) :
    ∃ q, entry_path e = path ++ q := by
  obtain ⟨q, l, r, hq⟩ := mem_print_subtrie t e he
  have h := node_inv_subtree q t path hinv
  rw [hq] at h
  obtain ⟨_, _, h3, _, _⟩ := h
  obtain ⟨ha, hb⟩ := h3 _ rfl
  refine ⟨q, ?_⟩
  simp only at ha hb
  simp only [entry_path, ha]
  exact hb

/-- The enumeration of a subtrie that satisfies the invariant is in pre-order. -/
theorem print_subtrie_pairwise :
    ∀ (t : Node) (path : List Bool), node_inv t path →
      (print_subtrie t).Pairwise
        (fun e1 e2 => path_before (entry_path e1) (entry_path e2) = true) := by
  intro t
  induction t with
  | null => intro path _; simp [print_subtrie]
  | mk n i l r ihl ihr =>
    intro path hinv
    have hinv2 := hinv
    obtain ⟨_, _, h3, hl, hr⟩ := hinv
    simp only [print_subtrie, List.append_assoc]
    rw [List.pairwise_append]
    refine ⟨?_, ?_, ?_⟩
    · cases i <;> simp
    · rw [List.pairwise_append]
      refine ⟨ihl _ hl, ihr _ hr, ?_⟩
      intro a ha b hb
      obtain ⟨qa, hqa⟩ := entry_path_of_mem l _ hl a ha
      obtain ⟨qb, hqb⟩ := entry_path_of_mem r _ hr b hb
      rw [hqa, hqb, List.append_assoc, List.append_assoc, path_before_append]
      rfl
    · intro a ha b hb
      cases i with
      | none => simp at ha
      | some inf =>
        simp only [List.mem_singleton] at ha
        subst ha
        obtain ⟨h4, h5⟩ := h3 inf rfl
        have hpa : entry_path (inf.ip, inf.netsize, n) = path := by
          simp only [entry_path, h4]
          exact h5
        rw [hpa]
        rcases List.mem_append.1 hb with hb | hb
        · obtain ⟨qb, hqb⟩ := entry_path_of_mem l _ hl b hb
          rw [hqb, List.append_assoc]
          have := path_before_append path [] ([false] ++ qb)
          rw [List.append_nil] at this
          rw [this]
          rfl
        · obtain ⟨qb, hqb⟩ := entry_path_of_mem r _ hr b hb
          rw [hqb, List.append_assoc]
          have := path_before_append path [] ([true] ++ qb)
          rw [List.append_nil] at this
          rw [this]
          rfl

theorem prefix_bits_eq_iff (a b n : Nat) :
    prefix_bits a n = prefix_bits b n ↔
      ∀ j, j < n → a.testBit (31 - j) = b.testBit (31 - j) := by
  simp [prefix_bits, List.map_inj_left]

theorem prefix_match_iff_bits (a b n : Nat) (ha : a < 2 ^ 32) (hb : b < 2 ^ 32)
    (hn : n ≤ 32) : prefix_match a b n ↔ prefix_bits a n = prefix_bits b n := by
  rw [prefix_match_iff a b n ha hb hn, prefix_bits_eq_iff]

theorem prefix_bits_split (ip n1 n2 : Nat) (h : n1 ≤ n2) :
    prefix_bits ip n2 = prefix_bits ip n1 ++
      (List.range' n1 (n2 - n1)).map (fun j => ip.testBit (31 - j)) := by
  simp only [prefix_bits, List.range_eq_range', ← List.map_append]
  congr 1
  have h1 := List.range'_append_1 0 n1 (n2 - n1)
  rw [Nat.zero_add] at h1
  rw [h1]
  congr 1
  omega

theorem last_set_congr (ops : List Op) (a b n : Nat) (hab : prefix_match a b n) :
    last_set ops a n = last_set ops b n := by
  induction ops using List.reverseRecOn with
  | nil => rfl
  | append_singleton ops op ih =>
    rw [last_set_snoc, last_set_snoc, ih]
    have : prefix_match op.ip a n ↔ prefix_match op.ip b n := by
      unfold prefix_match at hab ⊢
      rw [hab]
    simp only [this]

theorem nic_at_prefix (ops : List Op) (hops : ∀ op ∈ ops, op.netsize ≤ 32 ∧ op.ip < 2 ^ 32)
    (A n : Nat) (hA : A < 2 ^ 32) (hn : n ≤ 32) :
    nic_of (subtree (run zero_block zeroed_heap ops).root (prefix_bits A n))
      = last_set ops A n := by
  rw [← node_nic_run ops hops A hA n, node_nic_eq_subtree, probe_path_top A n hn]

theorem entry_facts (ops : List Op) (hops : ∀ op ∈ ops, op.netsize ≤ 32 ∧ op.ip < 2 ^ 32)
    (e : Nat × Nat × Int) (he : e ∈ print_router_state (run zero_block zeroed_heap ops)) :
    e.1 < 2 ^ 32 ∧ e.2.1 ≤ 32 ∧ e.2.2 ≠ -1 ∧ last_set ops e.1 e.2.1 = e.2.2 := by
  obtain ⟨q, l, r, hq⟩ := mem_print_subtrie _ e he
  have hinv := node_inv_subtree q (run zero_block zeroed_heap ops).root []
    (node_inv_run ops (fun o ho => (hops o ho).1))
  have hall := all_info_subtree (fun inf => inf.ip < 2 ^ 32) q (run zero_block zeroed_heap ops).root
    (all_info_run ops hops)
  rw [hq] at hinv hall
  obtain ⟨h1, h2, h3, _, _⟩ := hinv
  obtain ⟨ha, hb⟩ := h3 _ rfl
  simp only [List.nil_append] at h1 h2 ha hb
  have hbound : e.1 < 2 ^ 32 := hall.1 _ rfl
  have hnic : e.2.2 ≠ -1 := fun hc => by simpa using h2.2 hc
  refine ⟨hbound, by omega, hnic, ?_⟩
  rw [← nic_at_prefix ops hops e.1 e.2.1 hbound (by omega)]
  rw [ha, hb, hq]
  rfl

theorem entry_of_active (ops : List Op)
    (hops : ∀ op ∈ ops, op.netsize ≤ 32 ∧ op.ip < 2 ^ 32) (A n : Nat) (hA : A < 2 ^ 32)
    (hn : n ≤ 32) (hact : last_set ops A n ≠ -1) :
    ∃ e ∈ print_router_state (run zero_block zeroed_heap ops),
      e.2.1 = n ∧ prefix_match e.1 A n := by
  have hnic := nic_at_prefix ops hops A n hA hn
  cases hs : subtree (run zero_block zeroed_heap ops).root (prefix_bits A n) with
  | null =>
    rw [hs] at hnic
    exact absurd hnic.symm hact
  | mk m i l r =>
    rw [hs] at hnic
    have hinv := node_inv_subtree (prefix_bits A n) (run zero_block zeroed_heap ops).root []
      (node_inv_run ops (fun o ho => (hops o ho).1))
    have hall := all_info_subtree (fun inf => inf.ip < 2 ^ 32) (prefix_bits A n)
      (run zero_block zeroed_heap ops).root (all_info_run ops hops)
    rw [hs] at hinv hall
    obtain ⟨_, h2, h3, _, _⟩ := hinv
    have hm : m ≠ -1 := by
      intro hc
      apply hact
      rw [← hnic]
      exact hc
    cases i with
    | none => exact absurd (h2.1 rfl) hm
    | some inf =>
      obtain ⟨ha, hb⟩ := h3 inf rfl
      simp only [List.nil_append, prefix_bits_length] at ha hb
      refine ⟨(inf.ip, inf.netsize, m), print_subtrie_of_subtree _ _ m inf l r hs, ha, ?_⟩
      exact (prefix_match_iff_bits inf.ip A n (hall.1 inf rfl) hA hn).2 hb

theorem length_le_one_of_pairwise {α : Type} (R : α → α → Prop) (l : List α)
    (hp : l.Pairwise R) (hno : ∀ a ∈ l, ∀ b ∈ l, ¬ R a b) : l.length ≤ 1 := by
  cases l with
  | nil => simp
  | cons a rest =>
    cases rest with
    | nil => simp
    | cons b rest2 =>
      rw [List.pairwise_cons] at hp
      exact absurd (hp.1 b (by simp)) (hno a (by simp) b (by simp))

theorem path_before_irrefl (p : List Bool) : path_before p p = false := by
  cases h : path_before p p with
  | false => rfl
  | true =>
    have := path_before_asymm p p h
    rw [h] at this
    cases this

/-- The enumeration in zero-filled memory: the enumeration of a trie built by
`populate_forwarding_table` calls with `netsize ≤ 32` holds only
active rules, each with the interface most recently set for it; it holds exactly one entry
for each active prefix and none for the others; it is in pre-order, the zero-child subtree
before the one-child subtree; and of two entries of which one is a strict extension of the
other, the shorter comes first. -/
theorem enumeration_preorder (ops : List Op)
    (hops : ∀ op ∈ ops, op.netsize ≤ 32 ∧ op.ip < 2 ^ 32) :
    (∀ e ∈ print_router_state (run zero_block zeroed_heap ops),
      e.2.1 ≤ 32 ∧ e.2.2 ≠ -1 ∧ last_set ops e.1 e.2.1 = e.2.2) ∧
    (∀ A n, A < 2 ^ 32 → n ≤ 32 →
      ((print_router_state (run zero_block zeroed_heap ops)).filter
        (fun e => decide (e.2.1 = n ∧ prefix_match e.1 A n))).length
        = if last_set ops A n ≠ -1 then 1 else 0) ∧
    (print_router_state (run zero_block zeroed_heap ops)).Pairwise
      (fun e1 e2 => path_before (entry_path e1) (entry_path e2) = true) ∧
    (∀ (i j : Nat) (hi : i < (print_router_state (run zero_block zeroed_heap ops)).length)
      (hj : j < (print_router_state (run zero_block zeroed_heap ops)).length),
      ((print_router_state (run zero_block zeroed_heap ops)).get ⟨i, hi⟩).2.1
        < ((print_router_state (run zero_block zeroed_heap ops)).get ⟨j, hj⟩).2.1 →
      prefix_match ((print_router_state (run zero_block zeroed_heap ops)).get ⟨i, hi⟩).1
        ((print_router_state (run zero_block zeroed_heap ops)).get ⟨j, hj⟩).1
        ((print_router_state (run zero_block zeroed_heap ops)).get ⟨i, hi⟩).2.1 →
      i < j) := by
  have hpw := print_subtrie_pairwise (run zero_block zeroed_heap ops).root []
    (node_inv_run ops (fun o ho => (hops o ho).1))
  refine ⟨fun e he => (entry_facts ops hops e he).2, ?_, hpw, ?_⟩
  · intro A n hA hn
    have hsame : ∀ e ∈ (print_router_state (run zero_block zeroed_heap ops)).filter
        (fun e => decide (e.2.1 = n ∧ prefix_match e.1 A n)),
        e ∈ print_router_state (run zero_block zeroed_heap ops) ∧ e.2.1 = n ∧
          prefix_match e.1 A n := by
      intro e he
      simpa using he
    split_ifs with hact
    · apply Nat.le_antisymm
      · apply length_le_one_of_pairwise _ _ (hpw.filter _)
        intro a ha b hb hab
        obtain ⟨ha1, ha2, ha3⟩ := hsame a ha
        obtain ⟨hb1, hb2, hb3⟩ := hsame b hb
        have ea : entry_path a = prefix_bits A n := by
          simp only [entry_path, ha2]
          exact (prefix_match_iff_bits a.1 A n (entry_facts ops hops a ha1).1 hA hn).1 ha3
        have eb : entry_path b = prefix_bits A n := by
          simp only [entry_path, hb2]
          exact (prefix_match_iff_bits b.1 A n (entry_facts ops hops b hb1).1 hA hn).1 hb3
        rw [ea, eb, path_before_irrefl] at hab
        cases hab
      · obtain ⟨e, he, h1, h2⟩ := entry_of_active ops hops A n hA hn hact
        apply List.length_pos_of_mem (a := e)
        simp [he, h1, h2]
    · have hnone : last_set ops A n = -1 := by simpa using hact
      rw [List.length_eq_zero, List.filter_eq_nil_iff]
      intro e he
      simp only [decide_eq_true_eq, not_and]
      intro h1 h2
      obtain ⟨_, _, h3, h4⟩ := entry_facts ops hops e he
      rw [h1, last_set_congr ops e.1 A n h2, hnone] at h4
      exact h3 h4.symm
  · intro i j hi hj hlen hmatch
    set ei := (print_router_state (run zero_block zeroed_heap ops)).get ⟨i, hi⟩ with hei
    set ej := (print_router_state (run zero_block zeroed_heap ops)).get ⟨j, hj⟩ with hej
    obtain ⟨bi, ni, _, _⟩ := entry_facts ops hops ei (List.get_mem _ _ _)
    obtain ⟨bj, nj, _, _⟩ := entry_facts ops hops ej (List.get_mem _ _ _)
    have hsplit := prefix_bits_split ej.1 ei.2.1 ej.2.1 (Nat.le_of_lt hlen)
    have hpre := (prefix_match_iff_bits ei.1 ej.1 ei.2.1 bi bj ni).1 hmatch
    have hk : ej.2.1 - ei.2.1 = (ej.2.1 - ei.2.1 - 1) + 1 := by omega
    rw [hk, List.range'_succ, List.map_cons, ← hpre] at hsplit
    have hbefore : path_before (entry_path ei) (entry_path ej) = true := by
      have h0 := path_before_append (prefix_bits ei.1 ei.2.1) []
        (ej.1.testBit (31 - ei.2.1) ::
          List.map (fun j => ej.1.testBit (31 - j))
            (List.range' (ei.2.1 + 1) (ej.2.1 - ei.2.1 - 1)))
      rw [List.append_nil] at h0
      simp only [entry_path]
      rw [hsplit, h0]
      rfl
    by_contra hij
    rcases Nat.lt_or_eq_of_le (Nat.le_of_not_lt hij) with hlt | heq
    · have := (List.pairwise_iff_getElem.1 hpw) j i hj hi hlt
      have h2 : path_before (entry_path ei) (entry_path ej) = false :=
        path_before_asymm _ _ this
      rw [hbefore] at h2
      cases h2
    · have : ei = ej := by
        simp only [hei, hej]
        congr 1
        simp only [Fin.mk.injEq]
        exact heq.symm
      rw [this] at hlen
      exact Nat.lt_irrefl _ hlen

theorem enumeration_preorder_witness :
    print_router_state (run zero_block zeroed_heap
        [⟨3221225472, 2, 5⟩, ⟨167772160, 16, 1⟩, ⟨167772160, 8, 0⟩, ⟨3221225472, 2, -1⟩])
      = [(167772160, 8, 0), (167772160, 16, 1)] ∧
    ∀ e ∈ print_router_state (run zero_block zeroed_heap
        [⟨3221225472, 2, 5⟩, ⟨167772160, 16, 1⟩, ⟨167772160, 8, 0⟩, ⟨3221225472, 2, -1⟩]),
      e.2.1 ≤ 32 ∧ e.2.2 ≠ -1 ∧
      last_set [⟨3221225472, 2, 5⟩, ⟨167772160, 16, 1⟩, ⟨167772160, 8, 0⟩,
        ⟨3221225472, 2, -1⟩] e.1 e.2.1 = e.2.2 :=
  ⟨by decide,
    (enumeration_preorder [⟨3221225472, 2, 5⟩, ⟨167772160, 16, 1⟩, ⟨167772160, 8, 0⟩,
      ⟨3221225472, 2, -1⟩] (by decide)).1⟩

/-- C13 fails on the code: `print_subtrie` walks the children a new node kept from its
block. When the block of the root holds in `left` the address of a stale node with an
`info`, the enumeration of the freshly initialised router has an entry although no rule is
active; and after `set(128.0.0.0, 1, 0)` with such a block for the node of the prefix, the
enumeration has the stale entry next to the entry of the rule. -/
theorem enumeration_prints_stale_entry :
    print_router_state
        (run ⟨Node.mk 7 (some ⟨3221225472, 2⟩) Node.null Node.null, Node.null⟩ zeroed_heap
          [])
      = [(3221225472, 2, 7)] ∧
    (∀ n, last_set [] 3221225472 n = -1) ∧
    print_router_state
        (run zero_block
          (fun _ _ => ⟨Node.mk 7 (some ⟨3221225472, 2⟩) Node.null Node.null, Node.null⟩)
          [⟨2147483648, 1, 0⟩])
      = [(2147483648, 1, 0), (3221225472, 2, 7)] :=
  ⟨by decide, fun _ => rfl, by decide⟩

/-- C14 as stated fails: with addresses that have bits set beyond their prefix length the
enumeration is not in ascending order of the printed address: `10.0.0.255/8` is printed
before `10.0.0.1/16`. -/
theorem enumeration_not_sorted :
    print_router_state (run zero_block zeroed_heap [⟨167772415, 8, 0⟩, ⟨167772161, 16, 1⟩])
      = [(167772415, 8, 0), (167772161, 16, 1)] ∧ ¬ (167772415 ≤ 167772161) := by
  decide

theorem walk_agree_self (ip mask : Nat) :
    ∀ (fuel bit : Nat), walk_agree ip ip mask fuel bit = true := by
  intro fuel
  induction fuel with
  | zero => intro bit; rfl
  | succ fuel ih =>
    intro bit
    simp only [walk_agree]
    split_ifs
    · simp [ih]
    · rfl

theorem prefix_bits_get (ip n j : Nat) (hj : j < n) :
    (prefix_bits ip n)[j]? = some (ip.testBit (31 - j)) := by
  simp [prefix_bits, List.getElem?_range hj]

theorem path_before_cases :
    ∀ (p q : List Bool), path_before p q = true →
      (∃ b rest, q = p ++ b :: rest) ∨
      (∃ c r1 r2, p = c ++ false :: r1 ∧ q = c ++ true :: r2) := by
  intro p
  induction p with
  | nil =>
    intro q h
    cases q with
    | nil => simp [path_before] at h
    | cons b rest => exact Or.inl ⟨b, rest, rfl⟩
  | cons a p ih =>
    intro q h
    cases q with
    | nil => simp [path_before] at h
    | cons b q =>
      simp only [path_before, Bool.or_eq_true, Bool.and_eq_true, Bool.not_eq_true',
        beq_iff_eq] at h
      rcases h with ⟨ha, hb⟩ | ⟨hab, hpq⟩
      · subst ha hb
        exact Or.inr ⟨[], p, q, rfl, rfl⟩
      · subst hab
        rcases ih q hpq with ⟨x, rest, hq⟩ | ⟨c, r1, r2, hp, hq⟩
        · exact Or.inl ⟨x, rest, by rw [hq]; rfl⟩
        · exact Or.inr ⟨a :: c, r1, r2, by rw [hp]; rfl, by rw [hq]; rfl⟩

/-- For addresses without bits beyond their prefix length, the pre-order position of two
entries implies the ascending order of `(address, netsize)`. -/
theorem address_order_of_path_before (a b : Nat × Nat × Int) (ha : a.1 < 2 ^ 32)
    (hb : b.1 < 2 ^ 32) (hna : a.2.1 ≤ 32) (_hnb : b.2.1 ≤ 32)
    (hca : a.1 % 2 ^ (32 - a.2.1) = 0)
    (h : path_before (entry_path a) (entry_path b) = true) :
    a.1 < b.1 ∨ (a.1 = b.1 ∧ a.2.1 < b.2.1) := by
  rcases path_before_cases _ _ h with ⟨x, rest, hq⟩ | ⟨c, r1, r2, hp, hq⟩
  · have hlen := congrArg List.length hq
    simp only [entry_path, prefix_bits_length, List.length_append, List.length_cons] at hlen
    have hlt : a.2.1 < b.2.1 := by omega
    simp only [entry_path] at hq
    rw [prefix_bits_split b.1 a.2.1 b.2.1 (Nat.le_of_lt hlt)] at hq
    have hpre := (List.append_inj hq (by simp [prefix_bits_length])).1
    have hmatch := (prefix_match_iff_bits b.1 a.1 a.2.1 hb ha hna).2 hpre
    unfold prefix_match at hmatch
    have h1 := Nat.div_add_mod a.1 (2 ^ (32 - a.2.1))
    have h2 := Nat.div_add_mod b.1 (2 ^ (32 - a.2.1))
    rw [hca, ← hmatch] at h1
    have hle : a.1 ≤ b.1 := by omega
    rcases Nat.lt_or_eq_of_le hle with hlt2 | heq
    · exact Or.inl hlt2
    · exact Or.inr ⟨heq, hlt⟩
  · left
    simp only [entry_path] at hp hq
    have hla := congrArg List.length hp
    have hlb := congrArg List.length hq
    simp only [prefix_bits_length, List.length_append, List.length_cons] at hla hlb
    have hda : c.length < a.2.1 := by omega
    have hdb : c.length < b.2.1 := by omega
    have hbit : ∀ j, j < c.length → a.1.testBit (31 - j) = b.1.testBit (31 - j) := by
      intro j hj
      have e1 := prefix_bits_get a.1 a.2.1 j (by omega)
      have e2 := prefix_bits_get b.1 b.2.1 j (by omega)
      rw [hp, List.getElem?_append_left hj] at e1
      rw [hq, List.getElem?_append_left hj, e1] at e2
      exact Option.some.inj e2
    have hfa : a.1.testBit (31 - c.length) = false := by
      have e1 := prefix_bits_get a.1 a.2.1 c.length hda
      rw [hp, List.getElem?_append_right (Nat.le_refl _)] at e1
      simpa using e1.symm
    have hfb : b.1.testBit (31 - c.length) = true := by
      have e1 := prefix_bits_get b.1 b.2.1 c.length hdb
      rw [hq, List.getElem?_append_right (Nat.le_refl _)] at e1
      simpa using e1.symm
    apply Nat.lt_of_testBit (31 - c.length) hfa hfb
    intro j hj
    by_cases hj32 : j < 32
    · have := hbit (31 - j) (by omega)
      have e : 31 - (31 - j) = j := by omega
      rwa [e] at this
    · have hp2 : 2 ^ 32 ≤ 2 ^ j := Nat.pow_le_pow_right (by norm_num) (by omega)
      rw [Nat.testBit_lt_two_pow (lt_of_lt_of_le ha hp2),
        Nat.testBit_lt_two_pow (lt_of_lt_of_le hb hp2)]

/-- When every address given has no bits set beyond its prefix length, the enumeration is in
ascending order of the address, and of `netsize` for entries with the same address. -/
theorem enumeration_sorted_of_canonical (ops : List Op)
    (hops : ∀ op ∈ ops, op.netsize ≤ 32 ∧ op.ip < 2 ^ 32 ∧
      op.ip % 2 ^ (32 - op.netsize) = 0) :
    (print_router_state (run zero_block zeroed_heap ops)).Pairwise
      (fun e1 e2 => e1.1 < e2.1 ∨ (e1.1 = e2.1 ∧ e1.2.1 < e2.2.1)) := by
  have hops2 : ∀ op ∈ ops, op.netsize ≤ 32 ∧ op.ip < 2 ^ 32 :=
    fun o ho => ⟨(hops o ho).1, (hops o ho).2.1⟩
  have hcanon : all_info (fun inf => inf.ip % 2 ^ (32 - inf.netsize) = 0)
      (run zero_block zeroed_heap ops).root := by
    clear hops2
    induction ops using List.reverseRecOn with
    | nil => exact ⟨by simp, trivial, trivial⟩
    | append_singleton ops op ih =>
      rw [run_snoc]
      simp only [populate_forwarding_table, alter]
      exact all_info_alter_walk _ op.ip op.netsize op.nic _ (hops op (by simp)).2.2 _ _ _
        (ih (fun o ho => hops o (by simp [ho])))
  have hpw := print_subtrie_pairwise (run zero_block zeroed_heap ops).root []
    (node_inv_run ops (fun o ho => (hops o ho).1))
  refine List.Pairwise.imp_of_mem ?_ hpw
  intro a b ha hb hab
  obtain ⟨ba, na, _, _⟩ := entry_facts ops hops2 a ha
  obtain ⟨bb, nb, _, _⟩ := entry_facts ops hops2 b hb
  obtain ⟨q, l, r, hq⟩ := mem_print_subtrie _ a ha
  have hc := all_info_subtree _ q _ hcanon
  rw [hq] at hc
  exact address_order_of_path_before a b ba bb na nb (hc.1 _ rfl) hab

theorem prefix_address_eq (e : Nat × Nat × Int) :
    prefix_address e = 2 ^ (32 - e.2.1) * (e.1 / 2 ^ (32 - e.2.1)) :=
  Nat.sub_eq_of_eq_add (Nat.div_add_mod e.1 (2 ^ (32 - e.2.1))).symm

theorem prefix_address_le (e : Nat × Nat × Int) : prefix_address e ≤ e.1 :=
  Nat.sub_le _ _

theorem prefix_address_mod (e : Nat × Nat × Int) :
    prefix_address e % 2 ^ (32 - e.2.1) = 0 := by
  rw [prefix_address_eq, Nat.mul_mod_right]

theorem prefix_address_match (e : Nat × Nat × Int) :
    prefix_match (prefix_address e) e.1 e.2.1 := by
  unfold prefix_match
  rw [prefix_address_eq, Nat.mul_div_cancel_left _ (Nat.pow_pos (by norm_num))]

/-- C14, amended: in zero-filled memory, the enumeration of a trie built by
`populate_forwarding_table` calls with `netsize ≤ 32` is in ascending order of the prefix,
that is of the printed address with the bits beyond `netsize` cleared, and entries with the
same prefix are in ascending order of `netsize`. -/
theorem enumeration_sorted_by_prefix (ops : List Op)
    (hops : ∀ op ∈ ops, op.netsize ≤ 32 ∧ op.ip < 2 ^ 32) :
    (print_router_state (run zero_block zeroed_heap ops)).Pairwise
      (fun e1 e2 => prefix_address e1 < prefix_address e2 ∨
        (prefix_address e1 = prefix_address e2 ∧ e1.2.1 < e2.2.1)) := by
  have hpw := print_subtrie_pairwise (run zero_block zeroed_heap ops).root []
    (node_inv_run ops (fun o ho => (hops o ho).1))
  refine List.Pairwise.imp_of_mem ?_ hpw
  intro a b ha hb hab
  obtain ⟨ba, na, _, _⟩ := entry_facts ops hops a ha
  obtain ⟨bb, nb, _, _⟩ := entry_facts ops hops b hb
  have ba2 : prefix_address a < 2 ^ 32 := lt_of_le_of_lt (prefix_address_le a) ba
  have bb2 : prefix_address b < 2 ^ 32 := lt_of_le_of_lt (prefix_address_le b) bb
  have ea : entry_path (prefix_address a, a.2.1, a.2.2) = entry_path a :=
    (prefix_match_iff_bits _ _ _ ba2 ba na).1 (prefix_address_match a)
  have eb : entry_path (prefix_address b, b.2.1, b.2.2) = entry_path b :=
    (prefix_match_iff_bits _ _ _ bb2 bb nb).1 (prefix_address_match b)
  exact address_order_of_path_before (prefix_address a, a.2.1, a.2.2)
    (prefix_address b, b.2.1, b.2.2) ba2 bb2 na nb (prefix_address_mod a)
    (by rw [ea, eb]; exact hab)

theorem enumeration_sorted_by_prefix_witness :
    prefix_address (167772415, 8, 0) = 167772160 ∧
    prefix_address (167772161, 16, 1) = 167772160 ∧
    (print_router_state
        (run zero_block zeroed_heap [⟨167772415, 8, 0⟩, ⟨167772161, 16, 1⟩])).Pairwise
      (fun e1 e2 => prefix_address e1 < prefix_address e2 ∨
        (prefix_address e1 = prefix_address e2 ∧ e1.2.1 < e2.2.1)) :=
  ⟨by decide, by decide,
    enumeration_sorted_by_prefix [⟨167772415, 8, 0⟩, ⟨167772161, 16, 1⟩] (by decide)⟩

end Forward

namespace Route

theorem update_min_nic_loop_spec :
    ∀ (tbl : List Nat) (i : Nat) (nn : Int) (mm : Nat),
      (update_min_nic_loop tbl i nn mm).2 ≤ mm ∧
      (∀ x ∈ tbl, (update_min_nic_loop tbl i nn mm).2 ≤ x) ∧
      ((update_min_nic_loop tbl i nn mm = (nn, mm) ∧ ∀ x ∈ tbl, mm ≤ x) ∨
        ∃ j : Nat, (update_min_nic_loop tbl i nn mm).1 = ((i + j : Nat) : Int) ∧
          tbl[j]? = some (update_min_nic_loop tbl i nn mm).2 ∧
          (update_min_nic_loop tbl i nn mm).2 < mm ∧
          ∀ j2, j2 < j → ∀ x, tbl[j2]? = some x →
            (update_min_nic_loop tbl i nn mm).2 < x) := by
  intro tbl
  induction tbl with
  | nil => intro i nn mm; simp [update_min_nic_loop]
  | cons x rest ih =>
    intro i nn mm
    simp only [update_min_nic_loop]
    by_cases hx : x < mm
    · simp only [if_pos hx]
      obtain ⟨h1, h2, h3⟩ := ih (i + 1) (i : Int) x
      refine ⟨by omega, ?_, Or.inr ?_⟩
      · intro y hy
        rcases List.mem_cons.1 hy with rfl | hy
        · exact h1
        · exact h2 y hy
      · rcases h3 with ⟨he, _⟩ | ⟨j, hj1, hj2, hj3, hj4⟩
        · refine ⟨0, ?_, ?_, ?_, ?_⟩
          · rw [he]; simp
          · rw [he]; simp
          · rw [he]; exact hx
          · intro j2 hj2; omega
        · refine ⟨j + 1, ?_, ?_, by omega, ?_⟩
          · rw [hj1]; push_cast; ring
          · simpa using hj2
          · intro j2 hj2lt y hy
            cases j2 with
            | zero =>
              simp only [List.getElem?_cons_zero, Option.some.injEq] at hy
              omega
            | succ j2 =>
              simp only [List.getElem?_cons_succ] at hy
              exact hj4 j2 (by omega) y hy
    · simp only [if_neg hx]
      obtain ⟨h1, h2, h3⟩ := ih (i + 1) nn mm
      refine ⟨h1, ?_, ?_⟩
      · intro y hy
        rcases List.mem_cons.1 hy with rfl | hy
        · omega
        · exact h2 y hy
      · rcases h3 with ⟨he, hall⟩ | ⟨j, hj1, hj2, hj3, hj4⟩
        · left
          refine ⟨he, ?_⟩
          intro y hy
          rcases List.mem_cons.1 hy with rfl | hy
          · omega
          · exact hall y hy
        · right
          refine ⟨j + 1, ?_, ?_, hj3, ?_⟩
          · rw [hj1]; push_cast; ring
          · simpa using hj2
          · intro j2 hj2lt y hy
            cases j2 with
            | zero =>
              simp only [List.getElem?_cons_zero, Option.some.injEq] at hy
              omega
            | succ j2 =>
              simp only [List.getElem?_cons_succ] at hy
              exact hj4 j2 (by omega) y hy

/-- The two outcomes of `update_min_nic`: every entry is unreachable and `-1` is returned,
or the record gets the least entry and the lowest index holding it. -/
theorem update_min_nic_spec (cap : capacity) (r : subnet_node) :
    (update_min_nic cap r).1.subnet_ip = r.subnet_ip ∧
    (update_min_nic cap r).1.netsize = r.netsize ∧
    (update_min_nic cap r).1.neighbor_table = r.neighbor_table ∧
    (update_min_nic cap r).1.forwarding_nic = (update_min_nic cap r).2 ∧
    (((update_min_nic cap r).2 = -1 ∧
        (update_min_nic cap r).1.forwarding_metric = cap.METRIC_UNREACHABLE ∧
        ∀ x ∈ r.neighbor_table, cap.METRIC_UNREACHABLE ≤ x) ∨
      ((update_min_nic cap r).1.forwarding_metric < cap.METRIC_UNREACHABLE ∧
        (∀ x ∈ r.neighbor_table, (update_min_nic cap r).1.forwarding_metric ≤ x) ∧
        ∃ j : Nat, (update_min_nic cap r).2 = (j : Int) ∧
          r.neighbor_table[j]? = some (update_min_nic cap r).1.forwarding_metric ∧
          ∀ j2, j2 < j → ∀ x, r.neighbor_table[j2]? = some x →
            (update_min_nic cap r).1.forwarding_metric < x)) := by
  obtain ⟨h1, h2, h3⟩ := update_min_nic_loop_spec r.neighbor_table 0 (-1) cap.METRIC_UNREACHABLE
  refine ⟨rfl, rfl, rfl, rfl, ?_⟩
  simp only [update_min_nic]
  rcases h3 with ⟨he, hall⟩ | ⟨j, hj1, hj2, hj3, hj4⟩
  · left
    rw [he]
    exact ⟨rfl, rfl, hall⟩
  · right
    refine ⟨hj3, h2, j, ?_, hj2, hj4⟩
    rw [hj1]; simp

theorem nic_in_range_nat (cap : capacity) (nic : Int) (h : nic_in_range cap nic) :
    ∃ k : Nat, nic = (k : Int) ∧ k < cap.NUM_NICS := by
  obtain ⟨h0, h1⟩ := h
  refine ⟨nic.toNat, (Int.toNat_of_nonneg h0).symm, ?_⟩
  omega

theorem table_store_nat (tbl : List Nat) (k v : Nat) :
    table_store tbl (k : Int) v = tbl.set k v := by
  simp [table_store]

theorem uint_add_one (metric : Nat) (h : metric + 1 < 2 ^ 32) : uint_add metric 1 = metric + 1 :=
  Nat.mod_eq_of_lt h

/-- A full recomputation over a table with a finite entry yields a record that satisfies the
invariant. -/
theorem record_inv_update_min_nic (cap : capacity) (r : subnet_node)
    (hlen : r.neighbor_table.length = cap.NUM_NICS)
    (hfin : ∃ x ∈ r.neighbor_table, x < cap.METRIC_UNREACHABLE) :
    record_inv cap (update_min_nic cap r).1 ∧ 0 ≤ (update_min_nic cap r).2 := by
  obtain ⟨_, _, htbl, hnic, h⟩ := update_min_nic_spec cap r
  rcases h with ⟨_, _, hall⟩ | ⟨hlt, hmin, j, hj, hget, hlow⟩
  · obtain ⟨x, hx, hxlt⟩ := hfin
    have := hall x hx
    omega
  · refine ⟨⟨by rw [htbl]; exact hlen, hlt, by rw [htbl]; exact hmin, j, ?_, ?_, ?_⟩, ?_⟩
    · rw [hnic, hj]
    · rw [htbl]; exact hget
    · rw [htbl]; exact hlow
    · rw [hj]; exact Int.natCast_nonneg j

/-- The branches of `process_update` on an existing record keep the record invariant and the
key of the record. -/
theorem process_update_found_inv (cap : capacity) (hcap : cap.METRIC_UNREACHABLE < 2 ^ 32)
    (curr : subnet_node) (hinv : record_inv cap curr) (ip netsize : Nat) (nic : Int)
    (hnic : nic_in_range cap nic) (metric update_id : Nat) (hmetric : metric < 2 ^ 32)
    (c2 : subnet_node)
    (hres : (process_update_found cap curr ip netsize nic metric update_id).1 = some c2) :
    record_inv cap c2 ∧ c2.subnet_ip = curr.subnet_ip ∧ c2.netsize = curr.netsize := by
  obtain ⟨k, rfl, hk⟩ := nic_in_range_nat cap nic hnic
  obtain ⟨hlen, hfm, hmin, j, hj, hget, hlow⟩ := hinv
  have hklen : k < curr.neighbor_table.length := by omega
  simp only [process_update_found, table_store_nat] at hres
  by_cases hc : uint_add metric 1 ≥ cap.METRIC_UNREACHABLE
  · simp only [if_pos hc] at hres
    by_cases hf : curr.forwarding_nic = (k : Int)
    · simp only [if_pos hf] at hres
      set r1 : subnet_node :=
        { curr with neighbor_table := curr.neighbor_table.set k cap.METRIC_UNREACHABLE }
        with hr1
      obtain ⟨hip, hns, htbl, hnn, h⟩ := update_min_nic_spec cap r1
      by_cases hneg : (update_min_nic cap r1).2 < 0
      · simp [if_pos hneg] at hres
      · simp only [if_neg hneg, Option.some.injEq] at hres
        subst hres
        rcases h with ⟨hm1, _, _⟩ | ⟨hlt, hmin2, j2, hj2, hget2, hlow2⟩
        · omega
        · refine ⟨⟨?_, hlt, ?_, j2, ?_, ?_, ?_⟩, hip, hns⟩
          · rw [htbl]; simp [hr1, hlen]
          · rw [htbl]; exact hmin2
          · rw [hnn, hj2]
          · rw [htbl]; exact hget2
          · rw [htbl]; exact hlow2
    · simp only [if_neg hf, Option.some.injEq] at hres
      subst hres
      have hjk : j ≠ k := fun e => hf (by rw [hj, e])
      refine ⟨⟨by simp [hlen], hfm, ?_, j, hj, ?_, ?_⟩, rfl, rfl⟩
      · intro x hx
        rcases List.mem_or_eq_of_mem_set hx with h | h
        · exact hmin x h
        · subst h; exact Nat.le_of_lt hfm
      · simp only
        rw [List.getElem?_set_ne (Ne.symm hjk)]; exact hget
      · intro j2 hj2 x hx
        simp only [List.getElem?_set] at hx
        split_ifs at hx with h1
        · simp only [Option.some.injEq] at hx
          subst hx; exact hfm
        · exact hlow j2 hj2 x hx
  · simp only [if_neg hc] at hres
    have hclt : uint_add metric 1 < cap.METRIC_UNREACHABLE := by omega
    have hmemc : uint_add metric 1 ∈ curr.neighbor_table.set k (uint_add metric 1) :=
      List.mem_set _ _ hklen _
    by_cases hb : (k : Int) = curr.forwarding_nic ∧ metric ≥ curr.forwarding_metric
    · simp only [if_pos hb, Option.some.injEq] at hres
      subst hres
      exact ⟨(record_inv_update_min_nic cap _ (by simp [hlen]) ⟨_, hmemc, hclt⟩).1, rfl, rfl⟩
    · simp only [if_neg hb] at hres
      by_cases hd1 : uint_add metric 1 < curr.forwarding_metric
      · simp only [if_pos hd1, Option.some.injEq] at hres
        subst hres
        exact ⟨(record_inv_update_min_nic cap _ (by simp [hlen]) ⟨_, hmemc, hclt⟩).1, rfl, rfl⟩
      · simp only [if_neg hd1] at hres
        by_cases hd2 : uint_add metric 1 = curr.forwarding_metric ∧
            (k : Int) < curr.forwarding_nic
        · simp only [if_pos hd2, Option.some.injEq] at hres
          subst hres
          obtain ⟨he, hlt⟩ := hd2
          have hkj : k < j := by rw [hj] at hlt; exact_mod_cast hlt
          refine ⟨⟨by simp [hlen], hfm, ?_, k, rfl, ?_, ?_⟩, rfl, rfl⟩
          · intro x hx
            rcases List.mem_or_eq_of_mem_set hx with h | h
            · exact hmin x h
            · subst h; simp only; omega
          · simp only
            rw [List.getElem?_set_self hklen, he]
          · intro j2 hj2 x hx
            simp only at hx ⊢
            rw [List.getElem?_set_ne (by omega)] at hx
            exact hlow j2 (by omega) x hx
        · simp only [if_neg hd2, Option.some.injEq] at hres
          subst hres
          refine ⟨⟨by simp [hlen], hfm, ?_, j, hj, ?_, ?_⟩, rfl, rfl⟩
          · intro x hx
            rcases List.mem_or_eq_of_mem_set hx with h | h
            · exact hmin x h
            · subst h; simp only; omega
          · simp only
            by_cases hjk : k = j
            · subst hjk
              rw [List.getElem?_set_self hklen]
              have hlt : metric < curr.forwarding_metric := by
                by_contra hge
                exact hb ⟨hj.symm, by omega⟩
              have : uint_add metric 1 = metric + 1 := uint_add_one metric (by omega)
              congr 1
              omega
            · rw [List.getElem?_set_ne hjk]; exact hget
          · intro j2 hj2 x hx
            simp only [List.getElem?_set] at hx
            split_ifs at hx with h1
            · simp only [Option.some.injEq] at hx
              have hne : uint_add metric 1 ≠ curr.forwarding_metric := fun e =>
                hd2 ⟨e, by rw [hj]; exact_mod_cast (h1 ▸ hj2)⟩
              show curr.forwarding_metric < x
              omega
            · exact hlow j2 hj2 x hx

theorem find_none_iff (s : router_state) (ip netsize : Nat) :
    find s ip netsize = none ↔ ∀ c ∈ s, ¬ (c.subnet_ip = ip ∧ c.netsize = netsize) := by
  induction s with
  | nil => simp [find]
  | cons c rest ih =>
    simp only [find]
    by_cases h : c.subnet_ip = ip ∧ c.netsize = netsize
    · simp only [if_pos h]
      constructor
      · intro hc; cases hc
      · intro hall; exact absurd h (hall c (List.mem_cons_self _ _))
    · simp only [if_neg h, Option.map_eq_none', ih]
      constructor
      · intro hall x hx
        rcases List.mem_cons.1 hx with rfl | hx
        · exact h
        · exact hall x hx
      · intro hall x hx
        exact hall x (List.mem_cons_of_mem _ hx)

theorem find_some_spec (s : router_state) (ip netsize p : Nat)
    (h : find s ip netsize = some p) :
    ∃ c, s[p]? = some c ∧ c.subnet_ip = ip ∧ c.netsize = netsize := by
  induction s generalizing p with
  | nil => simp [find] at h
  | cons c rest ih =>
    simp only [find] at h
    by_cases hc : c.subnet_ip = ip ∧ c.netsize = netsize
    · simp only [if_pos hc, Option.some.injEq] at h
      subst h
      exact ⟨c, by simp, hc⟩
    · simp only [if_neg hc, Option.map_eq_some'] at h
      obtain ⟨q, hq, rfl⟩ := h
      obtain ⟨c2, h1, h2⟩ := ih q hq
      exact ⟨c2, by simpa using h1, h2⟩

theorem find_set (s : router_state) (p : Nat) (c c2 : subnet_node) (hp : s[p]? = some c)
    (hip : c2.subnet_ip = c.subnet_ip) (hns : c2.netsize = c.netsize) (ip netsize : Nat) :
    find (s.set p c2) ip netsize = find s ip netsize := by
  induction s generalizing p with
  | nil => simp
  | cons x rest ih =>
    cases p with
    | zero =>
      simp only [List.getElem?_cons_zero, Option.some.injEq] at hp
      subst hp
      simp only [List.set_cons_zero, find, hip, hns]
    | succ p =>
      simp only [List.getElem?_cons_succ] at hp
      simp only [List.set_cons_succ, find, ih p hp]

theorem find_node_set (s : router_state) (p : Nat) (c c2 : subnet_node)
    (ip netsize : Nat) (hf : find s ip netsize = some p) (hp : s[p]? = some c)
    (hip : c2.subnet_ip = c.subnet_ip) (hns : c2.netsize = c.netsize) :
    find_node (s.set p c2) ip netsize = some c2 := by
  unfold find_node
  rw [find_set s p c c2 hp hip hns, hf]
  simp only [Option.some_bind]
  obtain ⟨hlt, _⟩ := List.getElem?_eq_some_iff.1 hp
  exact List.getElem?_set_self hlt

theorem remove_node_eq_eraseIdx (s : router_state) (p : Nat) :
    remove_node s p = s.eraseIdx p := by
  induction s generalizing p with
  | nil => rfl
  | cons c rest ih =>
    cases p with
    | zero => rfl
    | succ p => simp [remove_node, ih]

theorem mem_of_mem_remove_node (s : router_state) (p : Nat) (x : subnet_node)
    (h : x ∈ remove_node s p) : x ∈ s := by
  rw [remove_node_eq_eraseIdx] at h
  exact (List.eraseIdx_sublist s p).subset h

theorem find_remove_node (s : router_state) (ip netsize p : Nat)
    (hnd : (s.map record_key).Nodup) (h : find s ip netsize = some p) :
    find (remove_node s p) ip netsize = none := by
  induction s generalizing p with
  | nil => simp [find] at h
  | cons c rest ih =>
    simp only [List.map_cons, List.nodup_cons] at hnd
    simp only [find] at h
    by_cases hc : c.subnet_ip = ip ∧ c.netsize = netsize
    · simp only [if_pos hc, Option.some.injEq] at h
      subst h
      simp only [remove_node]
      rw [find_none_iff]
      intro x hx hkey
      apply hnd.1
      rw [List.mem_map]
      exact ⟨x, hx, by simp [record_key, hkey.1, hkey.2, hc.1, hc.2]⟩
    · simp only [if_neg hc, Option.map_eq_some'] at h
      obtain ⟨q, hq, rfl⟩ := h
      simp only [remove_node, find, if_neg hc, ih q hnd.2 hq, Option.map_none']

theorem add_new_loop_perm (new : subnet_node) (ip netsize : Nat) (s : router_state) :
    (add_new_loop new ip netsize s).Perm (new :: s) := by
  induction s with
  | nil => simp [add_new_loop]
  | cons c rest ih =>
    simp only [add_new_loop]
    split_ifs
    · exact List.Perm.refl _
    · exact (List.Perm.cons c ih).trans (List.Perm.swap new c rest)

theorem find_node_add_new_loop (new : subnet_node) (ip netsize : Nat) (s : router_state)
    (hip : new.subnet_ip = ip) (hns : new.netsize = netsize)
    (h : find s ip netsize = none) :
    find_node (add_new_loop new ip netsize s) ip netsize = some new := by
  induction s with
  | nil => simp [add_new_loop, find_node, find, hip, hns]
  | cons c rest ih =>
    simp only [find] at h
    by_cases hc : c.subnet_ip = ip ∧ c.netsize = netsize
    · simp [if_pos hc] at h
    · simp only [if_neg hc, Option.map_eq_none'] at h
      have ih2 := ih h
      simp only [add_new_loop]
      split_ifs
      · simp [find_node, find, hip, hns]
      · unfold find_node at ih2 ⊢
        simp only [find, if_neg hc]
        cases hf : find (add_new_loop new ip netsize rest) ip netsize with
        | none => simp [hf] at ih2
        | some q =>
          simp only [hf, Option.some_bind] at ih2
          simpa using ih2

theorem map_key_set (s : router_state) (p : Nat) (c c2 : subnet_node) (hp : s[p]? = some c)
    (hip : c2.subnet_ip = c.subnet_ip) (hns : c2.netsize = c.netsize) :
    (s.set p c2).map record_key = s.map record_key := by
  induction s generalizing p with
  | nil => simp
  | cons x rest ih =>
    cases p with
    | zero =>
      simp only [List.getElem?_cons_zero, Option.some.injEq] at hp
      subst hp
      simp [record_key, hip, hns]
    | succ p =>
      simp only [List.getElem?_cons_succ] at hp
      simp [ih p hp]

theorem process_update_none (cap : capacity) (s : router_state) (ip netsize : Nat) (nic : Int)
    (metric update_id : Nat) (h : find s ip netsize = none) :
    process_update cap s ip netsize nic metric update_id
      = if uint_add metric 1 < cap.METRIC_UNREACHABLE then
          (add_new cap s ip netsize nic metric,
            [⟨ip, netsize, nic, uint_add metric 1, update_id⟩])
        else (s, []) := by
  simp only [process_update, h]

theorem process_update_some (cap : capacity) (s : router_state) (ip netsize : Nat) (nic : Int)
    (metric update_id p : Nat) (curr : subnet_node) (h : find s ip netsize = some p)
    (hp : s[p]? = some curr) :
    process_update cap s ip netsize nic metric update_id
      = match process_update_found cap curr ip netsize nic metric update_id with
        | (none, out) => (remove_node s p, out)
        | (some curr2, out) => (s.set p curr2, out) := by
  simp only [process_update, h, hp]

theorem record_inv_init_node (cap : capacity) (ip netsize : Nat) (nic : Int)
    (hnic : nic_in_range cap nic) (metric : Nat)
    (hc : uint_add metric 1 < cap.METRIC_UNREACHABLE) :
    record_inv cap (init_node cap ip netsize nic metric) := by
  obtain ⟨k, rfl, hk⟩ := nic_in_range_nat cap nic hnic
  simp only [init_node, table_store_nat]
  refine ⟨by simp, hc, ?_, k, rfl, ?_, ?_⟩
  · intro x hx
    rcases List.mem_or_eq_of_mem_set hx with h | h
    · simp only [List.mem_replicate] at h
      simp only [h.2]; omega
    · subst h; exact le_refl _
  · simp only
    rw [List.getElem?_set_self (by simpa using hk)]
  · intro j2 hj2 x hx
    simp only at hx ⊢
    rw [List.getElem?_set_ne (by omega), List.getElem?_replicate] at hx
    split_ifs at hx
    · simp only [Option.some.injEq] at hx
      omega

/-- One call of `process_update` with an interface in range keeps the table invariant. -/
theorem process_update_inv (cap : capacity) (hcap : cap.METRIC_UNREACHABLE < 2 ^ 32)
    (s : router_state) (hs : state_inv cap s) (ip netsize : Nat) (nic : Int)
    (hnic : nic_in_range cap nic) (metric update_id : Nat) (hmetric : metric < 2 ^ 32) :
    state_inv cap (process_update cap s ip netsize nic metric update_id).1 := by
  obtain ⟨hrec, hnd⟩ := hs
  cases hf : find s ip netsize with
  | none =>
    rw [process_update_none cap s ip netsize nic metric update_id hf]
    split_ifs with hc
    · have hperm := add_new_loop_perm (init_node cap ip netsize nic metric) ip netsize s
      refine ⟨?_, ?_⟩
      · intro r hr
        rcases List.mem_cons.1 (hperm.mem_iff.1 hr) with rfl | hr
        · exact record_inv_init_node cap ip netsize nic hnic metric hc
        · exact hrec r hr
      · have hp2 := hperm.map record_key
        refine hp2.nodup_iff.2 ?_
        simp only [List.map_cons, List.nodup_cons]
        refine ⟨?_, hnd⟩
        intro hmem
        rw [List.mem_map] at hmem
        obtain ⟨x, hx, hkey⟩ := hmem
        simp only [record_key, init_node, Prod.mk.injEq] at hkey
        exact (find_none_iff s ip netsize).1 hf x hx hkey
    · exact ⟨hrec, hnd⟩
  | some p =>
    obtain ⟨curr, hp, hkip, hkns⟩ := find_some_spec s ip netsize p hf
    rw [process_update_some cap s ip netsize nic metric update_id p curr hf hp]
    have hcurr : record_inv cap curr := hrec curr (List.getElem?_mem hp)
    cases hres : process_update_found cap curr ip netsize nic metric update_id with
    | mk res out =>
      cases res with
      | none =>
        refine ⟨fun r hr => hrec r (mem_of_mem_remove_node s p r hr), ?_⟩
        simp only [remove_node_eq_eraseIdx]
        exact hnd.sublist ((List.eraseIdx_sublist s p).map record_key)
      | some c2 =>
        have h2 := process_update_found_inv cap hcap curr hcurr ip netsize nic hnic metric
          update_id hmetric c2 (by rw [hres])
        refine ⟨?_, ?_⟩
        · intro r hr
          rcases List.mem_or_eq_of_mem_set hr with h | h
          · exact hrec r h
          · subst h; exact h2.1
        · simp only [map_key_set s p curr c2 hp h2.2.1 h2.2.2]
          exact hnd

theorem reachable_inv (cap : capacity) (hcap : cap.METRIC_UNREACHABLE < 2 ^ 32)
    (s : router_state) (hs : Reachable cap s) : state_inv cap s := by
  induction hs with
  | init => exact ⟨by simp [initialize_router], by simp [initialize_router]⟩
  | step s ip netsize nic metric update_id _ hnic hmetric ih =>
    exact process_update_inv cap hcap s ih ip netsize nic hnic metric update_id hmetric

/-- On an existing record that satisfies the invariant, an update whose cost does not
overflow prints an advertisement exactly when the best route of the record changes, and the
advertisement carries the new best route, or `(-1, METRIC_UNREACHABLE)` after a removal. -/
theorem process_update_found_advert (cap : capacity)
    (curr : subnet_node) (hinv : record_inv cap curr) (ip netsize : Nat) (nic : Int)
    (hnic : nic_in_range cap nic) (metric update_id : Nat) (hmetric : metric + 1 < 2 ^ 32) :
    ((process_update_found cap curr ip netsize nic metric update_id).2 ≠ [] ↔
      (process_update_found cap curr ip netsize nic metric update_id).1.map route_of
        ≠ some (route_of curr)) ∧
    ((process_update_found cap curr ip netsize nic metric update_id).2 = [] ∨
      (process_update_found cap curr ip netsize nic metric update_id).2 =
        [⟨ip, netsize,
          (((process_update_found cap curr ip netsize nic metric update_id).1.map
            route_of).getD (-1, cap.METRIC_UNREACHABLE)).1,
          (((process_update_found cap curr ip netsize nic metric update_id).1.map
            route_of).getD (-1, cap.METRIC_UNREACHABLE)).2, update_id⟩]) := by
  obtain ⟨k, rfl, hk⟩ := nic_in_range_nat cap nic hnic
  obtain ⟨hlen, hfm, hmin, j, hj, hget, hlow⟩ := hinv
  have hklen : k < curr.neighbor_table.length := by omega
  have hcost : uint_add metric 1 = metric + 1 := uint_add_one metric hmetric
  simp only [process_update_found, table_store_nat]
  by_cases hc : uint_add metric 1 ≥ cap.METRIC_UNREACHABLE
  · simp only [if_pos hc]
    by_cases hf : curr.forwarding_nic = (k : Int)
    · simp only [if_pos hf]
      set r1 : subnet_node :=
        { curr with neighbor_table := curr.neighbor_table.set k cap.METRIC_UNREACHABLE }
        with hr1
      obtain ⟨_, _, htbl, hnn, h⟩ := update_min_nic_spec cap r1
      by_cases hneg : (update_min_nic cap r1).2 < 0
      · simp [if_pos hneg]
      · simp only [if_neg hneg]
        refine ⟨?_, Or.inr ?_⟩
        · simp only [ne_eq, List.cons_ne_self, not_false_eq_true, Option.map_some',
            Option.some.injEq, true_iff, reduceCtorEq]
          intro heq
          rcases h with ⟨hm1, _, _⟩ | ⟨hlt, _, j2, hj2, hget2, _⟩
          · omega
          · have h1 : (update_min_nic cap r1).1.forwarding_nic = curr.forwarding_nic :=
              congrArg Prod.fst heq
            rw [hnn, hj2, hf] at h1
            have hjk : j2 = k := by exact_mod_cast h1
            have ht : r1.neighbor_table = curr.neighbor_table.set k cap.METRIC_UNREACHABLE :=
              rfl
            rw [hjk, ht, List.getElem?_set_self hklen] at hget2
            simp only [Option.some.injEq] at hget2
            omega
        · simp [route_of]
    · simp [if_neg hf, route_of]
  · simp only [if_neg hc]
    have hclt : uint_add metric 1 < cap.METRIC_UNREACHABLE := by omega
    have hmemc : uint_add metric 1 ∈ curr.neighbor_table.set k (uint_add metric 1) :=
      List.mem_set _ _ hklen _
    by_cases hb : (k : Int) = curr.forwarding_nic ∧ metric ≥ curr.forwarding_metric
    · simp only [if_pos hb]
      set r1 : subnet_node :=
        { curr with neighbor_table := curr.neighbor_table.set k (uint_add metric 1) }
        with hr1
      obtain ⟨_, _, htbl, hnn, h⟩ := update_min_nic_spec cap r1
      refine ⟨?_, Or.inr (by simp [route_of])⟩
      simp only [ne_eq, List.cons_ne_self, not_false_eq_true, Option.map_some',
        Option.some.injEq, true_iff, reduceCtorEq]
      intro heq
      rcases h with ⟨_, _, hall⟩ | ⟨_, _, j2, hj2, hget2, _⟩
      · have := hall _ hmemc
        omega
      · have h1 : (update_min_nic cap r1).1.forwarding_nic = curr.forwarding_nic :=
          congrArg Prod.fst heq
        have h2 : (update_min_nic cap r1).1.forwarding_metric = curr.forwarding_metric :=
          congrArg Prod.snd heq
        rw [hnn, hj2, ← hb.1] at h1
        have hjk : j2 = k := by exact_mod_cast h1
        have ht : r1.neighbor_table = curr.neighbor_table.set k (uint_add metric 1) := rfl
        rw [hjk, h2, ht, List.getElem?_set_self hklen] at hget2
        simp only [Option.some.injEq] at hget2
        omega
    · simp only [if_neg hb]
      by_cases hd1 : uint_add metric 1 < curr.forwarding_metric
      · simp only [if_pos hd1]
        set r1 : subnet_node :=
          { curr with neighbor_table := curr.neighbor_table.set k (uint_add metric 1) }
          with hr1
        obtain ⟨_, _, htbl, hnn, h⟩ := update_min_nic_spec cap r1
        refine ⟨?_, Or.inr (by simp [route_of])⟩
        simp only [ne_eq, List.cons_ne_self, not_false_eq_true, Option.map_some',
          Option.some.injEq, true_iff, reduceCtorEq]
        intro heq
        have h2 : (update_min_nic cap r1).1.forwarding_metric = curr.forwarding_metric :=
          congrArg Prod.snd heq
        rcases h with ⟨_, _, hall⟩ | ⟨_, hmin2, _⟩
        · have := hall _ hmemc
          omega
        · have := hmin2 _ hmemc
          omega
      · simp only [if_neg hd1]
        by_cases hd2 : uint_add metric 1 = curr.forwarding_metric ∧
            (k : Int) < curr.forwarding_nic
        · simp only [if_pos hd2]
          refine ⟨?_, Or.inr (by simp [route_of])⟩
          simp only [ne_eq, List.cons_ne_self, not_false_eq_true, Option.map_some',
            Option.some.injEq, true_iff, reduceCtorEq]
          intro heq
          have h1 : (k : Int) = curr.forwarding_nic := congrArg Prod.fst heq
          omega
        · simp [if_neg hd2, route_of]

theorem process_update_found_key (cap : capacity) (curr : subnet_node) (ip netsize : Nat)
    (nic : Int) (metric update_id : Nat) (c2 : subnet_node)
    (h : (process_update_found cap curr ip netsize nic metric update_id).1 = some c2) :
    c2.subnet_ip = curr.subnet_ip ∧ c2.netsize = curr.netsize := by
  simp only [process_update_found] at h
  split_ifs at h <;> simp only [Option.some.injEq, reduceCtorEq] at h <;> subst h <;>
    exact ⟨rfl, rfl⟩

theorem find_node_some (s : router_state) (ip netsize : Nat) (r : subnet_node)
    (h : find_node s ip netsize = some r) :
    ∃ p, find s ip netsize = some p ∧ s[p]? = some r := by
  unfold find_node at h
  cases hf : find s ip netsize with
  | none => simp [hf] at h
  | some p => exact ⟨p, rfl, by simpa [hf] using h⟩

theorem find_node_of_find (s : router_state) (ip netsize p : Nat) (r : subnet_node)
    (hf : find s ip netsize = some p) (hp : s[p]? = some r) :
    find_node s ip netsize = some r := by
  simp [find_node, hf, hp]

/-- C2: in every route table reachable by `process_update` calls with the interface in range,
every record has `NUM_NICS` neighbour entries, its `forwarding_metric` is the least of them,
its `forwarding_nic` is the lowest index holding that least value, and its
`forwarding_metric` is below `METRIC_UNREACHABLE`. -/
theorem route_record_invariant (cap : capacity) (hcap : cap.METRIC_UNREACHABLE < 2 ^ 32)
    (s : router_state) (hs : Reachable cap s) (r : subnet_node) (hr : r ∈ s) :
    r.neighbor_table.length = cap.NUM_NICS ∧
    (r.forwarding_metric ∈ r.neighbor_table ∧
      ∀ x ∈ r.neighbor_table, r.forwarding_metric ≤ x) ∧
    (∃ j : Nat, r.forwarding_nic = (j : Int) ∧
      r.neighbor_table[j]? = some r.forwarding_metric ∧
      ∀ j2, j2 < j → r.neighbor_table[j2]? ≠ some r.forwarding_metric) ∧
    r.forwarding_metric < cap.METRIC_UNREACHABLE := by
  obtain ⟨hlen, hfm, hmin, j, hj, hget, hlow⟩ := (reachable_inv cap hcap s hs).1 r hr
  refine ⟨hlen, ⟨List.getElem?_mem hget, hmin⟩, ⟨j, hj, hget, ?_⟩, hfm⟩
  intro j2 hj2 heq
  exact Nat.lt_irrefl _ (hlow j2 hj2 _ heq)

theorem route_record_invariant_witness :
    ∃ r ∈ (process_update spec_capacity (process_update spec_capacity initialize_router
        3232235776 24 2 5 1).1 3232235776 24 1 3 2).1,
      r.forwarding_nic = 1 ∧ r.forwarding_metric = 4 ∧
      r.neighbor_table = [4294967295, 4, 6, 4294967295] ∧
      r.forwarding_metric < spec_capacity.METRIC_UNREACHABLE :=
  ⟨⟨3232235776, 24, 1, 4, [4294967295, 4, 6, 4294967295]⟩, by decide, rfl, rfl, rfl,
    (route_record_invariant spec_capacity (by decide) _
      (Reachable.step _ 3232235776 24 1 3 2
        (Reachable.step _ 3232235776 24 2 5 1 Reachable.init (by decide) (by decide))
        (by decide) (by decide))
      ⟨3232235776, 24, 1, 4, [4294967295, 4, 6, 4294967295]⟩ (by decide)).2.2.2⟩

/-- C3, amended: on a reachable table, a `process_update` call with the interface in range
and a metric whose successor does not overflow prints an advertisement exactly when the best
route of the prefix differs before and after the call, creation and deletion of the record
counting as a change; the advertisement printed carries the new best route of the prefix,
or `(-1, METRIC_UNREACHABLE)` when the record was deleted, and the update id. -/
theorem advertisement_iff_change (cap : capacity) (hcap : cap.METRIC_UNREACHABLE < 2 ^ 32)
    (s : router_state) (hs : Reachable cap s) (ip netsize : Nat) (nic : Int)
    (hnic : nic_in_range cap nic) (metric update_id : Nat) (hmetric : metric + 1 < 2 ^ 32) :
    ((process_update cap s ip netsize nic metric update_id).2 ≠ [] ↔
      best_route (process_update cap s ip netsize nic metric update_id).1 ip netsize
        ≠ best_route s ip netsize) ∧
    ((process_update cap s ip netsize nic metric update_id).2 = [] ∨
      (process_update cap s ip netsize nic metric update_id).2 =
        [⟨ip, netsize,
          ((best_route (process_update cap s ip netsize nic metric update_id).1 ip
            netsize).getD (-1, cap.METRIC_UNREACHABLE)).1,
          ((best_route (process_update cap s ip netsize nic metric update_id).1 ip
            netsize).getD (-1, cap.METRIC_UNREACHABLE)).2, update_id⟩]) := by
  obtain ⟨hrec, hnd⟩ := reachable_inv cap hcap s hs
  cases hf : find s ip netsize with
  | none =>
    have hb : best_route s ip netsize = none := by simp [best_route, find_node, hf]
    rw [process_update_none cap s ip netsize nic metric update_id hf, hb]
    split_ifs with hc
    · have hn := find_node_add_new_loop (init_node cap ip netsize nic metric) ip netsize s
        rfl rfl hf
      simp only [best_route, add_new, hn]
      simp [route_of, init_node]
    · simp [hb]
  | some p =>
    obtain ⟨curr, hp, hkip, hkns⟩ := find_some_spec s ip netsize p hf
    have hb : best_route s ip netsize = some (route_of curr) := by
      simp [best_route, find_node_of_find s ip netsize p curr hf hp]
    have hadv := process_update_found_advert cap curr (hrec curr (List.getElem?_mem hp))
      ip netsize nic hnic metric update_id hmetric
    rw [process_update_some cap s ip netsize nic metric update_id p curr hf hp, hb]
    cases hres : process_update_found cap curr ip netsize nic metric update_id with
    | mk res out =>
      rw [hres] at hadv
      cases res with
      | none =>
        have hn : best_route (remove_node s p) ip netsize = none := by
          simp [best_route, find_node, find_remove_node s ip netsize p hnd hf]
        simpa [hn] using hadv
      | some c2 =>
        have hkey := process_update_found_key cap curr ip netsize nic metric update_id c2
          (by rw [hres])
        have hn : best_route (s.set p c2) ip netsize = some (route_of c2) := by
          simp [best_route, find_node_set s p curr c2 ip netsize hf hp hkey.1 hkey.2]
        simpa [hn] using hadv

theorem advertisement_iff_change_witness :
    (process_update spec_capacity initialize_router 3232235776 24 0 1 7).2 ≠ [] ↔
      best_route (process_update spec_capacity initialize_router 3232235776 24 0 1 7).1
        3232235776 24 ≠ best_route initialize_router 3232235776 24 :=
  (advertisement_iff_change spec_capacity (by decide) initialize_router Reachable.init
    3232235776 24 0 (by decide) 1 7 (by decide)).1

/-- C3 as stated fails: an update whose metric is the largest `unsigned int` wraps to cost 0;
repeated from the same interface on the record it created, it prints an advertisement
although the best route of the prefix is the same before and after the call. -/
theorem advertisement_without_change :
    Reachable spec_capacity
      (process_update spec_capacity initialize_router 3232235776 24 0 4294967295 1).1 ∧
    nic_in_range spec_capacity 0 ∧
    (process_update spec_capacity
      (process_update spec_capacity initialize_router 3232235776 24 0 4294967295 1).1
      3232235776 24 0 4294967295 2).2 = [⟨3232235776, 24, 0, 0, 2⟩] ∧
    best_route (process_update spec_capacity
      (process_update spec_capacity initialize_router 3232235776 24 0 4294967295 1).1
      3232235776 24 0 4294967295 2).1 3232235776 24 =
    best_route (process_update spec_capacity initialize_router 3232235776 24 0
      4294967295 1).1 3232235776 24 :=
  ⟨Reachable.step _ 3232235776 24 0 4294967295 1 Reachable.init (by decide) (by decide),
    by decide, by decide, by decide⟩

/-- The outcome of `update_min_nic` is determined by the least entry and its lowest index. -/
theorem update_min_nic_unique (cap : capacity) (r : subnet_node) (i v : Nat)
    (hget : r.neighbor_table[i]? = some v) (hv : v < cap.METRIC_UNREACHABLE)
    (hmin : ∀ x ∈ r.neighbor_table, v ≤ x)
    (hlow : ∀ j2, j2 < i → ∀ x, r.neighbor_table[j2]? = some x → v < x) :
    (update_min_nic cap r).1.forwarding_nic = (i : Int) ∧
    (update_min_nic cap r).1.forwarding_metric = v := by
  obtain ⟨_, _, _, hnn, h⟩ := update_min_nic_spec cap r
  have hmem := List.getElem?_mem hget
  rcases h with ⟨_, _, hall⟩ | ⟨_, hmin2, j, hj, hget2, hlow2⟩
  · have := hall v hmem
    omega
  · have h1 := hmin2 v hmem
    have h2 := hmin _ (List.getElem?_mem hget2)
    have hfm : (update_min_nic cap r).1.forwarding_metric = v := by omega
    refine ⟨?_, hfm⟩
    rw [hnn, hj]
    rw [hfm] at hget2 hlow2
    rcases Nat.lt_trichotomy j i with hlt | heq | hgt
    · exact absurd (hlow j hlt v hget2) (Nat.lt_irrefl v)
    · rw [heq]
    · exact absurd (hlow2 i hgt v hget) (Nat.lt_irrefl v)

/-- After the first update for an absent prefix created its record, a second update for the
prefix acts on that record. -/
theorem second_update (cap : capacity) (s : router_state) (ip netsize : Nat)
    (nic1 : Int) (m1 id1 : Nat) (nic2 : Int) (m2 id2 : Nat) (c2 : subnet_node)
    (habs : find s ip netsize = none) (h1 : uint_add m1 1 < cap.METRIC_UNREACHABLE)
    (h2 : (process_update_found cap (init_node cap ip netsize nic1 m1) ip netsize nic2 m2
      id2).1 = some c2) :
    find_node (process_update cap (process_update cap s ip netsize nic1 m1 id1).1
      ip netsize nic2 m2 id2).1 ip netsize = some c2 := by
  rw [process_update_none cap s ip netsize nic1 m1 id1 habs, if_pos h1]
  simp only [add_new]
  obtain ⟨q, hq, hget⟩ := find_node_some _ ip netsize _
    (find_node_add_new_loop (init_node cap ip netsize nic1 m1) ip netsize s rfl rfl habs)
  rw [process_update_some cap _ ip netsize nic2 m2 id2 q _ hq hget]
  have hkey := process_update_found_key cap _ ip netsize nic2 m2 id2 c2 h2
  cases hres : process_update_found cap (init_node cap ip netsize nic1 m1) ip netsize nic2 m2
      id2 with
  | mk res out =>
    rw [hres] at h2
    simp only at h2
    subst h2
    exact find_node_set _ q _ c2 ip netsize hq hget hkey.1 hkey.2

/-- C4: for a prefix absent from the table, two distinct interfaces `i`, `j` in range and
metrics `mi < mj` whose costs are below `METRIC_UNREACHABLE`, processing the two updates in
either order leaves a record for the prefix with `forwarding_nic = i` and
`forwarding_metric = mi + 1`. -/
theorem convergence_order_independent (cap : capacity)
    (hcap : cap.METRIC_UNREACHABLE < 2 ^ 32) (s : router_state) (ip netsize : Nat)
    (habs : find s ip netsize = none) (i j : Nat) (hi : i < cap.NUM_NICS)
    (_hj : j < cap.NUM_NICS) (hij : i ≠ j) (mi mj : Nat) (hlt : mi < mj)
    (hmi : mi + 1 < cap.METRIC_UNREACHABLE) (hmj : mj + 1 < cap.METRIC_UNREACHABLE)
    (id1 id2 : Nat) :
    (∃ r, find_node (process_update cap (process_update cap s ip netsize i mi id1).1
        ip netsize j mj id2).1 ip netsize = some r ∧
      r.forwarding_nic = (i : Int) ∧ r.forwarding_metric = mi + 1) ∧
    (∃ r, find_node (process_update cap (process_update cap s ip netsize j mj id1).1
        ip netsize i mi id2).1 ip netsize = some r ∧
      r.forwarding_nic = (i : Int) ∧ r.forwarding_metric = mi + 1) := by
  have ci : uint_add mi 1 = mi + 1 := uint_add_one mi (by omega)
  have cj : uint_add mj 1 = mj + 1 := uint_add_one mj (by omega)
  have hne : ¬ ((j : Int) = (i : Int)) := by intro h; exact hij (by exact_mod_cast h.symm)
  have hne2 : ¬ ((i : Int) = (j : Int)) := by intro h; exact hij (by exact_mod_cast h)
  constructor
  · refine ⟨{ init_node cap ip netsize i mi with
        neighbor_table := (init_node cap ip netsize i mi).neighbor_table.set j (mj + 1) },
      second_update cap s ip netsize i mi id1 j mj id2 _ habs (by omega) ?_, ?_, ?_⟩
    · simp only [process_update_found, init_node, ci, cj, table_store_nat]
      rw [if_neg (by omega), if_neg (by simp [hne]), if_neg (by omega),
        if_neg (by omega)]
    · rfl
    · simp [init_node, ci]
  · refine ⟨(update_min_nic cap { init_node cap ip netsize j mj with
        neighbor_table := (init_node cap ip netsize j mj).neighbor_table.set i (mi + 1) }).1,
      second_update cap s ip netsize j mj id1 i mi id2 _ habs (by omega) ?_, ?_⟩
    · simp only [process_update_found, init_node, ci, cj, table_store_nat]
      rw [if_neg (by omega), if_neg (by simp [hne2]), if_pos (by omega)]
    · apply update_min_nic_unique
      · simp only [init_node, table_store_nat]
        rw [List.getElem?_set_self (by simpa using hi)]
      · exact hmi
      · intro x hx
        simp only [init_node, table_store_nat] at hx
        rcases List.mem_or_eq_of_mem_set hx with h | h
        · rcases List.mem_or_eq_of_mem_set h with h | h
          · simp only [List.mem_replicate] at h
            omega
          · omega
        · omega
      · intro j2 hj2 x hx
        simp only [init_node, table_store_nat] at hx
        rw [List.getElem?_set_ne (by omega)] at hx
        have hmem := List.getElem?_mem hx
        rcases List.mem_or_eq_of_mem_set hmem with h | h
        · simp only [List.mem_replicate] at h
          omega
        · omega

theorem convergence_order_independent_witness :
    (∃ r, find_node (process_update spec_capacity (process_update spec_capacity
        initialize_router 3232235776 24 1 3 1).1 3232235776 24 2 5 2).1 3232235776 24
        = some r ∧ r.forwarding_nic = 1 ∧ r.forwarding_metric = 4) ∧
    (∃ r, find_node (process_update spec_capacity (process_update spec_capacity
        initialize_router 3232235776 24 2 5 1).1 3232235776 24 1 3 2).1 3232235776 24
        = some r ∧ r.forwarding_nic = 1 ∧ r.forwarding_metric = 4) :=
  convergence_order_independent spec_capacity (by decide) initialize_router 3232235776 24
    (by decide) 1 2 (by decide) (by decide) (by decide) 3 5 (by decide) (by decide)
    (by decide) 1 2

/-- C5: for a prefix absent from the table, two interfaces `i < j` in range and a metric `m`
whose cost is below `METRIC_UNREACHABLE`, processing the update from `i` and the update from
`j` with that metric in either order leaves a record for the prefix with
`forwarding_nic = i` and `forwarding_metric = m + 1`. -/
theorem tie_break_lowest_interface (cap : capacity)
    (hcap : cap.METRIC_UNREACHABLE < 2 ^ 32) (s : router_state) (ip netsize : Nat)
    (habs : find s ip netsize = none) (i j : Nat) (_hi : i < cap.NUM_NICS)
    (_hj : j < cap.NUM_NICS) (hij : i < j) (m : Nat)
    (hm : m + 1 < cap.METRIC_UNREACHABLE) (id1 id2 : Nat) :
    (∃ r, find_node (process_update cap (process_update cap s ip netsize i m id1).1
        ip netsize j m id2).1 ip netsize = some r ∧
      r.forwarding_nic = (i : Int) ∧ r.forwarding_metric = m + 1) ∧
    (∃ r, find_node (process_update cap (process_update cap s ip netsize j m id1).1
        ip netsize i m id2).1 ip netsize = some r ∧
      r.forwarding_nic = (i : Int) ∧ r.forwarding_metric = m + 1) := by
  have cm : uint_add m 1 = m + 1 := uint_add_one m (by omega)
  have hne : ¬ ((j : Int) = (i : Int)) := by intro h; omega
  have hne2 : ¬ ((i : Int) = (j : Int)) := by intro h; omega
  constructor
  · refine ⟨{ init_node cap ip netsize i m with
        neighbor_table := (init_node cap ip netsize i m).neighbor_table.set j (m + 1) },
      second_update cap s ip netsize i m id1 j m id2 _ habs (by omega) ?_, ?_, ?_⟩
    · simp only [process_update_found, init_node, cm, table_store_nat]
      rw [if_neg (by omega), if_neg (by simp [hne]), if_neg (by omega),
        if_neg (by omega)]
    · rfl
    · simp [init_node, cm]
  · refine ⟨{ init_node cap ip netsize j m with
        neighbor_table := (init_node cap ip netsize j m).neighbor_table.set i (m + 1),
        forwarding_nic := (i : Int) },
      second_update cap s ip netsize j m id1 i m id2 _ habs (by omega) ?_, ?_, ?_⟩
    · simp only [process_update_found, init_node, cm, table_store_nat]
      rw [if_neg (by omega), if_neg (by simp [hne2]), if_neg (by omega),
        if_pos ⟨trivial, by exact_mod_cast hij⟩]
    · rfl
    · simp [init_node, cm]

theorem tie_break_lowest_interface_witness :
    (∃ r, find_node (process_update spec_capacity (process_update spec_capacity
        initialize_router 3232235776 24 1 3 1).1 3232235776 24 2 3 2).1 3232235776 24
        = some r ∧ r.forwarding_nic = 1 ∧ r.forwarding_metric = 4) ∧
    (∃ r, find_node (process_update spec_capacity (process_update spec_capacity
        initialize_router 3232235776 24 2 3 1).1 3232235776 24 1 3 2).1 3232235776 24
        = some r ∧ r.forwarding_nic = 1 ∧ r.forwarding_metric = 4) :=
  tie_break_lowest_interface spec_capacity (by decide) initialize_router 3232235776 24
    (by decide) 1 2 (by decide) (by decide) (by decide) 3 (by decide) 1 2

/-- C7: on a table with no record for the prefix, an update with the interface in range and
a cost `metric + 1` below `METRIC_UNREACHABLE` prints exactly one advertisement
`(ip, netsize, nic, metric + 1, update_id)` and creates a record with `forwarding_nic = nic`,
`forwarding_metric = metric + 1` and a neighbour table that holds `metric + 1` at `nic` and
`METRIC_UNREACHABLE` at every other interface. -/
theorem first_learned_route (cap : capacity) (hcap : cap.METRIC_UNREACHABLE < 2 ^ 32)
    (s : router_state) (ip netsize : Nat) (habs : find s ip netsize = none) (nic : Int)
    (hnic : nic_in_range cap nic) (metric update_id : Nat)
    (hm : metric + 1 < cap.METRIC_UNREACHABLE) :
    (process_update cap s ip netsize nic metric update_id).2
      = [⟨ip, netsize, nic, metric + 1, update_id⟩] ∧
    ∃ r, find_node (process_update cap s ip netsize nic metric update_id).1 ip netsize
        = some r ∧
      r.subnet_ip = ip ∧ r.netsize = netsize ∧
      r.forwarding_nic = nic ∧ r.forwarding_metric = metric + 1 ∧
      r.neighbor_table.length = cap.NUM_NICS ∧
      ∀ i, i < cap.NUM_NICS → r.neighbor_table[i]? =
        some (if (i : Int) = nic then metric + 1 else cap.METRIC_UNREACHABLE) := by
  have cm : uint_add metric 1 = metric + 1 := uint_add_one metric (by omega)
  obtain ⟨k, rfl, hk⟩ := nic_in_range_nat cap nic hnic
  rw [process_update_none cap s ip netsize k metric update_id habs, if_pos (by omega)]
  refine ⟨by simp [cm], init_node cap ip netsize k metric,
    find_node_add_new_loop _ ip netsize s rfl rfl habs, rfl, rfl, rfl, cm, ?_, ?_⟩
  · simp [init_node, table_store_nat]
  · intro i hi
    simp only [init_node, table_store_nat, cm, List.getElem?_set]
    by_cases hik : k = i
    · subst hik
      simp [hk]
    · have : ¬ ((i : Int) = (k : Int)) := by intro h; omega
      simp [hik, this, hi]

theorem first_learned_route_witness :
    printed (process_update spec_capacity initialize_router 3232235776 24 0 1 7).2
      = "A 192.168.1.0/24 2 7\nT 192.168.1.0/24 0\n" := by
  rw [(first_learned_route spec_capacity (by decide) initialize_router 3232235776 24
    (by decide) 0 (by decide) 1 7 (by decide)).1]
  decide

/-- C8 as stated fails: an update from the current `forwarding_nic` whose cost equals the
current `forwarding_metric` prints no advertisement. -/
theorem regression_equal_cost_silent :
    find_node (process_update spec_capacity initialize_router 3232235776 24 0 1 7).1
        3232235776 24
      = some ⟨3232235776, 24, 0, 2, [2, 4294967295, 4294967295, 4294967295]⟩ ∧
    uint_add 1 1 = 2 ∧
    process_update spec_capacity
        (process_update spec_capacity initialize_router 3232235776 24 0 1 7).1
        3232235776 24 0 1 8
      = ((process_update spec_capacity initialize_router 3232235776 24 0 1 7).1, []) := by
  decide

/-- C8, amended: on an existing record, an update from the record's current `forwarding_nic`
whose cost `metric + 1` is finite and strictly greater than the record's current
`forwarding_metric` sets `neighbor_table[nic]` to that cost, recomputes the best route over
all neighbours (least entry, lowest index holding it) and prints one advertisement that
carries the resulting `forwarding_nic` and `forwarding_metric`. -/
theorem best_neighbour_regression (cap : capacity) (hcap : cap.METRIC_UNREACHABLE < 2 ^ 32)
    (s : router_state) (ip netsize : Nat) (curr : subnet_node)
    (hfind : find_node s ip netsize = some curr)
    (hlen : curr.neighbor_table.length = cap.NUM_NICS) (nic : Int)
    (hnic : nic_in_range cap nic) (hbest : nic = curr.forwarding_nic)
    (metric update_id : Nat) (hfin : metric + 1 < cap.METRIC_UNREACHABLE)
    (hworse : curr.forwarding_metric < metric + 1) :
    ∃ r, find_node (process_update cap s ip netsize nic metric update_id).1 ip netsize
        = some r ∧
      r.neighbor_table = curr.neighbor_table.set nic.toNat (metric + 1) ∧
      (r.forwarding_metric ∈ r.neighbor_table ∧
        ∀ x ∈ r.neighbor_table, r.forwarding_metric ≤ x) ∧
      (∃ j : Nat, r.forwarding_nic = (j : Int) ∧
        r.neighbor_table[j]? = some r.forwarding_metric ∧
        ∀ j2, j2 < j → r.neighbor_table[j2]? ≠ some r.forwarding_metric) ∧
      (process_update cap s ip netsize nic metric update_id).2
        = [⟨ip, netsize, r.forwarding_nic, r.forwarding_metric, update_id⟩] := by
  have cm : uint_add metric 1 = metric + 1 := uint_add_one metric (by omega)
  obtain ⟨k, rfl, hk⟩ := nic_in_range_nat cap nic hnic
  obtain ⟨p, hf, hp⟩ := find_node_some s ip netsize curr hfind
  have hfound : process_update_found cap curr ip netsize k metric update_id
      = (some (update_min_nic cap { curr with
            neighbor_table := curr.neighbor_table.set k (metric + 1) }).1,
          [⟨ip, netsize,
            (update_min_nic cap { curr with
              neighbor_table := curr.neighbor_table.set k (metric + 1) }).1.forwarding_nic,
            (update_min_nic cap { curr with
              neighbor_table := curr.neighbor_table.set k (metric + 1) }).1.forwarding_metric,
            update_id⟩]) := by
    simp only [process_update_found, cm, table_store_nat]
    rw [if_neg (by omega), if_pos ⟨hbest, by omega⟩]
  rw [process_update_some cap s ip netsize k metric update_id p curr hf hp, hfound]
  simp only [Int.toNat_ofNat]
  set r1 : subnet_node :=
    { curr with neighbor_table := curr.neighbor_table.set k (metric + 1) } with hr1
  have hmem : metric + 1 ∈ r1.neighbor_table :=
    List.mem_set _ _ (by omega) _
  obtain ⟨⟨_, _, hmin, j, hj, hget, hlow⟩, _⟩ := record_inv_update_min_nic cap r1
    (by simp [hr1, hlen]) ⟨metric + 1, hmem, hfin⟩
  refine ⟨(update_min_nic cap r1).1, find_node_set s p curr _ ip netsize hf hp rfl rfl, rfl,
    ⟨List.getElem?_mem hget, hmin⟩, ⟨j, hj, hget, ?_⟩, rfl⟩
  intro j2 hj2 heq
  exact Nat.lt_irrefl _ (hlow j2 hj2 _ heq)

theorem best_neighbour_regression_witness :
    (process_update spec_capacity
        [⟨3232235776, 24, 0, 2, [2, 4, 4294967295, 4294967295]⟩] 3232235776 24 0 5 9).2
      = [⟨3232235776, 24, 1, 4, 9⟩] := by
  obtain ⟨r, hr, _, _, _, hout⟩ := best_neighbour_regression spec_capacity (by decide)
    [⟨3232235776, 24, 0, 2, [2, 4, 4294967295, 4294967295]⟩] 3232235776 24
    ⟨3232235776, 24, 0, 2, [2, 4, 4294967295, 4294967295]⟩ (by decide) (by decide) 0
    (by decide) (by decide) 5 9 (by decide) (by decide)
  rw [hout]
  have : r = ⟨3232235776, 24, 1, 4, [6, 4, 4294967295, 4294967295]⟩ := by
    have h2 : find_node (process_update spec_capacity
        [⟨3232235776, 24, 0, 2, [2, 4, 4294967295, 4294967295]⟩] 3232235776 24 0 5 9).1
        3232235776 24 = some ⟨3232235776, 24, 1, 4, [6, 4, 4294967295, 4294967295]⟩ := by
      decide
    rw [h2] at hr
    exact (Option.some.inj hr).symm
  rw [this]

/-- C9 as stated fails: a metric equal to the largest `unsigned int` wraps to cost 0; on an
empty table the call creates a record whose neighbour entry and `forwarding_metric` are 0
and prints an advertisement with metric 0. -/
theorem metric_overflow_wraps :
    uint_add 4294967295 1 = 0 ∧
    process_update spec_capacity initialize_router 3232235776 24 0 4294967295 1
      = ([⟨3232235776, 24, 0, 0, [0, 4294967295, 4294967295, 4294967295]⟩],
          [⟨3232235776, 24, 0, 0, 1⟩]) := by
  decide

/-- An update with an unreachable cost on a record that satisfies the invariant either
removes the record and prints the withdrawal, or keeps the record with the entry of the
interface set to `METRIC_UNREACHABLE` and prints no withdrawal. -/
theorem process_update_found_unreachable (cap : capacity) (curr : subnet_node)
    (ip netsize k metric update_id : Nat)
    (hun : cap.METRIC_UNREACHABLE ≤ uint_add metric 1) :
    ((process_update_found cap curr ip netsize k metric update_id).1 = none ∧
      (process_update_found cap curr ip netsize k metric update_id).2
        = [⟨ip, netsize, -1, cap.METRIC_UNREACHABLE, update_id⟩]) ∨
    (∃ c2, (process_update_found cap curr ip netsize k metric update_id).1 = some c2 ∧
      c2.neighbor_table = curr.neighbor_table.set k cap.METRIC_UNREACHABLE ∧
      ∀ a ∈ (process_update_found cap curr ip netsize k metric update_id).2, a.nic ≠ -1) := by
  simp only [process_update_found, table_store_nat]
  rw [if_pos (by omega)]
  split_ifs with h1 h2
  · left; exact ⟨rfl, rfl⟩
  · right
    refine ⟨_, rfl, rfl, ?_⟩
    intro a ha
    simp only [List.mem_singleton] at ha
    subst ha
    simp only [update_min_nic] at h2 ⊢
    omega
  · right
    exact ⟨_, rfl, rfl, by simp⟩

theorem process_updates_absent (cap : capacity) (ip netsize : Nat)
    (us : List (Int × Nat × Nat))
    (hus : ∀ u ∈ us, cap.METRIC_UNREACHABLE ≤ uint_add u.2.1 1) (s : router_state)
    (habs : find s ip netsize = none) :
    process_updates cap s ip netsize us = (s, []) := by
  induction us with
  | nil => rfl
  | cons u rest ih =>
    have hu := hus u (List.mem_cons_self _ _)
    have h1 : process_update cap s ip netsize u.1 u.2.1 u.2.2 = (s, []) := by
      rw [process_update_none cap s ip netsize u.1 u.2.1 u.2.2 habs, if_neg (by omega)]
    simp only [process_updates, h1, ih (fun v hv => hus v (List.mem_cons_of_mem _ hv)),
      List.append_nil]

theorem process_updates_cascade (cap : capacity) (hcap : cap.METRIC_UNREACHABLE < 2 ^ 32)
    (ip netsize : Nat) (us : List (Int × Nat × Nat)) :
    ∀ (s : router_state) (curr : subnet_node), state_inv cap s →
      find_node s ip netsize = some curr →
      (∀ u ∈ us, nic_in_range cap u.1 ∧ u.2.1 < 2 ^ 32 ∧
        cap.METRIC_UNREACHABLE ≤ uint_add u.2.1 1) →
      (∀ (i x : Nat), curr.neighbor_table[i]? = some x → x < cap.METRIC_UNREACHABLE →
        ∃ u ∈ us, u.1 = (i : Int)) →
      find (process_updates cap s ip netsize us).1 ip netsize = none ∧
      ((process_updates cap s ip netsize us).2.filter (is_withdrawal cap)).length = 1 := by
  induction us with
  | nil =>
    intro s curr hs hfind _ hcover
    obtain ⟨p, _, hp⟩ := find_node_some s ip netsize curr hfind
    obtain ⟨_, hfm, _, j, _, hget, _⟩ := hs.1 curr (List.getElem?_mem hp)
    obtain ⟨u, hu, _⟩ := hcover j _ hget hfm
    cases hu
  | cons u rest ih =>
    intro s curr hs hfind hus hcover
    obtain ⟨hnic, hmetric, hun⟩ := hus u (List.mem_cons_self _ _)
    have hrest : ∀ v ∈ rest, nic_in_range cap v.1 ∧ v.2.1 < 2 ^ 32 ∧
        cap.METRIC_UNREACHABLE ≤ uint_add v.2.1 1 :=
      fun v hv => hus v (List.mem_cons_of_mem _ hv)
    obtain ⟨p, hf, hp⟩ := find_node_some s ip netsize curr hfind
    have hinv1 := process_update_inv cap hcap s hs ip netsize u.1 hnic u.2.1 u.2.2 hmetric
    obtain ⟨k, hk, hklt⟩ := nic_in_range_nat cap u.1 hnic
    have hstep := process_update_some cap s ip netsize u.1 u.2.1 u.2.2 p curr hf hp
    rw [hk] at hstep
    simp only [process_updates]
    rw [hk] at hinv1 ⊢
    rcases process_update_found_unreachable cap curr ip netsize k u.2.1 u.2.2 hun with
      ⟨hnone, hout⟩ | ⟨c2, hsome, htbl, hnw⟩
    · have hst : process_update cap s ip netsize k u.2.1 u.2.2
          = (remove_node s p, [⟨ip, netsize, -1, cap.METRIC_UNREACHABLE, u.2.2⟩]) := by
        rw [hstep]
        cases hres : process_update_found cap curr ip netsize k u.2.1 u.2.2 with
        | mk res out =>
          rw [hres] at hnone hout
          simp only at hnone hout
          subst hnone hout
          rfl
      have habs := find_remove_node s ip netsize p hs.2 hf
      rw [hst, process_updates_absent cap ip netsize rest (fun v hv => (hrest v hv).2.2)
        _ habs]
      exact ⟨habs, by simp [is_withdrawal]⟩
    · have hkey := process_update_found_key cap curr ip netsize k u.2.1 u.2.2 c2 hsome
      have hst : process_update cap s ip netsize k u.2.1 u.2.2
          = (s.set p c2, (process_update_found cap curr ip netsize k u.2.1 u.2.2).2) := by
        rw [hstep]
        cases hres : process_update_found cap curr ip netsize k u.2.1 u.2.2 with
        | mk res out =>
          rw [hres] at hsome
          simp only at hsome
          subst hsome
          rfl
      rw [hst] at hinv1 ⊢
      have hfind2 := find_node_set s p curr c2 ip netsize hf hp hkey.1 hkey.2
      have hcover2 : ∀ (i x : Nat), c2.neighbor_table[i]? = some x →
          x < cap.METRIC_UNREACHABLE → ∃ v ∈ rest, v.1 = (i : Int) := by
        intro i x hx hxlt
        rw [htbl, List.getElem?_set] at hx
        split_ifs at hx with hki hlt
        · simp only [Option.some.injEq] at hx
          omega
        · obtain ⟨v, hv, hvi⟩ := hcover i x hx hxlt
          rcases List.mem_cons.1 hv with rfl | hv
          · rw [hk] at hvi
            exact absurd (by exact_mod_cast hvi) hki
          · exact ⟨v, hv, hvi⟩
      obtain ⟨h1, h2⟩ := ih (s.set p c2) c2 hinv1 hfind2 hrest hcover2
      refine ⟨h1, ?_⟩
      simp only at h2 ⊢
      rw [List.filter_append, List.length_append, h2]
      have : List.filter (is_withdrawal cap)
          (process_update_found cap curr ip netsize k u.2.1 u.2.2).2 = [] := by
        rw [List.filter_eq_nil_iff]
        intro a ha
        simp [is_withdrawal, hnw a ha]
      rw [this]
      rfl

/-- C6 as stated fails: the metric `METRIC_UNREACHABLE` itself, here the largest
`unsigned int`, is an unreachable metric, but its cost `metric + 1` wraps to 0. On the table
with one record whose only finite entry is that of interface 2, the update from interface 2
with that metric leaves the record in the table with cost 0 and prints an advertisement that
is not a withdrawal. -/
theorem withdrawal_cascade_overflow :
    (4294967295 : Nat) = spec_capacity.METRIC_UNREACHABLE ∧
    (process_update spec_capacity initialize_router 3232235776 24 2 5 1).1
      = [⟨3232235776, 24, 2, 6, [4294967295, 4294967295, 6, 4294967295]⟩] ∧
    process_updates spec_capacity
        (process_update spec_capacity initialize_router 3232235776 24 2 5 1).1
        3232235776 24 [(2, 4294967295, 10)]
      = ([⟨3232235776, 24, 2, 0, [4294967295, 4294967295, 0, 4294967295]⟩],
          [⟨3232235776, 24, 2, 0, 10⟩]) ∧
    find (process_updates spec_capacity
        (process_update spec_capacity initialize_router 3232235776 24 2 5 1).1
        3232235776 24 [(2, 4294967295, 10)]).1 3232235776 24 = some 0 ∧
    ((process_updates spec_capacity
        (process_update spec_capacity initialize_router 3232235776 24 2 5 1).1
        3232235776 24 [(2, 4294967295, 10)]).2.filter (is_withdrawal spec_capacity)).length
      = 0 := by
  decide

/-- C6, amended: on a reachable table with a record for the prefix, after a sequence of
updates for that prefix, each with the interface in range and a metric whose cost
`metric + 1`, computed in `unsigned int`, is at least `METRIC_UNREACHABLE`, that covers
every interface whose neighbour entry is finite, `find` returns no record for the prefix and
exactly one of the advertisements printed is a withdrawal. -/
theorem withdrawal_cascade (cap : capacity) (hcap : cap.METRIC_UNREACHABLE < 2 ^ 32)
    (s : router_state) (hs : Reachable cap s) (ip netsize : Nat) (curr : subnet_node)
    (hfind : find_node s ip netsize = some curr) (us : List (Int × Nat × Nat))
    (hus : ∀ u ∈ us, nic_in_range cap u.1 ∧ u.2.1 < 2 ^ 32 ∧
      cap.METRIC_UNREACHABLE ≤ uint_add u.2.1 1)
    (hcover : ∀ (i x : Nat), curr.neighbor_table[i]? = some x →
      x < cap.METRIC_UNREACHABLE → ∃ u ∈ us, u.1 = (i : Int)) :
    find (process_updates cap s ip netsize us).1 ip netsize = none ∧
    ((process_updates cap s ip netsize us).2.filter (is_withdrawal cap)).length = 1 :=
  process_updates_cascade cap hcap ip netsize us s curr (reachable_inv cap hcap s hs) hfind
    hus hcover

theorem withdrawal_cascade_witness :
    find (process_updates spec_capacity
        [⟨3232235776, 24, 1, 4, [4294967295, 4, 6, 4294967295]⟩] 3232235776 24
        [(1, 4294967294, 10), (2, 4294967294, 11)]).1 3232235776 24 = none ∧
    ((process_updates spec_capacity
        [⟨3232235776, 24, 1, 4, [4294967295, 4, 6, 4294967295]⟩] 3232235776 24
        [(1, 4294967294, 10), (2, 4294967294, 11)]).2.filter
          (is_withdrawal spec_capacity)).length = 1 :=
  withdrawal_cascade spec_capacity (by decide)
    [⟨3232235776, 24, 1, 4, [4294967295, 4, 6, 4294967295]⟩]
    (Reachable.step _ 3232235776 24 1 3 2
      (Reachable.step _ 3232235776 24 2 5 1 Reachable.init (by decide) (by decide))
      (by decide) (by decide))
    3232235776 24 ⟨3232235776, 24, 1, 4, [4294967295, 4, 6, 4294967295]⟩ (by decide)
    [(1, 4294967294, 10), (2, 4294967294, 11)] (by decide)
    (by
      intro i x hx hlt
      have hi : i < 4 := by
        obtain ⟨h, _⟩ := List.getElem?_eq_some_iff.1 hx
        simpa using h
      interval_cases i
      · simp only [List.getElem?_cons_zero, Option.some.injEq] at hx
        subst hx
        exact absurd hlt (by decide)
      · exact ⟨(1, 4294967294, 10), by simp, rfl⟩
      · exact ⟨(2, 4294967294, 11), by simp, rfl⟩
      · simp only [List.getElem?_cons_succ, List.getElem?_cons_zero,
          Option.some.injEq] at hx
        subst hx
        exact absurd hlt (by decide))

/-- C19: `add_new` places the new record immediately before the first record `r` of the list
with `r.subnet_ip ≤ ip` and `r.netsize < netsize`, or at the end when there is none; the
records already in the list keep their order and contents. -/
theorem add_new_position (cap : capacity) (s : router_state) (ip netsize : Nat) (nic : Int)
    (metric : Nat) :
    ∃ pre post, s = pre ++ post ∧
      add_new cap s ip netsize nic metric
        = pre ++ init_node cap ip netsize nic metric :: post ∧
      (∀ r ∈ pre, ¬ (r.subnet_ip ≤ ip ∧ r.netsize < netsize)) ∧
      (∀ r, post.head? = some r → r.subnet_ip ≤ ip ∧ r.netsize < netsize) := by
  simp only [add_new]
  induction s with
  | nil => exact ⟨[], [], rfl, rfl, by simp, by simp⟩
  | cons c rest ih =>
    simp only [add_new_loop]
    by_cases hc : c.subnet_ip ≤ ip ∧ c.netsize < netsize
    · simp only [if_pos hc]
      refine ⟨[], c :: rest, rfl, rfl, by simp, ?_⟩
      intro r hr
      simp only [List.head?_cons, Option.some.injEq] at hr
      subst hr
      exact hc
    · simp only [if_neg hc]
      obtain ⟨pre, post, h1, h2, h3, h4⟩ := ih
      refine ⟨c :: pre, post, by rw [h1]; rfl, by rw [h2]; rfl, ?_, h4⟩
      intro r hr
      rcases List.mem_cons.1 hr with rfl | hr
      · exact hc
      · exact h3 r hr

theorem find_node_eq_find (s : router_state) (ip netsize : Nat) :
    find_node s ip netsize
      = s.find? (fun c => decide (c.subnet_ip = ip ∧ c.netsize = netsize)) := by
  induction s with
  | nil => rfl
  | cons c rest ih =>
    unfold find_node at ih ⊢
    simp only [find, List.find?_cons]
    by_cases hc : c.subnet_ip = ip ∧ c.netsize = netsize
    · simp [hc]
    · simp only [if_neg hc, hc, decide_False]
      rw [← ih]
      cases find rest ip netsize <;> simp

theorem find_add_new_loop_other (p : subnet_node → Bool) (new : subnet_node)
    (ip netsize : Nat) (hnew : p new = false) (s : router_state) :
    (add_new_loop new ip netsize s).find? p = s.find? p := by
  induction s with
  | nil => simp [add_new_loop, hnew]
  | cons c rest ih =>
    simp only [add_new_loop]
    split_ifs
    · simp [List.find?_cons, hnew]
    · simp only [List.find?_cons, ih]

theorem find_set_other (p : subnet_node → Bool) (c2 : subnet_node) (hc2 : p c2 = false) :
    ∀ (s : router_state) (i : Nat) (c : subnet_node), s[i]? = some c → p c = false →
      (s.set i c2).find? p = s.find? p := by
  intro s
  induction s with
  | nil => intro i c h _; simp at h
  | cons x rest ih =>
    intro i c h hc
    cases i with
    | zero =>
      simp only [List.getElem?_cons_zero, Option.some.injEq] at h
      subst h
      simp [List.find?_cons, hc, hc2]
    | succ i =>
      simp only [List.getElem?_cons_succ] at h
      simp only [List.set_cons_succ, List.find?_cons, ih i c h hc]

theorem find_remove_other (p : subnet_node → Bool) :
    ∀ (s : router_state) (i : Nat) (c : subnet_node), s[i]? = some c → p c = false →
      (remove_node s i).find? p = s.find? p := by
  intro s
  induction s with
  | nil => intro i c h _; simp at h
  | cons x rest ih =>
    intro i c h hc
    cases i with
    | zero =>
      simp only [List.getElem?_cons_zero, Option.some.injEq] at h
      subst h
      simp [remove_node, List.find?_cons, hc]
    | succ i =>
      simp only [List.getElem?_cons_succ] at h
      simp only [remove_node, List.find?_cons, ih i c h hc]

/-- A call of `process_update` for one prefix leaves the record `find` returns for any other
prefix as it is. -/
theorem process_update_other (cap : capacity) (s : router_state) (ip netsize : Nat)
    (nic : Int) (metric update_id : Nat) (ip2 netsize2 : Nat)
    (hne : ¬ (ip = ip2 ∧ netsize = netsize2)) :
    find_node (process_update cap s ip netsize nic metric update_id).1 ip2 netsize2
      = find_node s ip2 netsize2 := by
  rw [find_node_eq_find, find_node_eq_find]
  cases hf : find s ip netsize with
  | none =>
    rw [process_update_none cap s ip netsize nic metric update_id hf]
    split_ifs
    · simp only [add_new]
      apply find_add_new_loop_other
      simp [init_node, hne]
    · rfl
  | some p =>
    obtain ⟨curr, hp, hkip, hkns⟩ := find_some_spec s ip netsize p hf
    have hcurr : decide (curr.subnet_ip = ip2 ∧ curr.netsize = netsize2) = false := by
      rw [hkip, hkns]
      simp [hne]
    rw [process_update_some cap s ip netsize nic metric update_id p curr hf hp]
    cases hres : process_update_found cap curr ip netsize nic metric update_id with
    | mk res out =>
      cases res with
      | none => exact find_remove_other _ s p curr hp hcurr
      | some c2 =>
        have hkey := process_update_found_key cap curr ip netsize nic metric update_id c2
          (by rw [hres])
        apply find_set_other _ c2 _ s p curr hp hcurr
        rw [hkey.1, hkey.2]
        exact hcurr

theorem process_update_found_table (cap : capacity) (curr : subnet_node) (ip netsize : Nat)
    (k metric update_id : Nat) (c2 : subnet_node)
    (h : (process_update_found cap curr ip netsize k metric update_id).1 = some c2) :
    c2.neighbor_table
      = curr.neighbor_table.set k (min (uint_add metric 1) cap.METRIC_UNREACHABLE) := by
  simp only [process_update_found, table_store_nat] at h
  by_cases hc : uint_add metric 1 ≥ cap.METRIC_UNREACHABLE
  · have hmin : min (uint_add metric 1) cap.METRIC_UNREACHABLE = cap.METRIC_UNREACHABLE :=
      Nat.min_eq_right hc
    rw [hmin]
    simp only [if_pos hc] at h
    split_ifs at h <;> simp only [Option.some.injEq, reduceCtorEq] at h <;> subst h <;> rfl
  · have hmin : min (uint_add metric 1) cap.METRIC_UNREACHABLE = uint_add metric 1 :=
      Nat.min_eq_left (by omega)
    rw [hmin]
    simp only [if_neg hc] at h
    split_ifs at h <;> simp only [Option.some.injEq, reduceCtorEq] at h <;> subst h <;> rfl

theorem process_update_found_removed (cap : capacity) (curr : subnet_node)
    (ip netsize : Nat) (k metric update_id : Nat)
    (h : (process_update_found cap curr ip netsize k metric update_id).1 = none) :
    cap.METRIC_UNREACHABLE ≤ uint_add metric 1 ∧
    ∀ x ∈ curr.neighbor_table.set k cap.METRIC_UNREACHABLE, cap.METRIC_UNREACHABLE ≤ x := by
  simp only [process_update_found, table_store_nat] at h
  by_cases hc : uint_add metric 1 ≥ cap.METRIC_UNREACHABLE
  · refine ⟨hc, ?_⟩
    simp only [if_pos hc] at h
    split_ifs at h with h1 h2
    · obtain ⟨_, _, _, _, hspec⟩ := update_min_nic_spec cap
        { curr with neighbor_table := curr.neighbor_table.set k cap.METRIC_UNREACHABLE }
      rcases hspec with ⟨_, _, hall⟩ | ⟨_, _, j, hj, _, _⟩
      · exact hall
      · rw [hj] at h2
        omega
  · simp only [if_neg hc] at h
    split_ifs at h

/-- C9, amended: the cost of an update whose metric is the largest `unsigned int`, so that
`metric + 1` overflows, is the wrapped value 0 and not `METRIC_UNREACHABLE`. On a reachable
table, with the interface in range and `METRIC_UNREACHABLE` above 0: when `find` returns no
record the call links a record with `forwarding_nic = nic`, `forwarding_metric = 0` and the
entry of `nic` set to 0, and prints the advertisement `(ip, netsize, nic, 0, update_id)`;
when `find` returns a record the call stores 0 in its `neighbor_table[nic]` and its
`forwarding_metric` becomes 0. -/
theorem overflowing_metric_stores_wrapped_cost (cap : capacity)
    (hcap : cap.METRIC_UNREACHABLE < 2 ^ 32) (hpos : 0 < cap.METRIC_UNREACHABLE)
    (s : router_state) (hs : Reachable cap s) (ip netsize k update_id : Nat)
    (hk : k < cap.NUM_NICS) :
    (find s ip netsize = none →
      (process_update cap s ip netsize k 4294967295 update_id).2
        = [⟨ip, netsize, k, 0, update_id⟩] ∧
      find_node (process_update cap s ip netsize k 4294967295 update_id).1 ip netsize
        = some ⟨ip, netsize, k, 0,
            (List.replicate cap.NUM_NICS cap.METRIC_UNREACHABLE).set k 0⟩) ∧
    (∀ curr, find_node s ip netsize = some curr →
      ∃ r, find_node (process_update cap s ip netsize k 4294967295 update_id).1 ip netsize
          = some r ∧
        r.neighbor_table = curr.neighbor_table.set k 0 ∧
        r.neighbor_table[k]? = some 0 ∧ r.forwarding_metric = 0) := by
  have cm : uint_add 4294967295 1 = 0 := by decide
  have hnic : nic_in_range cap (k : Int) := ⟨Int.natCast_nonneg k, by exact_mod_cast hk⟩
  constructor
  · intro habs
    rw [process_update_none cap s ip netsize k 4294967295 update_id habs, cm, if_pos hpos]
    refine ⟨rfl, ?_⟩
    have h : find_node (add_new cap s ip netsize k 4294967295) ip netsize
        = some (init_node cap ip netsize k 4294967295) :=
      find_node_add_new_loop (init_node cap ip netsize k 4294967295) ip netsize s rfl rfl
        habs
    have hinit : init_node cap ip netsize k 4294967295
        = ⟨ip, netsize, k, 0, (List.replicate cap.NUM_NICS cap.METRIC_UNREACHABLE).set k 0⟩ := by
      simp only [init_node, cm, table_store_nat]
    rw [hinit] at h
    exact h
  · intro curr hfind
    obtain ⟨p, hf, hp⟩ := find_node_some s ip netsize curr hfind
    have hinv := (reachable_inv cap hcap s hs).1 curr (List.getElem?_mem hp)
    rw [process_update_some cap s ip netsize k 4294967295 update_id p curr hf hp]
    cases hres : process_update_found cap curr ip netsize k 4294967295 update_id with
    | mk res out =>
      cases res with
      | none =>
        have h := (process_update_found_removed cap curr ip netsize k 4294967295 update_id
          (by rw [hres])).1
        rw [cm] at h
        omega
      | some c2 =>
        have h2 := process_update_found_inv cap hcap curr hinv ip netsize k hnic 4294967295
          update_id (by decide) c2 (by rw [hres])
        have htbl := process_update_found_table cap curr ip netsize k 4294967295 update_id c2
          (by rw [hres])
        rw [cm, Nat.min_eq_left (Nat.zero_le _)] at htbl
        have hlen : k < curr.neighbor_table.length := by rw [hinv.1]; exact hk
        have hget : c2.neighbor_table[k]? = some 0 := by
          rw [htbl]
          exact List.getElem?_set_self hlen
        refine ⟨c2, find_node_set s p curr c2 ip netsize hf hp h2.2.1 h2.2.2, htbl, hget, ?_⟩
        have := h2.1.2.2.1 0 (List.getElem?_mem hget)
        omega

theorem overflowing_metric_stores_wrapped_cost_witness :
    (process_update spec_capacity initialize_router 3232235776 24 0 4294967295 1).2
        = [⟨3232235776, 24, 0, 0, 1⟩] ∧
    ∃ r, find_node (process_update spec_capacity
          (process_update spec_capacity initialize_router 3232235776 24 2 5 1).1
          3232235776 24 1 4294967295 2).1 3232235776 24 = some r ∧
      r.neighbor_table
        = (⟨3232235776, 24, 2, 6, [4294967295, 4294967295, 6, 4294967295]⟩ :
            subnet_node).neighbor_table.set 1 0 ∧
      r.neighbor_table[1]? = some 0 ∧ r.forwarding_metric = 0 :=
  ⟨((overflowing_metric_stores_wrapped_cost spec_capacity (by decide) (by decide)
      initialize_router Reachable.init 3232235776 24 0 1 (by decide)).1 (by decide)).1,
    (overflowing_metric_stores_wrapped_cost spec_capacity (by decide) (by decide) _
      (Reachable.step _ 3232235776 24 2 5 1 Reachable.init (by decide) (by decide))
      3232235776 24 1 2 (by decide)).2
      ⟨3232235776, 24, 2, 6, [4294967295, 4294967295, 6, 4294967295]⟩ (by decide)⟩

theorem run_updates_snoc (cap : capacity) (us : List Update) (u : Update) :
    run_updates cap (us ++ [u])
      = (process_update cap (run_updates cap us) u.ip u.netsize u.nic u.metric
          u.update_id).1 := by
  simp [run_updates, List.foldl_append]

theorem last_cost_snoc (cap : capacity) (us : List Update) (u : Update) (ip netsize i : Nat) :
    last_cost cap (us ++ [u]) ip netsize i
      = if u.ip = ip ∧ u.netsize = netsize ∧ u.nic = (i : Int) then
          min (u.metric + 1) cap.METRIC_UNREACHABLE
        else last_cost cap us ip netsize i := by
  simp [last_cost, List.foldl_append]

theorem last_cost_le (cap : capacity) (us : List Update) (ip netsize i : Nat) :
    last_cost cap us ip netsize i ≤ cap.METRIC_UNREACHABLE := by
  induction us using List.reverseRecOn with
  | nil => exact Nat.le_refl _
  | append_singleton us u ih =>
    rw [last_cost_snoc]
    split_ifs
    · exact Nat.min_le_right _ _
    · exact ih

theorem run_updates_inv (cap : capacity) (hcap : cap.METRIC_UNREACHABLE < 2 ^ 32)
    (us : List Update)
    (hus : ∀ u ∈ us, nic_in_range cap u.nic ∧ u.metric + 1 < 2 ^ 32) :
    state_inv cap (run_updates cap us) := by
  induction us using List.reverseRecOn with
  | nil =>
    exact ⟨by simp [run_updates, initialize_router], by simp [run_updates, initialize_router]⟩
  | append_singleton us u ih =>
    obtain ⟨hnic, hm⟩ := hus u (by simp)
    rw [run_updates_snoc]
    exact process_update_inv cap hcap _ (ih (fun v hv => hus v (by simp [hv]))) u.ip
      u.netsize u.nic hnic u.metric u.update_id (by omega)

/-- C20: after any sequence of `process_update` calls with the interface in range and
`metric + 1` not overflowing on an initialised router, a record for a prefix exists exactly
when the latest announcement of some interface for that prefix has a cost below
`METRIC_UNREACHABLE`, and the neighbour table of the record holds, for every interface, the
cost of its latest announcement. -/
theorem table_of_latest_announcements (cap : capacity)
    (hcap : cap.METRIC_UNREACHABLE < 2 ^ 32) (us : List Update)
    (hus : ∀ u ∈ us, nic_in_range cap u.nic ∧ u.metric + 1 < 2 ^ 32) (ip netsize : Nat) :
    ((find_node (run_updates cap us) ip netsize).isSome ↔
      ∃ i, i < cap.NUM_NICS ∧ last_cost cap us ip netsize i < cap.METRIC_UNREACHABLE) ∧
    (∀ r, find_node (run_updates cap us) ip netsize = some r →
      r.neighbor_table.length = cap.NUM_NICS ∧
      ∀ i, i < cap.NUM_NICS →
        r.neighbor_table[i]? = some (last_cost cap us ip netsize i)) := by
  induction us using List.reverseRecOn with
  | nil => simp [run_updates, initialize_router, find_node, find, last_cost]
  | append_singleton us u ih =>
    obtain ⟨hnic, hm⟩ := hus u (by simp)
    have hus2 : ∀ v ∈ us, nic_in_range cap v.nic ∧ v.metric + 1 < 2 ^ 32 :=
      fun v hv => hus v (by simp [hv])
    obtain ⟨ih1, ih2⟩ := ih hus2
    have hinv := run_updates_inv cap hcap us hus2
    have hinv2 := run_updates_inv cap hcap (us ++ [u]) hus
    rw [run_updates_snoc] at hinv2 ⊢
    by_cases hkey : u.ip = ip ∧ u.netsize = netsize
    · obtain ⟨hk1, hk2⟩ := hkey
      subst hk1 hk2
      obtain ⟨k, hk, hklt⟩ := nic_in_range_nat cap u.nic hnic
      have hcost : uint_add u.metric 1 = u.metric + 1 := uint_add_one _ hm
      have hlc : ∀ i, last_cost cap (us ++ [u]) u.ip u.netsize i
          = if k = i then min (u.metric + 1) cap.METRIC_UNREACHABLE
            else last_cost cap us u.ip u.netsize i := by
        intro i
        rw [last_cost_snoc, hk]
        by_cases hki : k = i
        · simp [hki]
        · have : ¬ ((k : Int) = (i : Int)) := by intro h; exact hki (by exact_mod_cast h)
          simp [hki, this]
      cases hf : find (run_updates cap us) u.ip u.netsize with
      | none =>
        have hnone : find_node (run_updates cap us) u.ip u.netsize = none := by
          simp [find_node, hf]
        have hall : ∀ i, i < cap.NUM_NICS →
            last_cost cap us u.ip u.netsize i = cap.METRIC_UNREACHABLE := by
          intro i hi
          have hle := last_cost_le cap us u.ip u.netsize i
          by_contra hne
          have hsome := ih1.2 ⟨i, hi, by omega⟩
          rw [hnone] at hsome
          cases hsome
        rw [process_update_none cap _ u.ip u.netsize u.nic u.metric u.update_id hf]
        by_cases hc : uint_add u.metric 1 < cap.METRIC_UNREACHABLE
        · rw [if_pos hc]
          simp only [add_new]
          rw [find_node_add_new_loop (init_node cap u.ip u.netsize u.nic u.metric) u.ip
            u.netsize _ rfl rfl hf]
          constructor
          · simp only [Option.isSome_some, true_iff]
            refine ⟨k, hklt, ?_⟩
            rw [hlc, if_pos rfl]
            omega
          · intro r hr
            simp only [Option.some.injEq] at hr
            subst hr
            simp only [init_node, hk, table_store_nat, List.length_set, List.length_replicate,
              true_and]
            intro i hi
            rw [hlc, List.getElem?_set]
            by_cases hki : k = i
            · subst hki
              simp only [List.length_replicate, hklt, if_true, hcost]
              congr 1
              omega
            · simp only [if_neg hki, List.getElem?_replicate, if_pos hi, hall i hi]
        · rw [if_neg hc, hnone]
          refine ⟨?_, by intro r hr; cases hr⟩
          simp only [Option.isSome_none, Bool.false_eq_true, false_iff, not_exists, not_and]
          intro i hi
          rw [hlc]
          split_ifs
          · omega
          · rw [hall i hi]
            omega
      | some p =>
        obtain ⟨curr, hp, _, _⟩ := find_some_spec _ u.ip u.netsize p hf
        have hcurr := find_node_of_find _ u.ip u.netsize p curr hf hp
        obtain ⟨hlen, htab⟩ := ih2 curr hcurr
        have hplt : p < (run_updates cap us).length := (List.getElem?_eq_some_iff.1 hp).1
        rw [process_update_some cap _ u.ip u.netsize u.nic u.metric u.update_id p curr hf hp]
          at hinv2 ⊢
        cases hres : process_update_found cap curr u.ip u.netsize u.nic u.metric
            u.update_id with
        | mk res out =>
          rw [hres] at hinv2
          cases res with
          | none =>
            obtain ⟨hun, hallun⟩ := process_update_found_removed cap curr u.ip u.netsize k
              u.metric u.update_id (by rw [← hk, hres])
            have hn : find_node (remove_node (run_updates cap us) p) u.ip u.netsize
                = none := by
              simp [find_node, find_remove_node _ u.ip u.netsize p hinv.2 hf]
            simp only [hn]
            refine ⟨?_, by intro r hr; cases hr⟩
            simp only [Option.isSome_none, Bool.false_eq_true, false_iff, not_exists,
              not_and]
            intro i hi
            rw [hlc]
            split_ifs with hki
            · omega
            · have hget : (curr.neighbor_table.set k cap.METRIC_UNREACHABLE)[i]?
                  = some (last_cost cap us u.ip u.netsize i) := by
                rw [List.getElem?_set_ne hki]
                exact htab i hi
              have := hallun _ (List.getElem?_mem hget)
              omega
          | some c2 =>
            have htbl := process_update_found_table cap curr u.ip u.netsize k u.metric
              u.update_id c2 (by rw [← hk, hres])
            have hkey := process_update_found_key cap curr u.ip u.netsize u.nic u.metric
              u.update_id c2 (by rw [hres])
            have hn := find_node_set _ p curr c2 u.ip u.netsize hf hp hkey.1 hkey.2
            simp only at hinv2 ⊢
            rw [hn]
            have hentries : ∀ i, i < cap.NUM_NICS →
                c2.neighbor_table[i]? = some (last_cost cap (us ++ [u]) u.ip u.netsize i) := by
              intro i hi
              rw [htbl, hlc, List.getElem?_set, hcost]
              by_cases hki : k = i
              · subst hki
                simp [hlen, hklt]
              · simp only [if_neg hki]
                exact htab i hi
            constructor
            · simp only [Option.isSome_some, true_iff]
              obtain ⟨hlen2, hfm, _, j, _, hget, _⟩ :=
                hinv2.1 c2 (List.mem_set _ _ hplt _)
              have hj : j < cap.NUM_NICS := by
                rw [← hlen2]
                exact (List.getElem?_eq_some_iff.1 hget).1
              refine ⟨j, hj, ?_⟩
              have := hentries j hj
              rw [hget] at this
              simp only [Option.some.injEq] at this
              omega
            · intro r hr
              simp only [Option.some.injEq] at hr
              subst hr
              exact ⟨by rw [htbl, List.length_set, hlen], hentries⟩
    · rw [process_update_other cap _ u.ip u.netsize u.nic u.metric u.update_id ip netsize
        hkey]
      have hlc : ∀ i, last_cost cap (us ++ [u]) ip netsize i
          = last_cost cap us ip netsize i := by
        intro i
        rw [last_cost_snoc, if_neg (fun h => hkey ⟨h.1, h.2.1⟩)]
      simp only [hlc]
      exact ⟨ih1, ih2⟩

theorem table_of_latest_announcements_witness :
    find_node (run_updates spec_capacity
        [⟨3232235776, 24, 2, 5, 1⟩, ⟨3232235776, 24, 1, 3, 2⟩, ⟨167772160, 8, 0, 9, 3⟩,
          ⟨3232235776, 24, 2, 4294967294, 4⟩]) 3232235776 24
      = some ⟨3232235776, 24, 1, 4, [4294967295, 4, 4294967295, 4294967295]⟩ ∧
    last_cost spec_capacity
        [⟨3232235776, 24, 2, 5, 1⟩, ⟨3232235776, 24, 1, 3, 2⟩, ⟨167772160, 8, 0, 9, 3⟩,
          ⟨3232235776, 24, 2, 4294967294, 4⟩] 3232235776 24 1 = 4 ∧
    ∀ i, i < spec_capacity.NUM_NICS →
      (⟨3232235776, 24, 1, 4, [4294967295, 4, 4294967295, 4294967295]⟩ :
        subnet_node).neighbor_table[i]?
        = some (last_cost spec_capacity
          [⟨3232235776, 24, 2, 5, 1⟩, ⟨3232235776, 24, 1, 3, 2⟩, ⟨167772160, 8, 0, 9, 3⟩,
            ⟨3232235776, 24, 2, 4294967294, 4⟩] 3232235776 24 i) :=
  ⟨by decide, by decide,
    ((table_of_latest_announcements spec_capacity (by decide)
      [⟨3232235776, 24, 2, 5, 1⟩, ⟨3232235776, 24, 1, 3, 2⟩, ⟨167772160, 8, 0, 9, 3⟩,
        ⟨3232235776, 24, 2, 4294967294, 4⟩] (by decide) 3232235776 24).2
      ⟨3232235776, 24, 1, 4, [4294967295, 4, 4294967295, 4294967295]⟩ (by decide)).2⟩

theorem filter_add_new_loop_other (p : subnet_node → Bool) (new : subnet_node)
    (ip netsize : Nat) (hnew : p new = false) (s : router_state) :
    (add_new_loop new ip netsize s).filter p = s.filter p := by
  induction s with
  | nil => simp [add_new_loop, hnew]
  | cons c rest ih =>
    simp only [add_new_loop]
    split_ifs
    · simp [List.filter_cons, hnew]
    · simp only [List.filter_cons, ih]

theorem filter_set_other (p : subnet_node → Bool) (c2 : subnet_node) (hc2 : p c2 = false) :
    ∀ (s : router_state) (i : Nat) (c : subnet_node), s[i]? = some c → p c = false →
      (s.set i c2).filter p = s.filter p := by
  intro s
  induction s with
  | nil => intro i c h _; simp at h
  | cons x rest ih =>
    intro i c h hc
    cases i with
    | zero =>
      simp only [List.getElem?_cons_zero, Option.some.injEq] at h
      subst h
      simp [List.filter_cons, hc, hc2]
    | succ i =>
      simp only [List.getElem?_cons_succ] at h
      simp only [List.set_cons_succ, List.filter_cons, ih i c h hc]

theorem filter_remove_other (p : subnet_node → Bool) :
    ∀ (s : router_state) (i : Nat) (c : subnet_node), s[i]? = some c → p c = false →
      (remove_node s i).filter p = s.filter p := by
  intro s
  induction s with
  | nil => intro i c h _; simp at h
  | cons x rest ih =>
    intro i c h hc
    cases i with
    | zero =>
      simp only [List.getElem?_cons_zero, Option.some.injEq] at h
      subst h
      simp [remove_node, List.filter_cons, hc]
    | succ i =>
      simp only [List.getElem?_cons_succ] at h
      simp only [remove_node, List.filter_cons, ih i c h hc]

/-- A call of `process_update` for one prefix leaves the list of the records of all other
prefixes as it is: the same records, in the same order. -/
theorem process_update_filter_other (cap : capacity) (s : router_state) (ip netsize : Nat)
    (nic : Int) (metric update_id : Nat) :
    (process_update cap s ip netsize nic metric update_id).1.filter
        (fun c => decide (record_key c ≠ (ip, netsize)))
      = s.filter (fun c => decide (record_key c ≠ (ip, netsize))) := by
  cases hf : find s ip netsize with
  | none =>
    rw [process_update_none cap s ip netsize nic metric update_id hf]
    split_ifs
    · simp only [add_new]
      apply filter_add_new_loop_other
      simp [init_node, record_key]
    · rfl
  | some p =>
    obtain ⟨curr, hp, hkip, hkns⟩ := find_some_spec s ip netsize p hf
    have hcurr : decide (record_key curr ≠ (ip, netsize)) = false := by
      simp [record_key, hkip, hkns]
    rw [process_update_some cap s ip netsize nic metric update_id p curr hf hp]
    cases hres : process_update_found cap curr ip netsize nic metric update_id with
    | mk res out =>
      cases res with
      | none => exact filter_remove_other _ s p curr hp hcurr
      | some c2 =>
        have hkey := process_update_found_key cap curr ip netsize nic metric update_id c2
          (by rw [hres])
        apply filter_set_other _ c2 _ s p curr hp hcurr
        simp [record_key, hkey.1, hkey.2, hkip, hkns]

/-- One call of `process_update` keeps the keys of the table distinct: a record is linked
only when `find` returned `NULL`, and an update in place keeps the key. -/
theorem process_update_keys_nodup (cap : capacity) (s : router_state)
    (hnd : (s.map record_key).Nodup) (ip netsize : Nat) (nic : Int) (metric update_id : Nat) :
    ((process_update cap s ip netsize nic metric update_id).1.map record_key).Nodup := by
  cases hf : find s ip netsize with
  | none =>
    rw [process_update_none cap s ip netsize nic metric update_id hf]
    split_ifs
    · have hperm := add_new_loop_perm (init_node cap ip netsize nic metric) ip netsize s
      refine (hperm.map record_key).nodup_iff.2 ?_
      simp only [List.map_cons, List.nodup_cons]
      refine ⟨?_, hnd⟩
      intro hmem
      rw [List.mem_map] at hmem
      obtain ⟨x, hx, hkey⟩ := hmem
      simp only [record_key, init_node, Prod.mk.injEq] at hkey
      exact (find_none_iff s ip netsize).1 hf x hx hkey
    · exact hnd
  | some p =>
    obtain ⟨curr, hp, _, _⟩ := find_some_spec s ip netsize p hf
    rw [process_update_some cap s ip netsize nic metric update_id p curr hf hp]
    cases hres : process_update_found cap curr ip netsize nic metric update_id with
    | mk res out =>
      cases res with
      | none =>
        simp only [remove_node_eq_eraseIdx]
        exact hnd.sublist ((List.eraseIdx_sublist s p).map record_key)
      | some c2 =>
        have hkey := process_update_found_key cap curr ip netsize nic metric update_id c2
          (by rw [hres])
        simp only [map_key_set s p curr c2 hp hkey.1 hkey.2]
        exact hnd

theorem reachable_keys_nodup (cap : capacity) (s : router_state) (hs : Reachable cap s) :
    (s.map record_key).Nodup := by
  induction hs with
  | init => simp [initialize_router]
  | step s ip netsize nic metric update_id _ _ _ ih =>
    exact process_update_keys_nodup cap s ih ip netsize nic metric update_id

/-- In a table with distinct keys, `find` on the key of the record at position `p` returns
position `p`. -/
theorem find_of_keys_nodup :
    ∀ (s : router_state), (s.map record_key).Nodup → ∀ (p : Nat) (c : subnet_node),
      s[p]? = some c → find s c.subnet_ip c.netsize = some p := by
  intro s
  induction s with
  | nil => intro _ p c h; simp at h
  | cons x rest ih =>
    intro hnd p c h
    simp only [List.map_cons, List.nodup_cons] at hnd
    cases p with
    | zero =>
      simp only [List.getElem?_cons_zero, Option.some.injEq] at h
      subst h
      simp [find]
    | succ p =>
      simp only [List.getElem?_cons_succ] at h
      have hx : ¬ (x.subnet_ip = c.subnet_ip ∧ x.netsize = c.netsize) := by
        intro hk
        apply hnd.1
        rw [List.mem_map]
        exact ⟨c, List.getElem?_mem h, by simp [record_key, hk.1, hk.2]⟩
      simp only [find, if_neg hx, ih hnd.2 p c h, Option.map_some']

/-- C21: in every route table reachable by `process_update` calls no two positions of the
list hold records with the same `(subnet_ip, netsize)`, and `find` on the key of a record
returns the position of that very record; and a `process_update` call for `(ip, netsize)`
leaves the list of the records with a different key as it is, the same records with the
same content in the same relative order. -/
theorem keys_unique_updates_local (cap : capacity) (s : router_state)
    (hs : Reachable cap s) :
    (∀ (p q : Nat) (c d : subnet_node), s[p]? = some c → s[q]? = some d →
      c.subnet_ip = d.subnet_ip → c.netsize = d.netsize → p = q) ∧
    (∀ (p : Nat) (c : subnet_node), s[p]? = some c →
      find s c.subnet_ip c.netsize = some p) ∧
    (∀ (ip netsize : Nat) (nic : Int) (metric update_id : Nat),
      nic_in_range cap nic → metric < 2 ^ 32 →
      (process_update cap s ip netsize nic metric update_id).1.filter
          (fun c => decide (record_key c ≠ (ip, netsize)))
        = s.filter (fun c => decide (record_key c ≠ (ip, netsize)))) := by
  have hnd := reachable_keys_nodup cap s hs
  refine ⟨?_, find_of_keys_nodup s hnd, ?_⟩
  · intro p q c d hp hq hip hns
    have h1 := find_of_keys_nodup s hnd p c hp
    have h2 := find_of_keys_nodup s hnd q d hq
    rw [hip, hns, h2] at h1
    exact (Option.some.inj h1).symm
  · intro ip netsize nic metric update_id _ _
    exact process_update_filter_other cap s ip netsize nic metric update_id

theorem keys_unique_updates_local_witness :
    find (process_update spec_capacity (process_update spec_capacity initialize_router
        3232235776 24 2 5 1).1 167772160 8 0 9 3).1 167772160 8 = some 1 ∧
    ((process_update spec_capacity (process_update spec_capacity
        (process_update spec_capacity initialize_router 3232235776 24 2 5 1).1
        167772160 8 0 9 3).1 3232235776 24 1 3 2).1.filter
        (fun c => decide (record_key c ≠ (3232235776, 24)))
      = (process_update spec_capacity (process_update spec_capacity initialize_router
          3232235776 24 2 5 1).1 167772160 8 0 9 3).1.filter
          (fun c => decide (record_key c ≠ (3232235776, 24)))) ∧
    (process_update spec_capacity (process_update spec_capacity initialize_router
        3232235776 24 2 5 1).1 167772160 8 0 9 3).1.filter
        (fun c => decide (record_key c ≠ (3232235776, 24)))
      = [⟨167772160, 8, 0, 10, [10, 4294967295, 4294967295, 4294967295]⟩] :=
  ⟨(keys_unique_updates_local spec_capacity _
      (Reachable.step _ 167772160 8 0 9 3
        (Reachable.step _ 3232235776 24 2 5 1 Reachable.init (by decide) (by decide))
        (by decide) (by decide))).2.1 1
      ⟨167772160, 8, 0, 10, [10, 4294967295, 4294967295, 4294967295]⟩ (by decide),
    (keys_unique_updates_local spec_capacity _
      (Reachable.step _ 167772160 8 0 9 3
        (Reachable.step _ 3232235776 24 2 5 1 Reachable.init (by decide) (by decide))
        (by decide) (by decide))).2.2 3232235776 24 1 3 2 (by decide) (by decide),
    by decide⟩

end Route
